import Mathlib

/-! VSL compiler front end: syntax tree rewriting and symbol tables.

A shallow embedding of `tree.c` (assignment 3) and `symbols.c` (assignment 4)
of the VSL compiler and of the table-driven `scanner.c` (assignment 1), and
theorems about the embedded functions.

Conventions of the embedding:

* a `node_t *` stored in a child array is never `NULL` (the data-model
  invariant of the tree), so a node owns a `List Node`;
* the payload `void *data` is a tagged value that records what the pointer
  points to; a read or write through a pointer type that the pointee does not
  support is a `Fault`: through a `NULL` pointer, through a `size_t` kept in
  the pointer, of a string where a number cell is, or of an `int64_t` where a
  string is; the accesses that `peephole_optimize_node` makes to a string
  through `int *` and `int64_t *` act on the bytes of the string;
* `int64_t` and `int` values are integers; sums, differences, products and left
  shifts are reduced into the two's-complement range, and a shift takes its
  amount modulo 64, as the shift instructions of a 64-bit target do, while a
  division by zero and the quotient of the least `int64_t` by `-1` trap and are
  faults; the target is little-endian with a 32-bit `int`;
* a string sits in an allocation of at least eight bytes whose bytes after the
  terminator are zero, so that an `int` read from it and an `int64_t` written
  to it stay inside the allocation;
* a function that can fault returns `Except Fault _`;
* the bytes that `getchar` delivers are natural numbers, the character
  constants of `scanner.c` their ASCII codes; a two-dimensional `int` array is
  a function of its two indices, read through a bounds check; a store into
  `lexeme_buffer`, which the source does not bound, reaches the memory that
  follows the array.
-/

namespace Vslc

/-! ## Data model -/

/-- Modelled from the spec: the enumeration `node_type_t` is declared in a header
that is not among the sources. The kinds named by `tree.c` and `symbols.c` are
`LIST`, `GLOBAL_DECLARATION`, `ARRAY_INDEXING`, `FUNCTION`, `BLOCK`, `RELATION`,
`EXPRESSION`, `IDENTIFIER_DATA`, `NUMBER_DATA`, `STRING_DATA` and
`STRING_LIST_REFERENCE`; the statement kinds stand for the remaining kinds of
the data model. The numeric value of a kind is not fixed here. -/
inductive NodeType where
  | LIST
  | GLOBAL_DECLARATION
  | ARRAY_INDEXING
  | VARIABLE
  | FUNCTION
  | BLOCK
  | RETURN_STATEMENT
  | PRINT_STATEMENT
  | ASSIGNMENT_STATEMENT
  | IF_STATEMENT
  | WHILE_STATEMENT
  | BREAK_STATEMENT
  | RELATION
  | EXPRESSION
  | FUNCTION_CALL
  | IDENTIFIER_DATA
  | NUMBER_DATA
  | STRING_DATA
  | STRING_LIST_REFERENCE
  deriving DecidableEq, Repr

/-- What the `void *data` field of a node points to. -/
inductive Payload where
  /-- the pointer is `NULL` -/
  | null
  /-- a `char *` to a NUL-terminated string -/
  | str (s : String)
  /-- an `int64_t *` to a cell holding `v` -/
  | num (v : Int)
  /-- a `size_t` stored in the pointer itself -/
  | pos (n : Nat)
  deriving DecidableEq, Repr

/-- Modelled from the spec: `symtype_t`, the kinds of symbol, is declared in a
header that is not among the sources; the constants are those `symbols.c`
uses. -/
inductive SymType where
  | SYMBOL_GLOBAL_VAR
  | SYMBOL_GLOBAL_ARRAY
  | SYMBOL_FUNCTION
  | SYMBOL_PARAMETER
  | SYMBOL_LOCAL_VAR
  deriving DecidableEq, Repr

/-- Identity of a symbol table: the global one, or the local table created for
the `i`-th top-level declaration (a function). -/
inductive TableId where
  | global
  | local_of (i : Nat)
  deriving DecidableEq, Repr

/-- Modelled from the spec: `symbol_t` is declared in a header that is not among
the sources; the fields are those `symbols.c` assigns. The back-reference to
the declaring node is left out (no embedded function reads it);
`function_symtable` is the identity of the table it points to. -/
structure Symbol where
  name : String
  type : SymType
  sequence_number : Nat
  function_symtable : Option TableId
  deriving DecidableEq, Repr

/-- Modelled from the spec: `node_t` is declared in a header that is not among
the sources; the fields are those `node_create` and `constant_fold_node`
initialise: kind, payload, bound symbol (`NULL` is `none`) and children. -/
inductive Node where
  | mk (type : NodeType) (data : Payload) (symbol : Option Symbol) (children : List Node)
  deriving Repr

/-- The ways an execution can leave defined behaviour. -/
inductive Fault where
  /-- integer division with a zero divisor -/
  | division_by_zero
  /-- integer division of the least `int64_t` by `-1` -/
  | division_overflow
  /-- read of `children[i]` with `i >= n_children` -/
  | child_out_of_bounds
  /-- access through `data` that the pointee does not support -/
  | bad_payload_access
  /-- access through a `NULL` pointer to a node, symbol or table -/
  | null_dereference
  /-- an `assert` whose condition is false -/
  | assertion_failure
  /-- access to an array element outside the array -/
  | index_out_of_bounds
  deriving DecidableEq, Repr

namespace Node

def type : Node → NodeType
  | mk t _ _ _ => t

def data : Node → Payload
  | mk _ d _ _ => d

def symbol : Node → Option Symbol
  | mk _ _ s _ => s

def children : Node → List Node
  | mk _ _ _ cs => cs

end Node

/-! ## Machine integers -/

/-- Reduce into the range of `int64_t`. -/
def wrap64 (v : Int) : Int :=
  (v + 2 ^ 63) % 2 ^ 64 - 2 ^ 63

/-- Reduce into the range of `int`. -/
def wrap32 (v : Int) : Int :=
  (v + 2 ^ 31) % 2 ^ 32 - 2 ^ 31

/-! ## Payload accesses -/

/-- Use of `data` as a `char *` (argument of `strcmp`). -/
def Payload.as_string : Payload → Except Fault String
  | .str s => .ok s
  | _ => .error .bad_payload_access

/-- The read `*(int64_t *) data`. -/
def Payload.read_int64 : Payload → Except Fault Int
  | .num v => .ok v
  | _ => .error .bad_payload_access

/-- The bytes of a string in memory (UTF-8), without the terminator. -/
def string_bytes (s : String) : List Nat :=
  s.data.flatMap (fun c => (String.utf8EncodeChar c).map UInt8.toNat)

/-- Little-endian value of four bytes as an `int`. -/
def int_of_bytes (b0 b1 b2 b3 : Nat) : Int :=
  wrap32 (Int.ofNat (b0 + 256 * b1 + 65536 * b2 + 16777216 * b3))

/-- The read `*(int *) data`, made without a test of what `data` points to: the
low half of an `int64_t` cell, or the first four bytes of a string buffer, where
the terminator and the bytes after it are zero; a `NULL` pointer and a `size_t`
kept in the pointer are not addresses that can be read. -/
def Payload.read_int : Payload → Except Fault Int
  | .num v => .ok (wrap32 v)
  | .str s =>
    let bytes := string_bytes s
    .ok (int_of_bytes (bytes.getD 0 0) (bytes.getD 1 0) (bytes.getD 2 0) (bytes.getD 3 0))
  | _ => .error .bad_payload_access

/-- The C string held by the eight bytes of an `int64_t` between `0` and `127`:
the low byte, when it is not zero, and then the terminator. -/
def int64_c_string (v : Int) : String :=
  if v = 0 then "" else String.singleton (Char.ofNat v.toNat)

/-- The write `*(int64_t *) data = v`, made without a test of what `data` points
to: a number cell takes the value; a string buffer takes the eight bytes of the
value and from then on holds the C string they spell (values outside `0..127`,
which no caller writes, are left out); a `NULL` pointer and a `size_t` kept in
the pointer are not addresses that can be written. -/
def Payload.write_int64 : Payload → Int → Except Fault Payload
  | .num _, v => .ok (.num v)
  | .str _, v =>
    if 0 ≤ v ∧ v < 128 then .ok (.str (int64_c_string v)) else .error .bad_payload_access
  | _, _ => .error .bad_payload_access

/-! ## `tree.c` -/

def is_operator (operator : String) : Bool :=
  operator = "+" || operator = "-" ||
  operator = "*" || operator = "/" ||
  operator = "<<" || operator = ">>"

/-- The least value of `int64_t`. -/
def INT64_MIN : Int := -9223372036854775808

/-- Helper of constant folding. Sums, differences, products and left shifts
that leave the range of `int64_t` are reduced into it; `/` truncates toward
zero and has no value for a zero divisor nor for `INT64_MIN / -1`; `>>` is the
arithmetic shift; the source does not test the amount of a shift, and the
shift is made by the amount modulo 64, which for an amount in `0..63` is the
amount itself. -/
def perform_operation (operator : String) (a b : Int) : Except Fault Int :=
  if operator = "+" then .ok (wrap64 (a + b))
  else if operator = "-" then .ok (wrap64 (a - b))
  else if operator = "*" then .ok (wrap64 (a * b))
  else if operator = "/" then
    if b = 0 then .error .division_by_zero
    else if a = INT64_MIN ∧ b = -1 then .error .division_overflow
    else .ok (Int.tdiv a b)
  else if operator = "<<" then
    .ok (wrap64 (a * 2 ^ (b % 64).toNat))
  else if operator = ">>" then
    .ok (a / 2 ^ (b % 64).toNat)
  else .ok 0

/-- The loop `for (i = 1; i < n_children; i++) result = perform_operation(...)`
over the children after the first. -/
def fold_operands (operator : String) : Int → List Node → Except Fault Int
  | result, [] => .ok result
  | result, c :: cs =>
    match c.data.read_int64 with
    | .error e => .error e
    | .ok operand =>
      match perform_operation operator result operand with
      | .error e => .error e
      | .ok r => fold_operands operator r cs

/-- The node built at the end of `constant_fold_node`. -/
def folded_node (result : Int) : Node :=
  .mk .NUMBER_DATA (.num result) none []

def constant_fold_node (node : Node) : Except Fault Node :=
  if node.type ≠ .EXPRESSION then .ok node
  else if node.children.any (fun c => c.type ≠ .NUMBER_DATA) then .ok node
  else
    match node.data.as_string with
    | .error e => .error e
    | .ok operator =>
      if !is_operator operator then .ok node
      else
        match node.children with
        | [] => .error .child_out_of_bounds
        | c0 :: rest =>
          match c0.data.read_int64 with
          | .error e => .error e
          | .ok v0 =>
            match (if rest.isEmpty then perform_operation operator 0 v0 else .ok v0) with
            | .error e => .error e
            | .ok result =>
              match fold_operands operator result rest with
              | .error e => .error e
              | .ok r => .ok (folded_node r)

/-- The loop `while (factor > 1) { power++; factor >>= 1; }`; the first argument
bounds the number of iterations. -/
def shift_loop : Nat → Int → Int → Int
  | 0, _, power => power
  | fuel + 1, factor, power =>
    if factor > 1 then shift_loop fuel (factor / 2) (power + 1) else power

/-- The test `(factor & (factor - 1)) == 0` on the bit patterns of two `int`s. -/
def and_pred_is_zero (factor : Int) : Bool :=
  Nat.land (factor % 2 ^ 32).toNat (wrap32 (factor - 1) % 2 ^ 32).toNat = 0

/-- Replace the payload of `children[1]` by `power`. -/
def set_second_payload (children : List Node) (power : Int) : Except Fault (List Node) :=
  match children with
  | c0 :: .mk t d s cs :: rest =>
    match d.write_int64 power with
    | .error e => .error e
    | .ok d1 => .ok (c0 :: .mk t d1 s cs :: rest)
  | _ => .error .child_out_of_bounds

def peephole_optimize_node (node : Node) : Except Fault Node :=
  if node.type ≠ .EXPRESSION then .ok node
  else
    match node.data.as_string with
    | .error e => .error e
    | .ok operator =>
      if operator = "*" ∨ operator = "/" then
        match node.children with
        | c0 :: c1 :: _ =>
          match c1.data.read_int with
          | .error e => .error e
          | .ok factor =>
            if factor ≠ 1 ∧ factor ≠ 0 ∧ and_pred_is_zero factor then
              let power := shift_loop 32 factor 0
              match set_second_payload node.children power with
              | .error e => .error e
              | .ok cs =>
                .ok (.mk .EXPRESSION (.str (if operator = "*" then "<<" else ">>")) node.symbol cs)
            else if factor = 1 then .ok c0
            else .ok node
        | _ => .error .child_out_of_bounds
      else .ok node

mutual
def simplify_subtree : Node → Except Fault Node
  | .mk t d s cs =>
    match simplify_children cs with
    | .error e => .error e
    | .ok cs1 =>
      match constant_fold_node (.mk t d s cs1) with
      | .error e => .error e
      | .ok n => peephole_optimize_node n
def simplify_children : List Node → Except Fault (List Node)
  | [] => .ok []
  | c :: cs =>
    match simplify_subtree c with
    | .error e => .error e
    | .ok c1 =>
      match simplify_children cs with
      | .error e => .error e
      | .ok cs1 => .ok (c1 :: cs1)
end

/-- The two statements `node = constant_fold_node(node); node = peephole_optimize_node(node);`
at the end of `simplify_subtree`. -/
def fold_then_peephole (node : Node) : Except Fault Node :=
  match constant_fold_node node with
  | .error e => .error e
  | .ok n => peephole_optimize_node n

mutual
/-- A tree on which neither rewrite has anything left to do, at any level: the
two rewrites return every node of it as it is. -/
def simplified : Node → Prop
  | .mk t d s cs => simplified_list cs ∧ fold_then_peephole (.mk t d s cs) = .ok (.mk t d s cs)
def simplified_list : List Node → Prop
  | [] => True
  | c :: cs => simplified c ∧ simplified_list cs
end

/-- A `NUMBER_DATA` leaf holding `v`, as the parser builds it. -/
def number_literal (v : Int) : Node :=
  .mk .NUMBER_DATA (.num v) none []

/-- The value the claims assign to a folded node: the left-to-right fold of
`perform_operation` over a list of operand values. -/
def fold_values (operator : String) : Int → List Int → Except Fault Int
  | acc, [] => .ok acc
  | acc, v :: vs =>
    match perform_operation operator acc v with
    | .error e => .error e
    | .ok r => fold_values operator r vs


/-! ## `symbols.c` -/

/-- Modelled from the spec: `insert_result_t`, the result of an insertion, is
declared in a header that is not among the sources. -/
inductive InsertResult where
  | INSERT_OK
  | INSERT_COLLISION
  deriving DecidableEq, Repr

/-- Modelled from the spec: `symbol_hashmap_t`, a scope frame, is declared in a
header that is not among the sources. A frame is a name-to-symbol map for one
lexical level (its entries, in insertion order, with at most one entry per name)
plus the link `backup` to the enclosing frame: `NULL` for the frame of the
global table, the frame of the global table for the outermost frame of a
function, another frame of the same table for a block. -/
inductive Hashmap where
  | root (entries : List Symbol)
  | over_global (entries : List Symbol)
  | nested (entries : List Symbol) (backup : Hashmap)
  deriving DecidableEq, Repr

/-- Modelled from the spec: `symbol_table_t` is declared in a header that is not
among the sources: the ordered sequence of the symbols the table owns (order is
sequence number) and the table's current scope frame. -/
structure SymbolTable where
  symbols : List Symbol
  hashmap : Hashmap
  deriving DecidableEq, Repr

/-- The `printf` calls that report a rejected insertion, with the payload each
prints. -/
inductive Report where
  | parameter_collision (data : Payload)
  | function_collision (data : Payload)
  | global_collision (data : Payload)
  | local_collision (data : Payload)
  deriving DecidableEq, Repr

/-- The global state of `symbols.c`: the global symbol table, the local table
created for the `i`-th top-level declaration, the string list with its capacity,
and the reports printed so far. -/
structure Tables where
  global_symbols : SymbolTable
  local_tables : List (Nat × SymbolTable)
  string_list : List Payload
  string_list_capacity : Nat
  reports : List Report
  deriving DecidableEq, Repr

/-- What `bind_names` works on: the table `local_symbols` points to (`none` for
a `NULL` pointer), the string list with its capacity, and the reports. -/
structure BindState where
  local_symbols : Option SymbolTable
  string_list : List Payload
  string_list_capacity : Nat
  reports : List Report
  deriving DecidableEq, Repr

namespace Hashmap

def entries : Hashmap → List Symbol
  | root es => es
  | over_global es => es
  | nested es _ => es

def set_entries : Hashmap → List Symbol → Hashmap
  | root _, es => root es
  | over_global _, es => over_global es
  | nested _ b, es => nested es b

/-- The frame `backup` points to, when it is a frame of the same table. -/
def pop : Hashmap → Hashmap
  | nested _ b => b
  | h => h

end Hashmap

/-- The entry of one frame for a name. -/
def frame_lookup (entries : List Symbol) (name : String) : Option Symbol :=
  entries.find? (fun s => s.name = name)

/-- Modelled from the spec: `symbol_table_init` is not among the sources: a table
without symbols whose current frame is empty and has no enclosing frame. -/
def symbol_table_init : SymbolTable :=
  { symbols := [], hashmap := .root [] }

/-- Modelled from the spec: `symbol_hashmap_lookup` is not among the sources:
chained lookup, the given frame first, then each backup frame in order, ending
at the frame of the global table (`global`). -/
def symbol_hashmap_lookup (global : List Symbol) : Hashmap → String → Option Symbol
  | .root es, name => frame_lookup es name
  | .over_global es, name =>
    match frame_lookup es name with
    | some s => some s
    | none => frame_lookup global name
  | .nested es backup, name =>
    match frame_lookup es name with
    | some s => some s
    | none => symbol_hashmap_lookup global backup name

/-- Modelled from the spec: `symbol_table_insert` is not among the sources.
A name already present in the table's current frame is a collision: the
insertion is rejected and the table is left as it is. Otherwise the symbol gets
the next sequence number of the table, is appended to the table's sequence and
is entered in the current frame. -/
def symbol_table_insert (table : SymbolTable) (symbol : Symbol) : SymbolTable × InsertResult :=
  match frame_lookup table.hashmap.entries symbol.name with
  | some _ => (table, .INSERT_COLLISION)
  | none =>
    let inserted := { symbol with sequence_number := table.symbols.length }
    ({ symbols := table.symbols ++ [inserted],
       hashmap := table.hashmap.set_entries (table.hashmap.entries ++ [inserted]) },
     .INSERT_OK)

/-- One numbering of the node kinds: the order in which `NodeType` lists them.
The header that fixes the enumeration is not among the sources, so `bind_names`
takes the numbering as a parameter; in this one the kinds numbered `6..11` are
the six statement kinds, the nodes that the comment on
`bind_statement_identifier_data` calls statement nodes. -/
def node_type_code : NodeType → Nat
  | .LIST => 0
  | .GLOBAL_DECLARATION => 1
  | .ARRAY_INDEXING => 2
  | .VARIABLE => 3
  | .FUNCTION => 4
  | .BLOCK => 5
  | .RETURN_STATEMENT => 6
  | .PRINT_STATEMENT => 7
  | .ASSIGNMENT_STATEMENT => 8
  | .IF_STATEMENT => 9
  | .WHILE_STATEMENT => 10
  | .BREAK_STATEMENT => 11
  | .RELATION => 12
  | .EXPRESSION => 13
  | .FUNCTION_CALL => 14
  | .IDENTIFIER_DATA => 15
  | .NUMBER_DATA => 16
  | .STRING_DATA => 17
  | .STRING_LIST_REFERENCE => 18

mutual
def find_identifiers_parent : Node → Except Fault (Option Node)
  | .mk t d s cs =>
    match cs with
    | [] => .error .child_out_of_bounds
    | c0 :: _ =>
      if c0.type = .IDENTIFIER_DATA then .ok (some (.mk t d s cs))
      else find_identifiers_parent_children cs
/-- The loop of `find_identifiers_parent` over the children. -/
def find_identifiers_parent_children : List Node → Except Fault (Option Node)
  | [] => .ok none
  | c :: cs =>
    match find_identifiers_parent c with
    | .error e => .error e
    | .ok (some result) => .ok (some result)
    | .ok none => find_identifiers_parent_children cs
end

/-- The loop of `find_globals` over the parameters of the function node
`function`, whose local table has identity `id`. -/
def insert_parameters (function : Node) (id : TableId) :
    SymbolTable → List Report → List Node → Except Fault (SymbolTable × List Report)
  | local_symbols, reports, [] => .ok (local_symbols, reports)
  | local_symbols, reports, parameter_data_node :: rest =>
    match parameter_data_node.data.as_string with
    | .error e => .error e
    | .ok name =>
      let symbol : Symbol :=
        { name := name, type := .SYMBOL_PARAMETER, sequence_number := 0,
          function_symtable := some id }
      match symbol_table_insert local_symbols symbol with
      | (table, .INSERT_COLLISION) =>
        insert_parameters function id table
          (reports ++ [.parameter_collision function.data]) rest
      | (table, .INSERT_OK) => insert_parameters function id table reports rest

/-- The loop of `find_globals` over the children of the identifiers' parent of
the global declaration `declaration`. -/
def insert_globals (declaration : Node) (type : SymType) :
    SymbolTable → List Report → List Node → Except Fault (SymbolTable × List Report)
  | global_symbols, reports, [] => .ok (global_symbols, reports)
  | global_symbols, reports, identifier_data_node :: rest =>
    if identifier_data_node.type = .IDENTIFIER_DATA then
      match identifier_data_node.data.as_string with
      | .error e => .error e
      | .ok name =>
        let symbol : Symbol :=
          { name := name, type := type, sequence_number := 0, function_symtable := none }
        match symbol_table_insert global_symbols symbol with
        | (table, .INSERT_COLLISION) =>
          insert_globals declaration type table
            (reports ++ [.global_collision declaration.data]) rest
        | (table, .INSERT_OK) => insert_globals declaration type table reports rest
    else insert_globals declaration type global_symbols reports rest

/-- The body of the loop of `find_globals` for the top-level child `child` at
index `i`. -/
def find_globals_child (i : Nat) (child : Node) (tables : Tables) : Except Fault Tables :=
  if child.type = .FUNCTION then
    match child.children with
    | identifier_data_node :: parameters_parent :: _ =>
      match identifier_data_node.data.as_string with
      | .error e => .error e
      | .ok name =>
        let symbol : Symbol :=
          { name := name, type := .SYMBOL_FUNCTION, sequence_number := 0,
            function_symtable := some (.local_of i) }
        match insert_parameters child (.local_of i)
            { symbols := [], hashmap := .over_global [] } tables.reports
            parameters_parent.children with
        | .error e => .error e
        | .ok (local_symbols, reports) =>
          match symbol_table_insert tables.global_symbols symbol with
          | (table, .INSERT_COLLISION) =>
            .ok { tables with
                  global_symbols := table
                  local_tables := tables.local_tables ++ [(i, local_symbols)]
                  reports := reports ++ [.function_collision child.data] }
          | (table, .INSERT_OK) =>
            .ok { tables with
                  global_symbols := table
                  local_tables := tables.local_tables ++ [(i, local_symbols)]
                  reports := reports }
    | _ => .error .child_out_of_bounds
  else if child.type = .GLOBAL_DECLARATION then
    match find_identifiers_parent child with
    | .error e => .error e
    | .ok none => .error .null_dereference
    | .ok (some identifiers_parent) =>
      let type : SymType :=
        if identifiers_parent.type = .ARRAY_INDEXING then .SYMBOL_GLOBAL_ARRAY
        else .SYMBOL_GLOBAL_VAR
      match insert_globals child type tables.global_symbols tables.reports
          identifiers_parent.children with
      | .error e => .error e
      | .ok (table, reports) => .ok { tables with global_symbols := table, reports := reports }
  else .ok tables

/-- The loop of `find_globals` over the children of the root from index `i`. -/
def find_globals_loop : Nat → List Node → Tables → Except Fault Tables
  | _, [], tables => .ok tables
  | i, child :: rest, tables =>
    match find_globals_child i child tables with
    | .error e => .error e
    | .ok tables1 => find_globals_loop (i + 1) rest tables1

/-- The state before `create_tables`: the global table is set by `find_globals`,
the string list is empty with capacity zero. -/
def initial_tables : Tables :=
  { global_symbols := symbol_table_init, local_tables := [], string_list := [],
    string_list_capacity := 0, reports := [] }

def find_globals (root : Node) : Except Fault Tables :=
  find_globals_loop 0 root.children initial_tables

def add_string (state : BindState) (string : Payload) : BindState × Nat :=
  let capacity :=
    if state.string_list.length + 1 ≥ state.string_list_capacity then
      state.string_list_capacity * 2 + 8
    else state.string_list_capacity
  ({ state with string_list := state.string_list ++ [string], string_list_capacity := capacity },
   state.string_list.length + 1 - 1)

mutual
def bind_statement_identifier_data (global : List Symbol) :
    BindState → Node → Except Fault (BindState × Node)
  | state, .mk t d s cs =>
    if t = .IDENTIFIER_DATA then
      match state.local_symbols with
      | none => .error .null_dereference
      | some local_symbols =>
        match d.as_string with
        | .error e => .error e
        | .ok name =>
          .ok (state, .mk t d (symbol_hashmap_lookup global local_symbols.hashmap name) cs)
    else if t = .STRING_DATA then
      match add_string state d with
      | (state1, position) => .ok (state1, .mk .STRING_LIST_REFERENCE (.pos position) s cs)
    else
      match bind_statement_identifier_data_children global state cs with
      | .error e => .error e
      | .ok (state1, cs1) => .ok (state1, .mk t d s cs1)
/-- The loop of `bind_statement_identifier_data` over the children. -/
def bind_statement_identifier_data_children (global : List Symbol) :
    BindState → List Node → Except Fault (BindState × List Node)
  | state, [] => .ok (state, [])
  | state, c :: cs =>
    match bind_statement_identifier_data global state c with
    | .error e => .error e
    | .ok (state1, c1) =>
      match bind_statement_identifier_data_children global state1 cs with
      | .error e => .error e
      | .ok (state2, cs1) => .ok (state2, c1 :: cs1)
end

mutual
/-- The function `bind_names`; `code` is the numbering of the node kinds,
`global` the entries of the frame of the global table and `id` the identity of
the table `local_symbols` points to. -/
def bind_names (code : NodeType → Nat) (global : List Symbol) (id : TableId) :
    BindState → Node → Except Fault (BindState × Node)
  | state, .mk t d s cs =>
    if t = .IDENTIFIER_DATA then
      match state.local_symbols with
      | none => .error .null_dereference
      | some local_symbols =>
        match d.as_string with
        | .error e => .error e
        | .ok name =>
          let symbol : Symbol :=
            { name := name, type := .SYMBOL_LOCAL_VAR, sequence_number := 0,
              function_symtable := some id }
          match symbol_table_insert local_symbols symbol with
          | (table, .INSERT_COLLISION) =>
            .ok ({ state with local_symbols := some table
                              reports := state.reports ++ [.local_collision d] },
                 .mk t d s cs)
          | (table, .INSERT_OK) =>
            .ok ({ state with local_symbols := some table }, .mk t d s cs)
    else if t = .STRING_DATA then
      match add_string state d with
      | (state1, position) => .ok (state1, .mk .STRING_LIST_REFERENCE (.pos position) s cs)
    else if 6 ≤ code t ∧ code t ≤ 11 then
      bind_statement_identifier_data global state (.mk t d s cs)
    else if t = .BLOCK then
      match state.local_symbols with
      | none => .error .null_dereference
      | some local_symbols =>
        let block_scope : Hashmap := .nested [] local_symbols.hashmap
        let pushed : BindState :=
          { state with local_symbols := some { local_symbols with hashmap := block_scope } }
        match bind_names_children code global id pushed cs with
        | .error e => .error e
        | .ok (state1, cs1) =>
          match state1.local_symbols with
          | none => .error .null_dereference
          | some table =>
            .ok ({ state1 with local_symbols := some { table with hashmap := table.hashmap.pop } },
                 .mk t d s cs1)
    else
      match bind_names_children code global id state cs with
      | .error e => .error e
      | .ok (state1, cs1) => .ok (state1, .mk t d s cs1)
/-- The loops of `bind_names` over the children. -/
def bind_names_children (code : NodeType → Nat) (global : List Symbol) (id : TableId) :
    BindState → List Node → Except Fault (BindState × List Node)
  | state, [] => .ok (state, [])
  | state, c :: cs =>
    match bind_names code global id state c with
    | .error e => .error e
    | .ok (state1, c1) =>
      match bind_names_children code global id state1 cs with
      | .error e => .error e
      | .ok (state2, cs1) => .ok (state2, c1 :: cs1)
end

/-- The local table with identity `local_of i`. -/
def lookup_table (tables : List (Nat × SymbolTable)) (i : Nat) : Option SymbolTable :=
  match tables.find? (fun p => p.1 = i) with
  | some p => some p.2
  | none => none

/-- Store `table` as the local table with identity `local_of i`. -/
def store_table (tables : List (Nat × SymbolTable)) (i : Nat) (table : SymbolTable) :
    List (Nat × SymbolTable) :=
  tables.map (fun p => if p.1 = i then (i, table) else p)

/-- The table a `function_symtable` pointer points to, with its identity; the
pointer of a global variable is `NULL`, and no symbol points to the global
table. -/
def function_table (tables : Tables) (symbol : Symbol) : TableId × Option SymbolTable :=
  match symbol.function_symtable with
  | some (.local_of i) => (.local_of i, lookup_table tables.local_tables i)
  | _ => (.global, none)

/-- The body of the loop of `create_tables` for one top-level child. -/
def create_tables_child (code : NodeType → Nat) (child : Node) (tables : Tables) :
    Except Fault (Tables × Node) :=
  if child.type = .FUNCTION then
    match child with
    | .mk t d s (c0 :: c1 :: c2 :: rest) =>
      match c0.data.as_string with
      | .error e => .error e
      | .ok name =>
        match symbol_hashmap_lookup tables.global_symbols.hashmap.entries
            tables.global_symbols.hashmap name with
        | none => .error .null_dereference
        | some symbol =>
          match function_table tables symbol with
          | (id, local_symbols) =>
            match bind_names code tables.global_symbols.hashmap.entries id
                { local_symbols := local_symbols, string_list := tables.string_list,
                  string_list_capacity := tables.string_list_capacity,
                  reports := tables.reports } c2 with
            | .error e => .error e
            | .ok (state, body) =>
              let local_tables : List (Nat × SymbolTable) :=
                match id, state.local_symbols with
                | .local_of i, some table => store_table tables.local_tables i table
                | _, _ => tables.local_tables
              .ok ({ tables with
                     local_tables := local_tables
                     string_list := state.string_list
                     string_list_capacity := state.string_list_capacity
                     reports := state.reports },
                   .mk t d s (c0 :: c1 :: body :: rest))
    | _ => .error .child_out_of_bounds
  else .ok (tables, child)

/-- The loop of `create_tables` over the children of the root. -/
def create_tables_loop (code : NodeType → Nat) :
    List Node → Tables → Except Fault (Tables × List Node)
  | [], tables => .ok (tables, [])
  | child :: rest, tables =>
    match create_tables_child code child tables with
    | .error e => .error e
    | .ok (tables1, child1) =>
      match create_tables_loop code rest tables1 with
      | .error e => .error e
      | .ok (tables2, rest1) => .ok (tables2, child1 :: rest1)

/-- The function `create_tables`: the tables it leaves and the tree with the
bound symbols and the string references. -/
def create_tables (code : NodeType → Nat) (root : Node) : Except Fault (Tables × Node) :=
  match find_globals root with
  | .error e => .error e
  | .ok tables =>
    match create_tables_loop code root.children tables with
    | .error e => .error e
    | .ok (tables1, cs) => .ok (tables1, .mk root.type root.data root.symbol cs)

/-- An `IDENTIFIER_DATA` leaf, as the parser builds it. -/
def identifier (name : String) : Node :=
  .mk .IDENTIFIER_DATA (.str name) none []

/-- A node without payload, as the parser builds it for the kinds that carry
none. -/
def plain (type : NodeType) (children : List Node) : Node :=
  .mk type .null none children

/-- The program `func f(x) begin if x = 1 then begin var x  x := 2 end end`,
whose nested block is the body of an if statement. -/
def block_under_if : Node :=
  plain .LIST [
    plain .FUNCTION [identifier "f", plain .LIST [identifier "x"],
      plain .BLOCK [plain .LIST [
        plain .IF_STATEMENT [
          .mk .RELATION (.str "=") none [identifier "x", number_literal 1],
          plain .BLOCK [
            plain .LIST [plain .LIST [identifier "x"]],
            plain .LIST [
              plain .ASSIGNMENT_STATEMENT [identifier "x", number_literal 2]]]]]]]]

/-- What `create_tables` makes of `block_under_if`: the local table of `f`
holds the parameter `x` only, and every `x` of the body, the one in the
declaration of the nested block included, is bound to the parameter. -/
def block_under_if_result : Tables × Node :=
  ({ global_symbols :=
       { symbols := [⟨"f", .SYMBOL_FUNCTION, 0, some (.local_of 0)⟩],
         hashmap := .root [⟨"f", .SYMBOL_FUNCTION, 0, some (.local_of 0)⟩] },
     local_tables :=
       [(0, { symbols := [⟨"x", .SYMBOL_PARAMETER, 0, some (.local_of 0)⟩],
              hashmap := .over_global [⟨"x", .SYMBOL_PARAMETER, 0, some (.local_of 0)⟩] })],
     string_list := [], string_list_capacity := 0, reports := [] },
   plain .LIST [
    plain .FUNCTION [identifier "f", plain .LIST [identifier "x"],
      plain .BLOCK [plain .LIST [
        plain .IF_STATEMENT [
          .mk .RELATION (.str "=") none
            [.mk .IDENTIFIER_DATA (.str "x")
               (some ⟨"x", .SYMBOL_PARAMETER, 0, some (.local_of 0)⟩) [],
             number_literal 1],
          plain .BLOCK [
            plain .LIST [plain .LIST [
              .mk .IDENTIFIER_DATA (.str "x")
                (some ⟨"x", .SYMBOL_PARAMETER, 0, some (.local_of 0)⟩) []]],
            plain .LIST [
              plain .ASSIGNMENT_STATEMENT [
                .mk .IDENTIFIER_DATA (.str "x")
                  (some ⟨"x", .SYMBOL_PARAMETER, 0, some (.local_of 0)⟩) [],
                number_literal 2]]]]]]]])

/-- A top-level declaration of a program, as the parser builds it: a function
with its parameter names and body, `var` followed by one or more plain
identifiers, or `var` followed by one array of literal size. -/
inductive Declaration where
  | function (name : String) (parameters : List String) (body : Node)
  | plain_variables (first : String) (more : List String)
  | array (name : String) (size : Int)

namespace Declaration

/-- The tree of a declaration. -/
def node : Declaration → Node
  | function name parameters body =>
    plain .FUNCTION [identifier name, plain .LIST (parameters.map identifier), body]
  | plain_variables first more =>
    plain .GLOBAL_DECLARATION [plain .LIST ((first :: more).map identifier)]
  | array name size =>
    plain .GLOBAL_DECLARATION
      [plain .LIST [plain .ARRAY_INDEXING [identifier name, number_literal size]]]

/-- The names a declaration introduces at top level. -/
def names : Declaration → List String
  | function name _ _ => [name]
  | plain_variables first more => first :: more
  | array name _ => [name]

/-- The symbols a declaration at index `i` of the program offers to the global
table, before numbering. -/
def symbols (i : Nat) : Declaration → List Symbol
  | function name _ _ => [⟨name, .SYMBOL_FUNCTION, 0, some (.local_of i)⟩]
  | plain_variables first more =>
    (first :: more).map (fun n => ⟨n, .SYMBOL_GLOBAL_VAR, 0, none⟩)
  | array name _ => [⟨name, .SYMBOL_GLOBAL_ARRAY, 0, none⟩]

end Declaration

/-- The tree of a program: the list of its top-level declarations. -/
def program (declarations : List Declaration) : Node :=
  plain .LIST (declarations.map Declaration.node)

/-- The symbols the declarations offer to the global table, the first
declaration having index `i`. -/
def symbols_from : Nat → List Declaration → List Symbol
  | _, [] => []
  | i, d :: ds => d.symbols i ++ symbols_from (i + 1) ds

/-- Successive insertions into one table, results dropped. -/
def insert_all (table : SymbolTable) (symbols : List Symbol) : SymbolTable :=
  symbols.foldl (fun t s => (symbol_table_insert t s).1) table

/-- The symbols numbered consecutively from `k`. -/
def renumber : Nat → List Symbol → List Symbol
  | _, [] => []
  | k, s :: ss => { s with sequence_number := k } :: renumber (k + 1) ss

/-- A table with a single frame that holds exactly the table's symbols, whose
sequence numbers are their positions and whose names are pairwise distinct. -/
def SymbolTable.flat (table : SymbolTable) : Prop :=
  table.hashmap = .root table.symbols ∧
    table.symbols.map Symbol.sequence_number = List.range table.symbols.length ∧
    (table.symbols.map Symbol.name).Nodup

/-- The loop `while (new_allocation_size < min_allocation_size) new_allocation_size *= 2;`
of `append_to_list_node`; the first argument bounds the number of iterations.
A child array that fits in memory has fewer than `2^61` entries, so the
doubling never leaves the range of `size_t`. -/
def allocation_size_loop : Nat → Nat → Nat → Nat
  | 0, _, new_allocation_size => new_allocation_size
  | fuel + 1, min_allocation_size, new_allocation_size =>
    if new_allocation_size < min_allocation_size then
      allocation_size_loop fuel min_allocation_size (new_allocation_size * 2)
    else new_allocation_size

/-- The function `append_to_list_node`. The child array is resized to
`new_allocation_size` entries before the element is stored at index
`n_children`; a store beyond the array would be a fault. -/
def append_to_list_node (list_node element : Node) : Except Fault Node :=
  if list_node.type ≠ .LIST then .error .assertion_failure
  else
    let min_allocation_size := list_node.children.length + 1
    let new_allocation_size := allocation_size_loop min_allocation_size min_allocation_size 1
    if list_node.children.length < new_allocation_size then
      .ok (.mk list_node.type list_node.data list_node.symbol (list_node.children ++ [element]))
    else .error .child_out_of_bounds

/-- A tree of constants, as the claims on folding describe it: number leaves and
operator nodes with one or two children. -/
inductive ConstantTree where
  | number (v : Int)
  | unary (operator : String) (operand : ConstantTree)
  | binary (operator : String) (left right : ConstantTree)

namespace ConstantTree

/-- The syntax tree of a tree of constants. -/
def node : ConstantTree → Node
  | number v => number_literal v
  | unary operator operand => .mk .EXPRESSION (.str operator) none [operand.node]
  | binary operator left right => .mk .EXPRESSION (.str operator) none [left.node, right.node]

/-- Every operator of the tree is one of `+ - * / << >>`. -/
def operators_known : ConstantTree → Prop
  | number _ => True
  | unary operator operand => is_operator operator = true ∧ operand.operators_known
  | binary operator left right =>
    is_operator operator = true ∧ left.operators_known ∧ right.operators_known

/-- The recursive evaluation of a tree of constants with `perform_operation`,
operands from left to right; a one-child node is evaluated as `op(0, v)`. -/
def eval : ConstantTree → Except Fault Int
  | number v => .ok v
  | unary operator operand =>
    match operand.eval with
    | .error e => .error e
    | .ok v => perform_operation operator 0 v
  | binary operator left right =>
    match left.eval with
    | .error e => .error e
    | .ok a =>
      match right.eval with
      | .error e => .error e
      | .ok b => perform_operation operator a b

end ConstantTree

/-- The tree `(0 - 9223372036854775807 - 1) / -(1)`: every operator is known, no
divisor is zero and there is no shift, yet its evaluation divides `-2^63` by
`-1`. -/
def division_overflow_tree : ConstantTree :=
  .binary "/"
    (.binary "-" (.binary "-" (.number 0) (.number 9223372036854775807)) (.number 1))
    (.unary "-" (.number 1))

/-! ## Release of nodes -/

mutual
/-- The function `destroy_subtree`, as the list of the nodes it hands to
`node_finalize`, in the order of the calls: the children first, then the node. -/
def destroy_subtree : Node → List Node
  | .mk t d s cs => destroy_children cs ++ [.mk t d s cs]
/-- The loop of `destroy_subtree` over the children. -/
def destroy_children : List Node → List Node
  | [] => []
  | c :: cs => destroy_subtree c ++ destroy_children cs
end

/-- The function `constant_fold_node` together with the nodes it releases: the
whole folded-away subtree, by `destroy_subtree`, when the node is folded. -/
def constant_fold_node_traced (node : Node) : Except Fault (Node × List Node) :=
  if node.type ≠ .EXPRESSION then .ok (node, [])
  else if node.children.any (fun c => c.type ≠ .NUMBER_DATA) then .ok (node, [])
  else
    match node.data.as_string with
    | .error e => .error e
    | .ok operator =>
      if !is_operator operator then .ok (node, [])
      else
        match node.children with
        | [] => .error .child_out_of_bounds
        | c0 :: rest =>
          match c0.data.read_int64 with
          | .error e => .error e
          | .ok v0 =>
            match (if rest.isEmpty then perform_operation operator 0 v0 else .ok v0) with
            | .error e => .error e
            | .ok result =>
              match fold_operands operator result rest with
              | .error e => .error e
              | .ok r => .ok (folded_node r, destroy_subtree node)

/-- The function `peephole_optimize_node` together with the nodes it releases:
the node alone, by `node_finalize`, when it is replaced by its first child. -/
def peephole_optimize_node_traced (node : Node) : Except Fault (Node × List Node) :=
  if node.type ≠ .EXPRESSION then .ok (node, [])
  else
    match node.data.as_string with
    | .error e => .error e
    | .ok operator =>
      if operator = "*" ∨ operator = "/" then
        match node.children with
        | c0 :: c1 :: _ =>
          match c1.data.read_int with
          | .error e => .error e
          | .ok factor =>
            if factor ≠ 1 ∧ factor ≠ 0 ∧ and_pred_is_zero factor then
              let power := shift_loop 32 factor 0
              match set_second_payload node.children power with
              | .error e => .error e
              | .ok cs =>
                .ok (.mk .EXPRESSION (.str (if operator = "*" then "<<" else ">>")) node.symbol cs,
                     [])
            else if factor = 1 then .ok (c0, [node])
            else .ok (node, [])
        | _ => .error .child_out_of_bounds
      else .ok (node, [])

mutual
/-- The function `simplify_subtree` together with the nodes it releases, in the
order of their release. -/
def simplify_subtree_traced : Node → Except Fault (Node × List Node)
  | .mk t d s cs =>
    match simplify_children_traced cs with
    | .error e => .error e
    | .ok (cs1, released) =>
      match constant_fold_node_traced (.mk t d s cs1) with
      | .error e => .error e
      | .ok (n, released1) =>
        match peephole_optimize_node_traced n with
        | .error e => .error e
        | .ok (m, released2) => .ok (m, released ++ released1 ++ released2)
/-- The loop of `simplify_subtree` over the children, with the released nodes. -/
def simplify_children_traced : List Node → Except Fault (List Node × List Node)
  | [] => .ok ([], [])
  | c :: cs =>
    match simplify_subtree_traced c with
    | .error e => .error e
    | .ok (c1, released) =>
      match simplify_children_traced cs with
      | .error e => .error e
      | .ok (cs1, released1) => .ok (c1 :: cs1, released ++ released1)
end

/-! ## Strings met by binding -/

mutual
/-- The payloads of the `STRING_DATA` nodes that binding meets in a tree, in the
order of the traversal: both `bind_names` and `bind_statement_identifier_data`
stop at an identifier or a string and visit the children of every other node
from left to right. -/
def strings_met : Node → List Payload
  | .mk t d _ cs =>
    if t = .IDENTIFIER_DATA then []
    else if t = .STRING_DATA then [d]
    else strings_met_children cs
/-- The strings met in a list of children. -/
def strings_met_children : List Node → List Payload
  | [] => []
  | c :: cs => strings_met c ++ strings_met_children cs
end

mutual
/-- The tree in which the `i`-th `STRING_DATA` node met by binding has become a
`STRING_LIST_REFERENCE` node with payload `k + i`, and nothing else has
changed. -/
def string_references (k : Nat) : Node → Node
  | .mk t d s cs =>
    if t = .IDENTIFIER_DATA then .mk t d s cs
    else if t = .STRING_DATA then .mk .STRING_LIST_REFERENCE (.pos k) s cs
    else .mk t d s (string_references_children k cs)
/-- The children with their strings replaced by references numbered from `k`. -/
def string_references_children (k : Nat) : List Node → List Node
  | [] => []
  | c :: cs =>
    string_references k c :: string_references_children (k + (strings_met c).length) cs
end

mutual
/-- The tree without its symbol references: kinds, payloads and children only. -/
def erase_symbols : Node → Node
  | .mk t d _ cs => .mk t d none (erase_symbols_children cs)
/-- The children without their symbol references. -/
def erase_symbols_children : List Node → List Node
  | [] => []
  | c :: cs => erase_symbols c :: erase_symbols_children cs
end

/-- The strings met by `create_tables` in one top-level child: those of the
body of a function, none for any other child. -/
def child_strings (child : Node) : List Payload :=
  if child.type = .FUNCTION then
    match child with
    | .mk _ _ _ (_ :: _ :: body :: _) => strings_met body
    | _ => []
  else []

/-- The top-level child with the strings of its body replaced by references
numbered from `k`. -/
def child_string_references (k : Nat) (child : Node) : Node :=
  if child.type = .FUNCTION then
    match child with
    | .mk t d s (c0 :: c1 :: body :: rest) => .mk t d s (c0 :: c1 :: string_references k body :: rest)
    | other => other
  else child

/-- The top-level children with the strings of the function bodies replaced by
references numbered from `k`, across the bodies in top-level order. -/
def program_string_references (k : Nat) : List Node → List Node
  | [] => []
  | child :: rest =>
    child_string_references k child ::
      program_string_references (k + (child_strings child).length) rest

/-- The program `func f() begin print "a" end  func g() begin print "b" end`. -/
def two_strings : Node :=
  plain .LIST [
    plain .FUNCTION [identifier "f", plain .LIST [],
      plain .BLOCK [plain .LIST [
        plain .PRINT_STATEMENT [plain .LIST [.mk .STRING_DATA (.str "a") none []]]]]],
    plain .FUNCTION [identifier "g", plain .LIST [],
      plain .BLOCK [plain .LIST [
        plain .PRINT_STATEMENT [plain .LIST [.mk .STRING_DATA (.str "b") none []]]]]]]

/-- What `create_tables` makes of `two_strings`. -/
def two_strings_result : Tables × Node :=
  ({ global_symbols :=
       { symbols := [⟨"f", .SYMBOL_FUNCTION, 0, some (.local_of 0)⟩,
                     ⟨"g", .SYMBOL_FUNCTION, 1, some (.local_of 1)⟩],
         hashmap := .root [⟨"f", .SYMBOL_FUNCTION, 0, some (.local_of 0)⟩,
                           ⟨"g", .SYMBOL_FUNCTION, 1, some (.local_of 1)⟩] },
     local_tables :=
       [(0, { symbols := [], hashmap := .over_global [] }),
        (1, { symbols := [], hashmap := .over_global [] })],
     string_list := [.str "a", .str "b"], string_list_capacity := 8, reports := [] },
   plain .LIST [
    plain .FUNCTION [identifier "f", plain .LIST [],
      plain .BLOCK [plain .LIST [
        plain .PRINT_STATEMENT [plain .LIST [.mk .STRING_LIST_REFERENCE (.pos 0) none []]]]]],
    plain .FUNCTION [identifier "g", plain .LIST [],
      plain .BLOCK [plain .LIST [
        plain .PRINT_STATEMENT [plain .LIST [.mk .STRING_LIST_REFERENCE (.pos 1) none []]]]]]])

/-! ## Parameters, scopes and uses of names -/

/-- The names of a list that are not in `seen` and not earlier in the list: each
name at its first occurrence, in order. -/
def first_occurrences : List String → List String → List String
  | _, [] => []
  | seen, n :: ns =>
    if n ∈ seen then first_occurrences seen ns else n :: first_occurrences (seen ++ [n]) ns

/-- The symbol `find_globals` builds for the parameter `name` of the function at
index `i` of the program, before numbering. -/
def parameter_symbol (i : Nat) (name : String) : Symbol :=
  { name := name, type := .SYMBOL_PARAMETER, sequence_number := 0,
    function_symtable := some (.local_of i) }

/-- The entries of the frames of a lookup chain, in the order in which lookup
visits them: the given frame, each backup frame, and the frame of the global
table (`global`) at the end of the chain of a function. -/
def Hashmap.chain_entries (global : List Symbol) : Hashmap → List Symbol
  | .root es => es
  | .over_global es => es ++ global
  | .nested es backup => es ++ chain_entries global backup

/-- The string a payload holds, if it holds one. -/
def Payload.strings : Payload → List String
  | .str s => [s]
  | _ => []

mutual
/-- The names `bind_names` enters into the local table while it traverses a
node: those of the `IDENTIFIER_DATA` nodes it meets outside the statements. -/
def declared_names (code : NodeType → Nat) : Node → List String
  | .mk t d _ cs =>
    if t = .IDENTIFIER_DATA then d.strings
    else if t = .STRING_DATA then []
    else if 6 ≤ code t ∧ code t ≤ 11 then []
    else declared_names_children code cs
/-- The names entered for a list of children. -/
def declared_names_children (code : NodeType → Nat) : List Node → List String
  | [] => []
  | c :: cs => declared_names code c ++ declared_names_children code cs
end

mutual
/-- Whether every `IDENTIFIER_DATA` node that binding visits in a tree carries a
name. -/
def names_present : Node → Bool
  | .mk t d _ cs =>
    if t = .IDENTIFIER_DATA then !d.strings.isEmpty
    else if t = .STRING_DATA then true
    else names_present_children cs
/-- Whether the identifiers visited in a list of children carry names. -/
def names_present_children : List Node → Bool
  | [] => true
  | c :: cs => names_present c && names_present_children cs
end

mutual
/-- The symbol references of the `IDENTIFIER_DATA` nodes named `name` that
`bind_statement_identifier_data` visits, read off the bound tree (in which the
strings have become `STRING_LIST_REFERENCE` nodes). -/
def statement_uses (name : String) : Node → List (Option Symbol)
  | .mk t d s cs =>
    if t = .IDENTIFIER_DATA then (if d = .str name then [s] else [])
    else if t = .STRING_DATA ∨ t = .STRING_LIST_REFERENCE then []
    else statement_uses_children name cs
/-- The symbol references of the uses in a list of children. -/
def statement_uses_children (name : String) : List Node → List (Option Symbol)
  | [] => []
  | c :: cs => statement_uses name c ++ statement_uses_children name cs
end

mutual
/-- The symbol references of the identifiers named `name` that occur in the
statements of a bound function body: `bind_names` hands each node whose kind is
numbered `6..11` to `bind_statement_identifier_data`. -/
def uses (code : NodeType → Nat) (name : String) : Node → List (Option Symbol)
  | .mk t d s cs =>
    if t = .IDENTIFIER_DATA then []
    else if t = .STRING_DATA ∨ t = .STRING_LIST_REFERENCE then []
    else if 6 ≤ code t ∧ code t ≤ 11 then statement_uses name (.mk t d s cs)
    else uses_children code name cs
/-- The symbol references of the uses in the statements of a list of children. -/
def uses_children (code : NodeType → Nat) (name : String) : List Node → List (Option Symbol)
  | [] => []
  | c :: cs => uses code name c ++ uses_children code name cs
end

/-- The names held by the frames of a table's own chain, the frame of the global
table left out. -/
def Hashmap.local_names : Hashmap → List String
  | .root es => es.map Symbol.name
  | .over_global es => es.map Symbol.name
  | .nested es backup => es.map Symbol.name ++ local_names backup

/-- Whether the chain of backup frames ends at the frame of the global table. -/
def Hashmap.reaches_global : Hashmap → Bool
  | .root _ => false
  | .over_global _ => true
  | .nested _ backup => reaches_global backup

/-- The local table `find_globals` builds for a function at index `i` with the
given parameter names. -/
def parameter_table (i : Nat) (parameters : List String) : SymbolTable :=
  { symbols := renumber 0 ((first_occurrences [] parameters).map (parameter_symbol i)),
    hashmap := .over_global
      (renumber 0 ((first_occurrences [] parameters).map (parameter_symbol i))) }

/-- The local tables `find_globals` builds for the declarations of a program,
the first declaration having index `i`: one for each function. -/
def local_tables_from : Nat → List Declaration → List (Nat × SymbolTable)
  | _, [] => []
  | i, .function _ parameters _ :: ds =>
    (i, parameter_table i parameters) :: local_tables_from (i + 1) ds
  | i, _ :: ds => local_tables_from (i + 1) ds

/-- Whether the identifiers that binding visits in the body of a function
declaration carry names. -/
def Declaration.names_present : Declaration → Bool
  | .function _ _ body => Vslc.names_present body
  | _ => true

/-- The declarations of `func f() begin return g() end  func g() return 1`: the
function `f` calls `g`, which is declared after it. -/
def forward_reference : List Declaration :=
  [.function "f" []
     (plain .BLOCK [plain .LIST [
       plain .RETURN_STATEMENT [plain .FUNCTION_CALL [identifier "g", plain .LIST []]]]]),
   .function "g" [] (plain .RETURN_STATEMENT [number_literal 1])]

/-- What `create_tables` makes of the program `forward_reference`. -/
def forward_reference_result : Tables × Node :=
  ({ global_symbols :=
       { symbols := [⟨"f", .SYMBOL_FUNCTION, 0, some (.local_of 0)⟩,
                     ⟨"g", .SYMBOL_FUNCTION, 1, some (.local_of 1)⟩],
         hashmap := .root [⟨"f", .SYMBOL_FUNCTION, 0, some (.local_of 0)⟩,
                           ⟨"g", .SYMBOL_FUNCTION, 1, some (.local_of 1)⟩] },
     local_tables :=
       [(0, { symbols := [], hashmap := .over_global [] }),
        (1, { symbols := [], hashmap := .over_global [] })],
     string_list := [], string_list_capacity := 0, reports := [] },
   plain .LIST [
    plain .FUNCTION [identifier "f", plain .LIST [],
      plain .BLOCK [plain .LIST [
        plain .RETURN_STATEMENT [plain .FUNCTION_CALL [
          .mk .IDENTIFIER_DATA (.str "g")
            (some ⟨"g", .SYMBOL_FUNCTION, 1, some (.local_of 1)⟩) [],
          plain .LIST []]]]]],
    plain .FUNCTION [identifier "g", plain .LIST [],
      plain .RETURN_STATEMENT [number_literal 1]]])

/-! ## Growth of a table -/

/-- What a call may make of a table when it keeps the stack discipline: in
`table1` the current frame is the frame that was current in `table`, with the
same chain of backup frames, and holds the entries it had followed by
`entered`; the symbol sequence is the former one followed by `inserted`, whose
sequence numbers continue the former ones; and the symbols entered in the
current frame are among the inserted ones. -/
def SymbolTable.grown (table table1 : SymbolTable) (entered inserted : List Symbol) : Prop :=
  table1.hashmap = table.hashmap.set_entries (table.hashmap.entries ++ entered) ∧
  table1.symbols = table.symbols ++ inserted ∧
  inserted.map Symbol.sequence_number = List.range' table.symbols.length inserted.length ∧
  entered.Sublist inserted

/-- The block `begin var y  begin var z  z := y end  y := x end`, the body of a
function with the parameter `x`. -/
def nested_blocks : Node :=
  plain .BLOCK [
    plain .LIST [plain .LIST [identifier "y"]],
    plain .LIST [
      plain .BLOCK [
        plain .LIST [plain .LIST [identifier "z"]],
        plain .LIST [plain .ASSIGNMENT_STATEMENT [identifier "z", identifier "y"]]],
      plain .ASSIGNMENT_STATEMENT [identifier "y", identifier "x"]]]

/-- The state in which `create_tables` binds the body of a function at index 0
with the parameter `x`, the string list being empty. -/
def nested_blocks_state : BindState :=
  { local_symbols := some (parameter_table 0 ["x"]),
    string_list := [], string_list_capacity := 0, reports := [] }

/-- What `bind_names` makes of `nested_blocks` from `nested_blocks_state`: the
symbol sequence holds `x`, `y` and `z`, and the current frame is again the
frame of the parameters. -/
def nested_blocks_bound : BindState × Node :=
  ({ local_symbols :=
       some { symbols := [⟨"x", .SYMBOL_PARAMETER, 0, some (.local_of 0)⟩,
                          ⟨"y", .SYMBOL_LOCAL_VAR, 1, some (.local_of 0)⟩,
                          ⟨"z", .SYMBOL_LOCAL_VAR, 2, some (.local_of 0)⟩],
              hashmap := .over_global [⟨"x", .SYMBOL_PARAMETER, 0, some (.local_of 0)⟩] },
     string_list := [], string_list_capacity := 0, reports := [] },
   plain .BLOCK [
    plain .LIST [plain .LIST [identifier "y"]],
    plain .LIST [
      plain .BLOCK [
        plain .LIST [plain .LIST [identifier "z"]],
        plain .LIST [plain .ASSIGNMENT_STATEMENT [
          .mk .IDENTIFIER_DATA (.str "z") (some ⟨"z", .SYMBOL_LOCAL_VAR, 2, some (.local_of 0)⟩) [],
          .mk .IDENTIFIER_DATA (.str "y")
            (some ⟨"y", .SYMBOL_LOCAL_VAR, 1, some (.local_of 0)⟩) []]]],
      plain .ASSIGNMENT_STATEMENT [
        .mk .IDENTIFIER_DATA (.str "y") (some ⟨"y", .SYMBOL_LOCAL_VAR, 1, some (.local_of 0)⟩) [],
        .mk .IDENTIFIER_DATA (.str "x")
          (some ⟨"x", .SYMBOL_PARAMETER, 0, some (.local_of 0)⟩) []]]])

/-! ## `scanner.c` -/

def N_STATES : Nat := 12

def START_STATE : Nat := 0

def ACCEPT : Nat := 8

def ERROR : Nat := 11

def DIGITS_BEGINNING : Nat := 48

def DIGITS_END : Nat := 57

/-- The assignment `table[i][j] = value` on a table seen as a function of its
two indices. -/
def table_set (table : Nat → Nat → Nat) (i j value : Nat) : Nat → Nat → Nat :=
  fun i1 j1 => if i1 = i ∧ j1 = j then value else table i1 j1

/-- The loop `for (int j = 0; j < 256; j++) table[i][j] = ERROR;`. -/
def fill_row (table : Nat → Nat → Nat) (i : Nat) : Nat → Nat → Nat :=
  (List.range 256).foldl (fun t j => table_set t i j ERROR) table

/-- The loop `for (int i = 0; i < N_STATES; i++)` around `fill_row`. -/
def fill_error (table : Nat → Nat → Nat) : Nat → Nat → Nat :=
  (List.range N_STATES).foldl fill_row table

/-- The loop
`for (int i = DIGITS_BEGINNING; i <= DIGITS_END; i++) table[state][i] = value;`. -/
def set_digits (table : Nat → Nat → Nat) (state value : Nat) : Nat → Nat → Nat :=
  (List.range' DIGITS_BEGINNING (DIGITS_END + 1 - DIGITS_BEGINNING)).foldl
    (fun t i => table_set t state i value) table

/-- The function `initialize_transition_table`, from the table it finds to the
table it leaves; the assignments are those of the source, in order. -/
def initialize_transition_table (table : Nat → Nat → Nat) : Nat → Nat → Nat :=
  let t := fill_error table
  let t := table_set t 0 'd'.toNat 1
  let t := table_set t 0 'g'.toNat 9
  let t := table_set t 1 'x'.toNat 2
  let t := table_set t 1 'y'.toNat 3
  let t := table_set t 2 '='.toNat 4
  let t := table_set t 3 '='.toNat 4
  let t := table_set t 4 '-'.toNat 5
  let t := set_digits t 4 5
  let t := table_set t 4 '.'.toNat 6
  let t := table_set t 5 '.'.toNat 6
  let t := set_digits t 5 5
  let t := set_digits t 6 7
  let t := set_digits t 7 7
  let t := table_set t 7 '\n'.toNat ACCEPT
  let t := table_set t 9 'o'.toNat 10
  let t := table_set t 10 '\n'.toNat ACCEPT
  t

/-- The global `transition_table` after the call of `initialize_transition_table`
in `main`; a global array starts out as zeros. -/
def transition_table : Nat → Nat → Nat :=
  initialize_transition_table (fun _ _ => 0)

/-- The read `transition_table[state][read]` of an `int[N_STATES][256]`. -/
def transition (state read : Nat) : Except Fault Nat :=
  if state < N_STATES ∧ read < 256 then .ok (transition_table state read)
  else .error .index_out_of_bounds

/-- The automaton alone: the state after the bytes, from the state `state`,
without the reset and the exit of `main`. -/
def run : Nat → List Nat → Except Fault Nat
  | state, [] => .ok state
  | state, read :: rest =>
    match transition state read with
    | .error e => .error e
    | .ok next => run next rest

/-- The bytes of a string literal of the source (all of them ASCII), without the
terminator. -/
def literal_bytes (s : String) : List Nat :=
  s.data.map Char.toNat

/-- A decimal digit. -/
@[reducible] def is_digit (b : Nat) : Prop :=
  '0'.toNat ≤ b ∧ b ≤ '9'.toNat

/-- The statement language in the words of the claim: `go` and a newline, or
`d`, then `x` or `y`, then `=`, then an optional `-`, then zero or more decimal
digits, then `.`, then one or more decimal digits, then a newline. -/
def statement_language (bytes : List Nat) : Prop :=
  bytes = literal_bytes "go\n" ∨
  ∃ axis sign digits fraction,
    (axis = 'x'.toNat ∨ axis = 'y'.toNat) ∧
    (sign = [] ∨ sign = ['-'.toNat]) ∧
    (∀ b ∈ digits, is_digit b) ∧
    fraction ≠ [] ∧ (∀ b ∈ fraction, is_digit b) ∧
    bytes = ['d'.toNat, axis, '='.toNat] ++ sign ++ digits ++ ['.'.toNat] ++ fraction ++
      ['\n'.toNat]

/-! ## The declarations a call accepts -/

mutual
/-- The declarations that a call of `bind_names` on a node accepts, told from the
tree alone, in the words of the claim on the scope frames. The arguments are
the entries of the scope frame that is current at the call and the number of
symbols the table holds. An identifier outside the statements declares a local
variable, which is accepted unless the current frame holds its name; an
accepted symbol gets the next sequence number and enters the current frame. A
block gives its children an empty frame of their own and leaves the frame of
the caller as it was, while the symbols accepted inside the block stay in the
sequence. The result is the sequence of the accepted symbols and the entries
of the current frame at the return. -/
def accepted_declarations (code : NodeType → Nat) (id : TableId) :
    List Symbol → Nat → Node → List Symbol × List Symbol
  | frame, next, .mk t d _ cs =>
    if t = .IDENTIFIER_DATA then
      match d.as_string with
      | .error _ => ([], frame)
      | .ok name =>
        if name ∈ frame.map Symbol.name then ([], frame)
        else
          ([⟨name, .SYMBOL_LOCAL_VAR, next, some id⟩],
           frame ++ [⟨name, .SYMBOL_LOCAL_VAR, next, some id⟩])
    else if t = .STRING_DATA then ([], frame)
    else if 6 ≤ code t ∧ code t ≤ 11 then ([], frame)
    else if t = .BLOCK then ((accepted_declarations_children code id [] next cs).1, frame)
    else accepted_declarations_children code id frame next cs
/-- The declarations accepted in a sequence of children, one child after the
other. -/
def accepted_declarations_children (code : NodeType → Nat) (id : TableId) :
    List Symbol → Nat → List Node → List Symbol × List Symbol
  | frame, _, [] => ([], frame)
  | frame, next, c :: cs =>
    ((accepted_declarations code id frame next c).1 ++
       (accepted_declarations_children code id (accepted_declarations code id frame next c).2
         (next + (accepted_declarations code id frame next c).1.length) cs).1,
     (accepted_declarations_children code id (accepted_declarations code id frame next c).2
       (next + (accepted_declarations code id frame next c).1.length) cs).2)
end

/-! ## Top-level names and uses that are not shadowed -/

mutual
/-- The names of the `IDENTIFIER_DATA` nodes of a tree, in the order of the
source. -/
def identifier_names : Node → List String
  | .mk t d _ cs =>
    (if t = .IDENTIFIER_DATA then d.strings else []) ++ identifier_names_children cs
/-- The names of the identifiers of a list of children. -/
def identifier_names_children : List Node → List String
  | [] => []
  | c :: cs => identifier_names c ++ identifier_names_children cs
end

mutual
/-- The uses of `name` in the statements of a bound function body that no
parameter and no local variable shadows, told from the tree by the scoping
rules of the language. The traversal carries two flags: `in_statement`, whether
the node is part of a statement (an identifier outside the statements is a
declaration), and `shadowed`, whether a declaration of `name` is in scope. A
declaration of `name` sets `shadowed` for the rest of the enclosing block; a
block starts outside the statements and, at its end, gives back the value that
`shadowed` had before it. No use is read below a string node. The result is
the symbol references of the uses met while `shadowed` was false, and the value
of `shadowed` after the node. -/
def unshadowed_uses (code : NodeType → Nat) (name : String) :
    Bool → Bool → Node → List (Option Symbol) × Bool
  | in_statement, shadowed, .mk t d s cs =>
    if t = .IDENTIFIER_DATA then
      if d = .str name then
        if in_statement then (if shadowed then [] else [s], shadowed) else ([], true)
      else ([], shadowed)
    else if t = .STRING_DATA ∨ t = .STRING_LIST_REFERENCE then
      ([], (unshadowed_uses_children code name in_statement shadowed cs).2)
    else if t = .BLOCK then
      ((unshadowed_uses_children code name false shadowed cs).1, shadowed)
    else
      unshadowed_uses_children code name
        (in_statement || decide (6 ≤ code t ∧ code t ≤ 11)) shadowed cs
/-- The uses that are not shadowed in a sequence of children, one child after
the other. -/
def unshadowed_uses_children (code : NodeType → Nat) (name : String) :
    Bool → Bool → List Node → List (Option Symbol) × Bool
  | _, shadowed, [] => ([], shadowed)
  | in_statement, shadowed, c :: cs =>
    ((unshadowed_uses code name in_statement shadowed c).1 ++
       (unshadowed_uses_children code name in_statement
         (unshadowed_uses code name in_statement shadowed c).2 cs).1,
     (unshadowed_uses_children code name in_statement
       (unshadowed_uses code name in_statement shadowed c).2 cs).2)
end

/-- What `create_tables` makes of `local_in_nested_block`: inside the nested
block `g` is the local variable, after it the function. -/
def local_in_nested_block_result : Tables × Node :=
  ({ global_symbols :=
       { symbols := [⟨"f", .SYMBOL_FUNCTION, 0, some (.local_of 0)⟩,
                     ⟨"g", .SYMBOL_FUNCTION, 1, some (.local_of 1)⟩],
         hashmap := .root [⟨"f", .SYMBOL_FUNCTION, 0, some (.local_of 0)⟩,
                           ⟨"g", .SYMBOL_FUNCTION, 1, some (.local_of 1)⟩] },
     local_tables :=
       [(0, { symbols := [⟨"x", .SYMBOL_PARAMETER, 0, some (.local_of 0)⟩,
                          ⟨"g", .SYMBOL_LOCAL_VAR, 1, some (.local_of 0)⟩],
              hashmap := .over_global [⟨"x", .SYMBOL_PARAMETER, 0, some (.local_of 0)⟩] }),
        (1, { symbols := [], hashmap := .over_global [] })],
     string_list := [], string_list_capacity := 0, reports := [] },
   plain .LIST [
    plain .FUNCTION [identifier "f", plain .LIST [identifier "x"],
      plain .BLOCK [plain .LIST [
        plain .BLOCK [
          plain .LIST [plain .LIST [identifier "g"]],
          plain .LIST [plain .ASSIGNMENT_STATEMENT [
            .mk .IDENTIFIER_DATA (.str "g")
              (some ⟨"g", .SYMBOL_LOCAL_VAR, 1, some (.local_of 0)⟩) [],
            .mk .IDENTIFIER_DATA (.str "x")
              (some ⟨"x", .SYMBOL_PARAMETER, 0, some (.local_of 0)⟩) []]]],
        plain .RETURN_STATEMENT [plain .FUNCTION_CALL [
          .mk .IDENTIFIER_DATA (.str "g")
            (some ⟨"g", .SYMBOL_FUNCTION, 1, some (.local_of 1)⟩) [],
          plain .LIST []]]]]],
    plain .FUNCTION [identifier "g", plain .LIST [],
      plain .RETURN_STATEMENT [number_literal 1]]])

/-! ## Trees as the parser builds them -/

mutual
/-- Whether a global declaration lists its identifiers where `find_globals`
looks for them: following the first children from the declaration one reaches
a node whose first child is an identifier, and the identifiers among the
children of that node carry names. -/
def lists_identifiers : Node → Bool
  | .mk _ _ _ cs => lists_identifiers_first cs
/-- The same test on the children of a node. -/
def lists_identifiers_first : List Node → Bool
  | [] => false
  | c0 :: cs =>
    if c0.type = .IDENTIFIER_DATA then
      (c0 :: cs).all (fun c => decide (c.type ≠ .IDENTIFIER_DATA) || !c.data.strings.isEmpty)
    else lists_identifiers c0
end

@[simp] theorem Node.type_mk (t : NodeType) (d : Payload) (s : Option Symbol) (cs : List Node) :
    (Node.mk t d s cs).type = t := rfl

@[simp] theorem Node.data_mk (t : NodeType) (d : Payload) (s : Option Symbol) (cs : List Node) :
    (Node.mk t d s cs).data = d := rfl

@[simp] theorem Node.symbol_mk (t : NodeType) (d : Payload) (s : Option Symbol) (cs : List Node) :
    (Node.mk t d s cs).symbol = s := rfl

@[simp] theorem Node.children_mk (t : NodeType) (d : Payload) (s : Option Symbol) (cs : List Node) :
    (Node.mk t d s cs).children = cs := rfl

theorem simplify_subtree_number_literal (v : Int) :
    simplify_subtree (number_literal v) = .ok (number_literal v) := by
  rfl

theorem simplify_children_literals (vs : List Int) :
    simplify_children (vs.map number_literal) = .ok (vs.map number_literal) := by
  induction vs with
  | nil => rfl
  | cons v vs ih =>
    simp only [List.map_cons, simplify_children, simplify_subtree_number_literal, ih]

theorem fold_operands_literals (operator : String) (vs : List Int) (acc : Int) :
    fold_operands operator acc (vs.map number_literal) = fold_values operator acc vs := by
  induction vs generalizing acc with
  | nil => rfl
  | cons v vs ih =>
    simp only [List.map_cons, fold_operands, fold_values, number_literal, Node.data,
      Payload.read_int64]
    cases perform_operation operator acc v with
    | error e => rfl
    | ok r => exact ih r

theorem any_not_number_literals (vs : List Int) :
    (vs.map number_literal).any (fun c => decide (c.type ≠ .NUMBER_DATA)) = false := by
  induction vs with
  | nil => rfl
  | cons v vs ih =>
    rw [List.map_cons, List.any_cons, ih]
    rfl

theorem is_operator_cases {operator : String} (h : is_operator operator = true) :
    operator = "+" ∨ operator = "-" ∨ operator = "*" ∨ operator = "/" ∨
      operator = "<<" ∨ operator = ">>" := by
  simpa [is_operator, or_assoc] using h

/-- The cases in which `perform_operation` has no value. -/
theorem perform_operation_error_iff (operator : String) (a b : Int) :
    (∃ e, perform_operation operator a b = .error e) ↔
      (operator = "/" ∧ (b = 0 ∨ (a = INT64_MIN ∧ b = -1))) := by
  unfold perform_operation
  by_cases h1 : operator = "+"
  · subst h1; simp
  by_cases h2 : operator = "-"
  · subst h2; simp
  by_cases h3 : operator = "*"
  · subst h3; simp
  by_cases h4 : operator = "/"
  · subst h4
    by_cases hb : b = 0
    · simp [hb]
    · by_cases hm : a = INT64_MIN ∧ b = -1
      · simp [hm]
      · simp [hb, hm]
  by_cases h5 : operator = "<<"
  · subst h5; simp
  by_cases h6 : operator = ">>"
  · subst h6; simp
  simp [h1, h2, h3, h4, h5, h6]

/-- With a divisor other than `0` and `-1`, `perform_operation` returns a
value. -/
theorem perform_operation_defined (operator : String) (a b : Int)
    (hdiv : operator = "/" → b ≠ 0 ∧ b ≠ -1) :
    ∃ r, perform_operation operator a b = .ok r := by
  cases h : perform_operation operator a b with
  | ok r => exact ⟨r, rfl⟩
  | error e =>
    obtain ⟨ho, hb⟩ := (perform_operation_error_iff operator a b).mp ⟨e, h⟩
    rcases hb with hb | hb
    · exact absurd hb (hdiv ho).1
    · exact absurd hb.2 (hdiv ho).2

theorem fold_values_defined (operator : String) (vs : List Int) (acc : Int)
    (hdiv : operator = "/" → ∀ v ∈ vs, v ≠ 0 ∧ v ≠ -1) :
    ∃ r, fold_values operator acc vs = .ok r := by
  induction vs generalizing acc with
  | nil => exact ⟨acc, rfl⟩
  | cons v vs ih =>
    obtain ⟨r, hr⟩ := perform_operation_defined operator acc v
      (fun h => hdiv h v (List.mem_cons_self _ _))
    obtain ⟨r1, hr1⟩ := ih r (fun h w hw => hdiv h w (List.mem_cons_of_mem _ hw))
    exact ⟨r1, by simp only [fold_values, hr, hr1]⟩

/-- Folding an operator node over literal children: the unary case applies the
operator to zero and the operand, the other cases fold from the first operand. -/
theorem constant_fold_node_literals (operator : String) (h : is_operator operator = true)
    (s : Option Symbol) (v0 : Int) (vs : List Int) :
    constant_fold_node (.mk .EXPRESSION (.str operator) s ((v0 :: vs).map number_literal)) =
      match (if vs.isEmpty then perform_operation operator 0 v0 else .ok v0) with
      | .error e => .error e
      | .ok result =>
        match fold_values operator result vs with
        | .error e => .error e
        | .ok r => .ok (folded_node r) := by
  have hany := any_not_number_literals (v0 :: vs)
  unfold constant_fold_node
  rw [Node.type_mk, Node.children_mk, Node.data_mk, hany]
  simp only [ne_eq, not_true_eq_false, if_false, Bool.false_eq_true, Payload.as_string, h,
    Bool.not_true, List.map_cons]
  simp only [fold_operands_literals]
  simp [number_literal, Payload.read_int64, List.isEmpty_iff]

theorem peephole_optimize_node_folded (r : Int) :
    peephole_optimize_node (folded_node r) = .ok (folded_node r) := by
  rfl

theorem simplify_subtree_literals (operator : String) (s : Option Symbol) (vs : List Int) :
    simplify_subtree (.mk .EXPRESSION (.str operator) s (vs.map number_literal)) =
      match constant_fold_node (.mk .EXPRESSION (.str operator) s (vs.map number_literal)) with
      | .error e => .error e
      | .ok n => peephole_optimize_node n := by
  rw [simplify_subtree, simplify_children_literals]

/-! ## Claims on constant folding -/

/-- C1 as stated fails: `divide(-2^63, -1)` has two literal children, no zero
divisor and no shift, yet folding it reaches the division `INT64_MIN / -1`,
which has no value, and no literal is returned. -/
theorem simplify_subtree_division_overflow :
    is_operator "/" = true ∧ (∀ v ∈ [(-1 : Int)], v ≠ 0) ∧
      simplify_subtree (.mk .EXPRESSION (.str "/") none
        [number_literal (-9223372036854775808), number_literal (-1)]) =
        .error .division_overflow :=
  ⟨rfl, by decide, rfl⟩

/-- C1, amended: an `EXPRESSION` node whose operator is one of `+ - * / << >>`
and whose children are two or more number literals `v0, v1, ...` such that the
left-to-right fold of `perform_operation` over the values is defined (no step
divides by zero or divides `-2^63` by `-1`; the shift amounts of the claim are
within `0..63`) is simplified to one childless `NUMBER_DATA` node holding the
value of the fold, and the peephole step leaves that node as it is. -/
theorem simplify_subtree_folds_literals (operator : String) (s : Option Symbol)
    (v0 v1 : Int) (vs : List Int) (r : Int)
    (hop : is_operator operator = true)
    (hfold : fold_values operator v0 (v1 :: vs) = .ok r) :
    simplify_subtree
        (.mk .EXPRESSION (.str operator) s ((v0 :: v1 :: vs).map number_literal)) =
        .ok (.mk .NUMBER_DATA (.num r) none []) ∧
      peephole_optimize_node (.mk .NUMBER_DATA (.num r) none []) =
        .ok (.mk .NUMBER_DATA (.num r) none []) := by
  refine ⟨?_, peephole_optimize_node_folded r⟩
  rw [simplify_subtree_literals, constant_fold_node_literals operator hop]
  simp only [List.isEmpty_cons, Bool.false_eq_true, if_false, hfold]
  rfl

/-- C1, instances: `add(2,3)` is simplified to the literal `5` and
`subtract(2,3)` to the literal `-1`. -/
theorem simplify_subtree_folds_literals_witness :
    simplify_subtree (.mk .EXPRESSION (.str "+") none [number_literal 2, number_literal 3]) =
        .ok (number_literal 5) ∧
      simplify_subtree (.mk .EXPRESSION (.str "-") none [number_literal 2, number_literal 3]) =
        .ok (number_literal (-1)) :=
  ⟨(simplify_subtree_folds_literals "+" none 2 3 [] 5 (by rfl) (by rfl)).1,
   (simplify_subtree_folds_literals "-" none 2 3 [] (-1) (by rfl) (by rfl)).1⟩

/-- Folding a one-child operator node applies the operator to zero and the
operand; where that operation has no value, folding faults the same way. -/
theorem constant_fold_node_unary_eq (operator : String) (s : Option Symbol) (v : Int)
    (hop : is_operator operator = true) :
    constant_fold_node (.mk .EXPRESSION (.str operator) s [number_literal v]) =
      match perform_operation operator 0 v with
      | .error e => .error e
      | .ok r => .ok (.mk .NUMBER_DATA (.num r) none []) := by
  have h := constant_fold_node_literals operator hop s v []
  simp only [List.map_cons, List.map_nil, List.isEmpty_nil, if_true] at h
  rw [h]
  cases perform_operation operator 0 v with
  | error e => rfl
  | ok r => rfl

/-- C2 as stated fails: the one-child node `divide(0)` has an operator of the
list and a literal child, yet folding it evaluates `0 / 0` and returns no
literal. -/
theorem constant_fold_node_unary_divide_zero :
    is_operator "/" = true ∧
      constant_fold_node (.mk .EXPRESSION (.str "/") none [number_literal 0]) =
        .error .division_by_zero :=
  ⟨rfl, rfl⟩

/-- C2, amended: an `EXPRESSION` node whose operator is one of `+ - * / << >>`
and whose only child is the number literal `v`, with `v` non-zero when the
operator is `/`, is folded to the literal holding
`perform_operation(operator, 0, v)`: the missing left operand is taken to be
zero. For every operator but `/` this is the claim as it stands, for every
`v`. -/
theorem constant_fold_node_unary (operator : String) (s : Option Symbol) (v : Int)
    (hop : is_operator operator = true)
    (hdiv : operator = "/" → v ≠ 0) :
    ∃ r, perform_operation operator 0 v = .ok r ∧
      constant_fold_node (.mk .EXPRESSION (.str operator) s [number_literal v]) =
        .ok (.mk .NUMBER_DATA (.num r) none []) := by
  cases h : perform_operation operator 0 v with
  | ok r =>
    refine ⟨r, rfl, ?_⟩
    rw [constant_fold_node_unary_eq operator s v hop, h]
  | error e =>
    obtain ⟨ho, hb⟩ := (perform_operation_error_iff operator 0 v).mp ⟨e, h⟩
    rcases hb with hb | hb
    · exact absurd hb (hdiv ho)
    · exact absurd hb.1 (by decide)

/-- C2, instances: unary `subtract(5)` is folded to the literal `-5`, and the
one-child shift `shift-left(64)`, whose amount is outside `0..63`, to the
literal `0`. -/
theorem constant_fold_node_unary_witness :
    constant_fold_node (.mk .EXPRESSION (.str "-") none [number_literal 5]) =
      .ok (number_literal (-5)) ∧
    constant_fold_node (.mk .EXPRESSION (.str "<<") none [number_literal 64]) =
      .ok (number_literal 0) := by
  obtain ⟨r, hr, h⟩ := constant_fold_node_unary "-" none 5 (by decide) (by decide)
  obtain ⟨r1, hr1, h1⟩ := constant_fold_node_unary "<<" none 64 (by decide) (by decide)
  have h5 : perform_operation "-" 0 5 = .ok (-5) := by rfl
  have h64 : perform_operation "<<" 0 64 = .ok 0 := by rfl
  rw [h5] at hr
  rw [h64] at hr1
  cases hr
  cases hr1
  exact ⟨h, h1⟩

/-! ## Claims on the peephole step -/

/-- Once the bound on the iterations exceeds the bit length of `factor`, the
result of the loop no longer depends on it. -/
theorem shift_loop_fuel (n : Nat) : ∀ (m : Nat) (factor power : Int), factor < 2 ^ n →
    shift_loop (n + m) factor power = shift_loop n factor power := by
  induction n with
  | zero =>
    intro m factor power h
    cases m with
    | zero => rfl
    | succ m =>
      have h1 : ¬ factor > 1 := by simp at h; omega
      simp [shift_loop, h1]
  | succ n ih =>
    intro m factor power h
    have e : n + 1 + m = (n + m) + 1 := by omega
    rw [e, shift_loop, shift_loop]
    split
    · apply ih
      have h2 : (2 : Int) ^ (n + 1) = 2 * 2 ^ n := by ring
      omega
    · rfl

/-- The bound of 32 iterations is enough for every value of an `int`: a larger
bound gives the same result. -/
theorem shift_loop_int (v : Int) (m : Nat) :
    shift_loop (32 + m) (wrap32 v) 0 = shift_loop 32 (wrap32 v) 0 := by
  apply shift_loop_fuel
  have h := Int.emod_lt_of_pos (v + 2 ^ 31) (by norm_num : (0 : Int) < 2 ^ 32)
  unfold wrap32
  norm_num at h ⊢
  omega

/-- Strength reduction on literals that fit an `int`: `multiply(X, 2^k)` becomes
`shift-left(X, k)` and `divide(X, 2^k)` becomes `shift-right(X, k)` for
`1 <= k <= 30`. -/
theorem peephole_optimize_node_small_power (s : Option Symbol) (X : Node) (k : Nat)
    (h1 : 1 ≤ k) (h30 : k ≤ 30) :
    peephole_optimize_node (.mk .EXPRESSION (.str "*") s [X, number_literal (2 ^ k)]) =
        .ok (.mk .EXPRESSION (.str "<<") s [X, number_literal k]) ∧
      peephole_optimize_node (.mk .EXPRESSION (.str "/") s [X, number_literal (2 ^ k)]) =
        .ok (.mk .EXPRESSION (.str ">>") s [X, number_literal k]) := by
  interval_cases k <;> exact ⟨rfl, rfl⟩

/-- The bit trick of the peephole step on natural numbers: `n & (n - 1)` is
zero exactly for the powers of two. -/
theorem land_pred_eq_zero_iff : ∀ (n : Nat), 0 < n →
    (Nat.land n (n - 1) = 0 ↔ ∃ k, n = 2 ^ k) := by
  intro n
  induction n using Nat.strong_induction_on with
  | _ n ih =>
    intro hn
    have hdiv : Nat.land n (n - 1) / 2 = Nat.land (n / 2) ((n - 1) / 2) := Nat.and_div_two
    have hmod : Nat.land n (n - 1) % 2 = 0 := by
      have h := @Nat.and_mod_two_eq_one n (n - 1)
      have h2 : ¬ (n % 2 = 1 ∧ (n - 1) % 2 = 1) := by omega
      have h3 : ¬ ((n &&& (n - 1)) % 2 = 1) := fun h4 => h2 (h.mp h4)
      change (n &&& (n - 1)) % 2 = 0
      omega
    have hz : Nat.land n (n - 1) = 0 ↔ Nat.land (n / 2) ((n - 1) / 2) = 0 := by
      rw [← hdiv]
      omega
    rw [hz]
    rcases Nat.even_or_odd' n with ⟨m, rfl | rfl⟩
    · have hm : 0 < m := by omega
      have e1 : 2 * m / 2 = m := by omega
      have e2 : (2 * m - 1) / 2 = m - 1 := by omega
      rw [e1, e2, ih m (by omega) hm]
      constructor
      · rintro ⟨k, rfl⟩
        exact ⟨k + 1, by ring⟩
      · rintro ⟨k, hk⟩
        cases k with
        | zero => omega
        | succ k => exact ⟨k, by rw [pow_succ] at hk; omega⟩
    · have e1 : (2 * m + 1) / 2 = m := by omega
      have e2 : (2 * m + 1 - 1) / 2 = m := by omega
      rw [e1, e2]
      have e3 : Nat.land m m = m := by
        change m &&& m = m
        exact Nat.and_self m
      rw [e3]
      constructor
      · intro h
        exact ⟨0, by simp [h]⟩
      · rintro ⟨k, hk⟩
        cases k with
        | zero => simpa using hk
        | succ k => rw [pow_succ] at hk; omega

theorem land_high_bit_ne_zero (a b : Nat) (ha : 2 ^ 31 ≤ a) (ha2 : a < 2 ^ 32)
    (hb : 2 ^ 31 ≤ b) (hb2 : b < 2 ^ 32) : Nat.land a b ≠ 0 := by
  intro h
  have ht : (a &&& b).testBit 31 = true := by
    rw [Nat.testBit_and, Nat.testBit_to_div_mod, Nat.testBit_to_div_mod]
    have h1 : a / 2 ^ 31 % 2 = 1 := by omega
    have h2 : b / 2 ^ 31 % 2 = 1 := by omega
    rw [h1, h2]
    rfl
  change a &&& b = 0 at h
  rw [h] at ht
  simp at ht

theorem wrap32_of_int {c : Int} (hlo : -2 ^ 31 ≤ c) (hhi : c < 2 ^ 31) : wrap32 c = c := by
  unfold wrap32
  norm_num at hlo hhi ⊢
  omega

/-- On an `int` other than the least one, the test of the peephole step holds
exactly for zero and the powers of two. -/
theorem and_pred_is_zero_iff {c : Int} (hlo : -2 ^ 31 < c) (hhi : c < 2 ^ 31) :
    and_pred_is_zero c = true ↔ c = 0 ∨ ∃ k : Nat, c = 2 ^ k := by
  unfold and_pred_is_zero
  rw [wrap32_of_int (by omega) (by omega), decide_eq_true_eq]
  norm_num at hlo hhi
  rcases lt_trichotomy c 0 with hneg | rfl | hpos
  · have ha : (c % 2 ^ 32).toNat = (c + 2 ^ 32).toNat := by
      congr 1
      norm_num
      omega
    have hb : ((c - 1) % 2 ^ 32).toNat = (c - 1 + 2 ^ 32).toNat := by
      congr 1
      norm_num
      omega
    rw [ha, hb]
    constructor
    · intro h
      exfalso
      refine land_high_bit_ne_zero _ _ ?_ ?_ ?_ ?_ h <;> norm_num <;> omega
    · rintro (h | ⟨k, hk⟩)
      · omega
      · have : (0 : Int) < 2 ^ k := by positivity
        omega
  · constructor
    · intro _
      exact Or.inl rfl
    · intro _
      rfl
  · obtain ⟨n, rfl⟩ := Int.eq_ofNat_of_zero_le hpos.le
    have hn : 0 < n := by omega
    have ha : ((n : Int) % 2 ^ 32).toNat = n := by
      have : (n : Int) % 2 ^ 32 = n := by norm_num; omega
      rw [this]; rfl
    have hb : (((n : Int) - 1) % 2 ^ 32).toNat = n - 1 := by
      have : ((n : Int) - 1) % 2 ^ 32 = ((n - 1 : Nat) : Int) := by norm_num; omega
      rw [this]; rfl
    rw [ha, hb, land_pred_eq_zero_iff n hn]
    constructor
    · rintro ⟨k, hk⟩
      exact Or.inr ⟨k, by exact_mod_cast hk⟩
    · rintro (h | ⟨k, hk⟩)
      · omega
      · exact ⟨k, by exact_mod_cast hk⟩

/-- On a literal that fits an `int`, is not the least `int`, is not `1` and is
not a power of two, the peephole step returns the multiply or divide node as
it is. -/
theorem peephole_optimize_node_int_other (operator : String) (s : Option Symbol) (X : Node)
    (c : Int) (hop : operator = "*" ∨ operator = "/")
    (hlo : -2 ^ 31 < c) (hhi : c < 2 ^ 31) (h1 : c ≠ 1) (hpow : ∀ k : Nat, c ≠ 2 ^ k) :
    peephole_optimize_node (.mk .EXPRESSION (.str operator) s [X, number_literal c]) =
      .ok (.mk .EXPRESSION (.str operator) s [X, number_literal c]) := by
  have hw := wrap32_of_int (le_of_lt hlo) hhi
  have hand := and_pred_is_zero_iff hlo hhi
  have hcond : ¬ (c ≠ 1 ∧ c ≠ 0 ∧ and_pred_is_zero c = true) := by
    rintro ⟨_, h0, h⟩
    rcases hand.mp h with h | ⟨k, hk⟩
    · exact h0 h
    · exact hpow k hk
  unfold peephole_optimize_node
  simp only [Node.type_mk, ne_eq, not_true_eq_false, if_false,
    Node.data_mk, Payload.as_string, hop, if_true, Node.children_mk, number_literal,
    Payload.read_int, hw]
  rw [if_neg hcond, if_neg h1]

/-- C3, at the failing input: the literal `2^32` is read through `int *` as `0`,
and `multiply(x, 4294967296)` is returned as it is, not as `shift-left(x, 32)`. -/
theorem peephole_optimize_node_two_pow_32 :
    peephole_optimize_node (.mk .EXPRESSION (.str "*") none
        [.mk .IDENTIFIER_DATA (.str "x") none [], number_literal 4294967296]) =
      .ok (.mk .EXPRESSION (.str "*") none
        [.mk .IDENTIFIER_DATA (.str "x") none [], number_literal 4294967296]) := by
  rfl

/-- C4: a multiply or divide `EXPRESSION` with left operand `X` and the number
literal `1` as right operand is replaced by `X` itself. -/
theorem peephole_optimize_node_one (operator : String) (s : Option Symbol) (X : Node)
    (hop : operator = "*" ∨ operator = "/") :
    peephole_optimize_node (.mk .EXPRESSION (.str operator) s [X, number_literal 1]) = .ok X := by
  rcases hop with rfl | rfl <;> rfl

/-- C4, instance: `divide(x, 1)` becomes the identifier node `x`. -/
theorem peephole_optimize_node_one_witness :
    peephole_optimize_node (.mk .EXPRESSION (.str "/") none
        [.mk .IDENTIFIER_DATA (.str "x") none [], number_literal 1]) =
      .ok (.mk .IDENTIFIER_DATA (.str "x") none []) :=
  peephole_optimize_node_one "/" none (.mk .IDENTIFIER_DATA (.str "x") none []) (Or.inr rfl)

/-- C5, at the failing input: `4294967304 = 2^32 + 8` is not a power of two, yet
its low half read through `int *` is `8`, and `multiply(x, 4294967304)` is
rewritten to `shift-left(x, 3)`. -/
theorem peephole_optimize_node_low_half :
    peephole_optimize_node (.mk .EXPRESSION (.str "*") none
        [.mk .IDENTIFIER_DATA (.str "x") none [], number_literal 4294967304]) =
      .ok (.mk .EXPRESSION (.str "<<") none
        [.mk .IDENTIFIER_DATA (.str "x") none [], number_literal 3]) := by
  rfl

/-- C6, at the failing input: the right operand of `x * a[1]` is an
`ARRAY_INDEXING` node without payload; the peephole step reads its payload
without testing its kind and faults. -/
theorem peephole_optimize_node_null_payload :
    peephole_optimize_node (.mk .EXPRESSION (.str "*") none
        [.mk .IDENTIFIER_DATA (.str "x") none [],
         .mk .ARRAY_INDEXING .null none
           [.mk .IDENTIFIER_DATA (.str "a") none [], number_literal 1]]) =
      .error .bad_payload_access := by
  rfl

/-- C8, at the failing input: simplifying `divide(1, 0)` with two literal
operands reaches the division by zero of `perform_operation`. -/
theorem simplify_subtree_divide_by_zero :
    simplify_subtree (.mk .EXPRESSION (.str "/") none [number_literal 1, number_literal 0]) =
      .error .division_by_zero := by
  rfl

/-! ## Idempotence of `simplify_subtree` -/

theorem simplify_subtree_eq_fold_then_peephole (t : NodeType) (d : Payload) (s : Option Symbol)
    (cs : List Node) (h : simplify_children cs = .ok cs) :
    simplify_subtree (.mk t d s cs) = fold_then_peephole (.mk t d s cs) := by
  rw [simplify_subtree, h]
  rfl

theorem simplify_children_cons_ok {c : Node} {cs l : List Node}
    (h : simplify_children (c :: cs) = .ok l) :
    ∃ c1 cs1, l = c1 :: cs1 ∧ simplify_subtree c = .ok c1 ∧ simplify_children cs = .ok cs1 := by
  rw [simplify_children] at h
  cases hc : simplify_subtree c with
  | error e => rw [hc] at h; cases h
  | ok c1 =>
    cases hcs : simplify_children cs with
    | error e => rw [hc, hcs] at h; cases h
    | ok cs1 =>
      rw [hc, hcs] at h
      exact ⟨c1, cs1, (Except.ok.inj h).symm, rfl, rfl⟩

/-- The possible results of constant folding. -/
theorem constant_fold_node_cases {n m : Node} (h : constant_fold_node n = .ok m) :
    m = n ∨ ∃ r, m = folded_node r := by
  unfold constant_fold_node at h
  split at h
  · exact Or.inl (Except.ok.inj h).symm
  · split at h
    · exact Or.inl (Except.ok.inj h).symm
    · split at h
      · cases h
      · split at h
        · exact Or.inl (Except.ok.inj h).symm
        · split at h
          · cases h
          · split at h
            · cases h
            · split at h
              · cases h
              · split at h
                · cases h
                · exact Or.inr ⟨_, (Except.ok.inj h).symm⟩

/-- An operator node that constant folding returns as it is has a child that is
not a number. -/
theorem constant_fold_node_unchanged {n : Node} {operator : String}
    (h : constant_fold_node n = .ok n) (ht : n.type = .EXPRESSION)
    (hd : n.data = .str operator) (hop : is_operator operator = true) :
    n.children.any (fun c => decide (c.type ≠ .NUMBER_DATA)) = true := by
  by_contra hany
  rcases constant_fold_node_cases h with _ | ⟨r, hr⟩
  · unfold constant_fold_node at h
    simp only [ht, hd, hany, hop, Payload.as_string, ne_eq, not_true_eq_false, if_false,
      Bool.not_true, Bool.false_eq_true] at h
    split at h
    · cases h
    · split at h
      · cases h
      · split at h
        · cases h
        · split at h
          · cases h
          · have h2 := congrArg Node.type (Except.ok.inj h)
            rw [ht] at h2
            cases h2
  · rw [hr] at ht
    cases ht

theorem shift_loop_bounds : ∀ (fuel : Nat) (factor power : Int),
    power ≤ shift_loop fuel factor power ∧ shift_loop fuel factor power ≤ power + fuel
  | 0, factor, power => by simp [shift_loop]
  | fuel + 1, factor, power => by
    rw [shift_loop]
    split
    · have h := shift_loop_bounds fuel (factor / 2) (power + 1)
      push_cast
      omega
    · push_cast
      omega

/-- The possible results of the peephole step. -/
theorem peephole_optimize_node_cases {n m : Node} (h : peephole_optimize_node n = .ok m) :
    m = n ∨ (∃ c0 rest, n.children = c0 :: rest ∧ m = c0) ∨
      ∃ operator shift c0 t1 d1 d2 s1 k1 rest power,
        n.type = .EXPRESSION ∧ n.data = .str operator ∧ is_operator operator = true ∧
        n.children = c0 :: .mk t1 d1 s1 k1 :: rest ∧
        d1.write_int64 power = .ok d2 ∧ 0 ≤ power ∧ power ≤ 32 ∧
        m = .mk .EXPRESSION (.str shift) n.symbol (c0 :: .mk t1 d2 s1 k1 :: rest) ∧
        (shift = "<<" ∨ shift = ">>") := by
  unfold peephole_optimize_node at h
  split at h
  · exact Or.inl (Except.ok.inj h).symm
  next ht =>
    split at h
    · cases h
    next operator hd =>
      split at h
      next hop =>
        split at h
        next c0 c1 rest hcs =>
          split at h
          · cases h
          next factor hf =>
            split at h
            · simp only at h
              split at h
              · cases h
              next cs hset =>
                refine Or.inr (Or.inr ?_)
                rw [hcs] at hset
                obtain ⟨t1, d1, s1, k1⟩ := c1
                simp only [set_second_payload] at hset
                cases hw : d1.write_int64 (shift_loop 32 factor 0) with
                | error e => rw [hw] at hset; cases hset
                | ok d2 =>
                  rw [hw] at hset
                  have hb := shift_loop_bounds 32 factor 0
                  refine ⟨operator, if operator = "*" then "<<" else ">>", c0, t1, d1, d2, s1, k1,
                    rest, shift_loop 32 factor 0, ?_, ?_, ?_, hcs, hw, hb.1, ?_, ?_, ?_⟩
                  · simpa using ht
                  · cases hdd : n.data <;> rw [hdd] at hd <;> simp [Payload.as_string] at hd
                    rw [hd]
                  · rcases hop with rfl | rfl <;> rfl
                  · have := hb.2
                    push_cast at this
                    omega
                  · rw [← Except.ok.inj h, ← Except.ok.inj hset]
                  · split
                    · exact Or.inl rfl
                    · exact Or.inr rfl
            · split at h
              · exact Or.inr (Or.inl ⟨c0, c1 :: rest, hcs, (Except.ok.inj h).symm⟩)
              · exact Or.inl (Except.ok.inj h).symm
        · cases h
      · exact Or.inl (Except.ok.inj h).symm

theorem fold_then_peephole_not_expression (t : NodeType) (d : Payload) (s : Option Symbol)
    (cs : List Node) (ht : t ≠ .EXPRESSION) :
    fold_then_peephole (.mk t d s cs) = .ok (.mk t d s cs) := by
  simp [fold_then_peephole, constant_fold_node, peephole_optimize_node, ht]

theorem fold_then_peephole_expression_num (v : Int) (s : Option Symbol) (cs : List Node) :
    fold_then_peephole (.mk .EXPRESSION (.num v) s cs) = .error .bad_payload_access := by
  unfold fold_then_peephole constant_fold_node
  simp only [Node.type_mk, Node.children_mk, Node.data_mk, ne_eq, not_true_eq_false, if_false,
    Payload.as_string]
  split_ifs with hany
  · simp [peephole_optimize_node, Payload.as_string]
  · rfl

/-- The string that a written power spells is none of the operators. -/
theorem is_operator_int64_c_string (power : Int) (h0 : 0 ≤ power) (h32 : power ≤ 32) :
    is_operator (int64_c_string power) = false := by
  interval_cases power <;> decide

/-- Both rewrites return an `EXPRESSION` whose payload is not one of the
operators as it is. -/
theorem fold_then_peephole_not_operator (operator : String) (s : Option Symbol)
    (cs : List Node) (h : is_operator operator = false) :
    fold_then_peephole (.mk .EXPRESSION (.str operator) s cs) =
      .ok (.mk .EXPRESSION (.str operator) s cs) := by
  have h1 : operator ≠ "*" := by rintro rfl; exact absurd h (by decide)
  have h2 : operator ≠ "/" := by rintro rfl; exact absurd h (by decide)
  unfold fold_then_peephole constant_fold_node
  simp only [Node.type_mk, Node.children_mk, Node.data_mk, ne_eq, not_true_eq_false, if_false,
    Payload.as_string, h, Bool.not_false, if_true]
  split_ifs <;> simp [peephole_optimize_node, Payload.as_string, h1, h2]

/-- A node that both rewrites return as it is stays so when the peephole step
overwrites its payload with a power. -/
theorem fold_then_peephole_write {t : NodeType} {d d2 : Payload} {s : Option Symbol}
    {cs : List Node} {power : Int} (h0 : 0 ≤ power) (h32 : power ≤ 32)
    (hw : d.write_int64 power = .ok d2)
    (h : fold_then_peephole (.mk t d s cs) = .ok (.mk t d s cs)) :
    fold_then_peephole (.mk t d2 s cs) = .ok (.mk t d2 s cs) := by
  by_cases ht : t = .EXPRESSION
  · subst ht
    cases d with
    | num v =>
      rw [fold_then_peephole_expression_num] at h
      cases h
    | str s0 =>
      have hlt : power < 128 := by omega
      simp only [Payload.write_int64, h0, hlt, and_self, if_true, Except.ok.injEq] at hw
      subst hw
      exact fold_then_peephole_not_operator _ _ _ (is_operator_int64_c_string power h0 h32)
    | null => simp [Payload.write_int64] at hw
    | pos _ => simp [Payload.write_int64] at hw
  · exact fold_then_peephole_not_expression _ _ _ _ ht

mutual
theorem simplify_subtree_of_simplified : ∀ (m : Node), simplified m → simplify_subtree m = .ok m
  | .mk t d s cs, h => by
    rw [simplified] at h
    rw [simplify_subtree, simplify_children_of_simplified cs h.1]
    exact h.2
theorem simplify_children_of_simplified : ∀ (cs : List Node), simplified_list cs →
    simplify_children cs = .ok cs
  | [], _ => rfl
  | c :: cs, h => by
    rw [simplified_list] at h
    rw [simplify_children, simplify_subtree_of_simplified c h.1,
      simplify_children_of_simplified cs h.2]
end

/-- Rewriting a node whose children are simplified gives a simplified node. -/
theorem simplified_fold_then_peephole {t : NodeType} {d : Payload} {s : Option Symbol}
    {cs : List Node} {m : Node} (hcs : simplified_list cs)
    (h : fold_then_peephole (.mk t d s cs) = .ok m) :
    simplified m := by
  have hh := h
  unfold fold_then_peephole at h
  cases hf : constant_fold_node (.mk t d s cs) with
  | error e => rw [hf] at h; cases h
  | ok n1 =>
    rw [hf] at h
    simp only at h
    rcases constant_fold_node_cases hf with h1 | ⟨r, hr⟩
    · subst h1
      rcases peephole_optimize_node_cases h with h2 | ⟨c0, rest, hc, h2⟩ |
        ⟨operator, shift, c0, t1, d1, d2, s1, k1, rest, power, ht, hd, hop, hc, hw, h0, h32,
          h2, hsh⟩
      · subst h2
        rw [simplified]
        exact ⟨hcs, hh⟩
      · subst h2
        simp only [Node.children_mk] at hc
        subst hc
        rw [simplified_list] at hcs
        exact hcs.1
      · simp only [Node.children_mk, Node.type_mk, Node.data_mk, Node.symbol_mk] at hc ht hd h2
        subst hc ht hd h2
        have hany := constant_fold_node_unchanged hf rfl rfl hop
        simp only [Node.children_mk, List.any_cons, Node.type_mk] at hany
        simp only [simplified_list, simplified] at hcs
        obtain ⟨hc0, ⟨hk1, hc1⟩, hrest⟩ := hcs
        rw [simplified]
        refine ⟨?_, ?_⟩
        · simp only [simplified_list, simplified]
          exact ⟨hc0, ⟨hk1, fold_then_peephole_write h0 h32 hw hc1⟩, hrest⟩
        · have hfold : constant_fold_node (.mk .EXPRESSION (.str shift) s
              (c0 :: .mk t1 d2 s1 k1 :: rest)) =
              .ok (.mk .EXPRESSION (.str shift) s (c0 :: .mk t1 d2 s1 k1 :: rest)) := by
            unfold constant_fold_node
            simp only [Node.type_mk, Node.children_mk, ne_eq, not_true_eq_false, if_false,
              List.any_cons, hany, if_true]
          rw [fold_then_peephole, hfold]
          simp only
          rcases hsh with rfl | rfl <;> rfl
    · subst hr
      rw [peephole_optimize_node_folded] at h
      cases h
      exact ⟨trivial, rfl⟩

mutual
theorem simplify_subtree_simplified : ∀ (t m : Node), simplify_subtree t = .ok m → simplified m
  | .mk t d s cs, m, h => by
    rw [simplify_subtree] at h
    cases hcs : simplify_children cs with
    | error e => rw [hcs] at h; cases h
    | ok cs1 =>
      rw [hcs] at h
      exact simplified_fold_then_peephole (simplify_children_simplified cs cs1 hcs) h
theorem simplify_children_simplified : ∀ (cs l : List Node), simplify_children cs = .ok l →
    simplified_list l
  | [], l, h => by
    rw [simplify_children] at h
    cases h
    trivial
  | c :: cs, l, h => by
    obtain ⟨c1, cs1, e, h1, h2⟩ := simplify_children_cons_ok h
    subst e
    rw [simplified_list]
    exact ⟨simplify_subtree_simplified c c1 h1, simplify_children_simplified cs cs1 h2⟩
end

theorem simplify_subtree_fixed (t m : Node) (h : simplify_subtree t = .ok m) :
    simplify_subtree m = .ok m :=
  simplify_subtree_of_simplified m (simplify_subtree_simplified t m h)

/-- C7: simplification is idempotent: when `simplify_subtree` returns the tree
`m` for a tree `t`, a second application to `m` returns `m` again. -/
theorem simplify_subtree_idempotent (t m : Node) (h : simplify_subtree t = .ok m) :
    simplify_subtree m = .ok m :=
  simplify_subtree_fixed t m h

/-- C7, instances: `x * (4 + 4)` is simplified to `x << 3`, and `x << 3` to
itself; `x * y`, whose right operand is an identifier, is returned as it is, and
so is the result. -/
theorem simplify_subtree_idempotent_witness :
    (simplify_subtree (.mk .EXPRESSION (.str "*") none
        [.mk .IDENTIFIER_DATA (.str "x") none [],
         .mk .EXPRESSION (.str "+") none [number_literal 4, number_literal 4]]) =
      .ok (.mk .EXPRESSION (.str "<<") none
        [.mk .IDENTIFIER_DATA (.str "x") none [], number_literal 3]) ∧
    simplify_subtree (.mk .EXPRESSION (.str "<<") none
        [.mk .IDENTIFIER_DATA (.str "x") none [], number_literal 3]) =
      .ok (.mk .EXPRESSION (.str "<<") none
        [.mk .IDENTIFIER_DATA (.str "x") none [], number_literal 3])) ∧
    (simplify_subtree (.mk .EXPRESSION (.str "*") none
        [.mk .IDENTIFIER_DATA (.str "x") none [], .mk .IDENTIFIER_DATA (.str "y") none []]) =
      .ok (.mk .EXPRESSION (.str "*") none
        [.mk .IDENTIFIER_DATA (.str "x") none [], .mk .IDENTIFIER_DATA (.str "y") none []]) ∧
    simplify_subtree (.mk .EXPRESSION (.str "*") none
        [.mk .IDENTIFIER_DATA (.str "x") none [], .mk .IDENTIFIER_DATA (.str "y") none []]) =
      .ok (.mk .EXPRESSION (.str "*") none
        [.mk .IDENTIFIER_DATA (.str "x") none [], .mk .IDENTIFIER_DATA (.str "y") none []])) :=
  ⟨⟨rfl, simplify_subtree_idempotent
    (.mk .EXPRESSION (.str "*") none
      [.mk .IDENTIFIER_DATA (.str "x") none [],
       .mk .EXPRESSION (.str "+") none [number_literal 4, number_literal 4]])
    (.mk .EXPRESSION (.str "<<") none [.mk .IDENTIFIER_DATA (.str "x") none [], number_literal 3])
    rfl⟩,
   ⟨rfl, simplify_subtree_idempotent
    (.mk .EXPRESSION (.str "*") none
      [.mk .IDENTIFIER_DATA (.str "x") none [], .mk .IDENTIFIER_DATA (.str "y") none []])
    (.mk .EXPRESSION (.str "*") none
      [.mk .IDENTIFIER_DATA (.str "x") none [], .mk .IDENTIFIER_DATA (.str "y") none []])
    rfl⟩⟩

/-! ## Claims on name binding -/

theorem find_globals_block_under_if :
    find_globals block_under_if = .ok
      { global_symbols :=
          { symbols := [⟨"f", .SYMBOL_FUNCTION, 0, some (.local_of 0)⟩],
            hashmap := .root [⟨"f", .SYMBOL_FUNCTION, 0, some (.local_of 0)⟩] },
        local_tables :=
          [(0, { symbols := [⟨"x", .SYMBOL_PARAMETER, 0, some (.local_of 0)⟩],
                 hashmap := .over_global [⟨"x", .SYMBOL_PARAMETER, 0, some (.local_of 0)⟩] })],
        string_list := [], string_list_capacity := 0, reports := [] } := by
  rfl

/-- C9, at the failing input: in
`func f(x) begin if x = 1 then begin var x  x := 2 end end`
the nested block is the body of an if statement. Whenever the numbering of the
node kinds puts `IF_STATEMENT` among the kinds `6..11` (and `LIST` and `BLOCK`
outside), `bind_names` hands the whole if statement to
`bind_statement_identifier_data`: no scope is pushed for the nested block, its
declaration of `x` enters no symbol in the local table, and the declaration as
well as the use `x := 2` are bound to the parameter `x`. -/
theorem create_tables_block_under_if (code : NodeType → Nat)
    (hif : 6 ≤ code .IF_STATEMENT ∧ code .IF_STATEMENT ≤ 11)
    (hlist : ¬ (6 ≤ code .LIST ∧ code .LIST ≤ 11))
    (hblock : ¬ (6 ≤ code .BLOCK ∧ code .BLOCK ≤ 11)) :
    create_tables code block_under_if = .ok block_under_if_result := by
  rw [create_tables, find_globals_block_under_if]
  simp only [block_under_if, block_under_if_result, plain, identifier, Node.children_mk,
    create_tables_loop, create_tables_child,
    Node.type_mk, if_true, Node.data_mk, Payload.as_string, symbol_hashmap_lookup, frame_lookup,
    Hashmap.entries, List.find?, decide_True, function_table, lookup_table, bind_names,
    bind_names_children, hblock, hlist, hif, if_false, reduceCtorEq, and_self,
    bind_statement_identifier_data, bind_statement_identifier_data_children, Hashmap.pop,
    store_table, List.map, Node.symbol_mk, number_literal, and_true]

/-- C9, instance: the numbering `node_type_code`, whose kinds `6..11` are the
six statement kinds. -/
theorem create_tables_block_under_if_witness :
    create_tables node_type_code block_under_if = .ok block_under_if_result :=
  create_tables_block_under_if node_type_code (by decide) (by decide) (by decide)

/-- The same nested block placed directly among the statements of the function
body: a scope is pushed, the declaration enters the local variable `x` with
sequence number 1, and the use `x := 2` is bound to it. -/
theorem create_tables_block_in_block :
    create_tables node_type_code
      (plain .LIST [
        plain .FUNCTION [identifier "f", plain .LIST [identifier "x"],
          plain .BLOCK [plain .LIST [
            plain .BLOCK [
              plain .LIST [plain .LIST [identifier "x"]],
              plain .LIST [
                plain .ASSIGNMENT_STATEMENT [identifier "x", number_literal 2]]]]]]]) =
    .ok
      ({ global_symbols :=
           { symbols := [⟨"f", .SYMBOL_FUNCTION, 0, some (.local_of 0)⟩],
             hashmap := .root [⟨"f", .SYMBOL_FUNCTION, 0, some (.local_of 0)⟩] },
         local_tables :=
           [(0, { symbols := [⟨"x", .SYMBOL_PARAMETER, 0, some (.local_of 0)⟩,
                              ⟨"x", .SYMBOL_LOCAL_VAR, 1, some (.local_of 0)⟩],
                  hashmap := .over_global [⟨"x", .SYMBOL_PARAMETER, 0, some (.local_of 0)⟩] })],
         string_list := [], string_list_capacity := 0, reports := [] },
       plain .LIST [
        plain .FUNCTION [identifier "f", plain .LIST [identifier "x"],
          plain .BLOCK [plain .LIST [
            plain .BLOCK [
              plain .LIST [plain .LIST [identifier "x"]],
              plain .LIST [
                plain .ASSIGNMENT_STATEMENT [
                  .mk .IDENTIFIER_DATA (.str "x")
                    (some ⟨"x", .SYMBOL_LOCAL_VAR, 1, some (.local_of 0)⟩) [],
                  number_literal 2]]]]]]]) := by
  rfl

/-! ## The global table built by `find_globals` -/

theorem frame_lookup_eq_none {entries : List Symbol} {name : String} :
    frame_lookup entries name = none ↔ name ∉ entries.map Symbol.name := by
  simp only [frame_lookup, List.find?_eq_none, decide_eq_true_eq, List.mem_map, not_exists,
    not_and]

theorem frame_lookup_mem {entries : List Symbol} {s : Symbol}
    (hs : s ∈ entries) (hnodup : (entries.map Symbol.name).Nodup) :
    frame_lookup entries s.name = some s := by
  induction entries with
  | nil => cases hs
  | cons e es ih =>
    rw [List.map_cons, List.nodup_cons] at hnodup
    rcases List.mem_cons.mp hs with rfl | h
    · simp [frame_lookup]
    · have hne : e.name ≠ s.name := by
        intro heq
        exact hnodup.1 (heq ▸ List.mem_map_of_mem _ h)
      have := ih h hnodup.2
      simp only [frame_lookup] at this ⊢
      rw [List.find?_cons_of_neg _ (by simpa using hne)]
      exact this

theorem symbol_table_insert_present {table : SymbolTable} {symbol : Symbol}
    (h : symbol.name ∈ table.hashmap.entries.map Symbol.name) :
    symbol_table_insert table symbol = (table, .INSERT_COLLISION) := by
  unfold symbol_table_insert
  cases hl : frame_lookup table.hashmap.entries symbol.name with
  | some _ => rfl
  | none => exact absurd h (frame_lookup_eq_none.mp hl)

theorem symbol_table_insert_fresh {table : SymbolTable} {symbol : Symbol}
    (h : symbol.name ∉ table.hashmap.entries.map Symbol.name) :
    symbol_table_insert table symbol =
      ({ symbols := table.symbols ++ [{ symbol with sequence_number := table.symbols.length }],
         hashmap := table.hashmap.set_entries
           (table.hashmap.entries ++ [{ symbol with sequence_number := table.symbols.length }]) },
       .INSERT_OK) := by
  unfold symbol_table_insert
  rw [frame_lookup_eq_none.mpr h]

theorem insert_all_append (table : SymbolTable) (a b : List Symbol) :
    insert_all table (a ++ b) = insert_all (insert_all table a) b := by
  simp only [insert_all, List.foldl_append]

theorem insert_all_cons (table : SymbolTable) (s : Symbol) (ss : List Symbol) :
    insert_all table (s :: ss) = insert_all (symbol_table_insert table s).1 ss := by
  rfl

/-- Symbols whose names the table already holds are all rejected. -/
theorem insert_all_present {table : SymbolTable} (hflat : table.flat) :
    ∀ (ss : List Symbol), (∀ s ∈ ss, s.name ∈ table.symbols.map Symbol.name) →
      insert_all table ss = table
  | [], _ => rfl
  | s :: ss, h => by
    have hs : s.name ∈ table.hashmap.entries.map Symbol.name := by
      rw [hflat.1]
      exact h s (List.mem_cons_self _ _)
    rw [insert_all_cons, symbol_table_insert_present hs]
    exact insert_all_present hflat ss (fun x hx => h x (List.mem_cons_of_mem _ hx))

theorem renumber_map_name (k : Nat) (ss : List Symbol) :
    (renumber k ss).map Symbol.name = ss.map Symbol.name := by
  induction ss generalizing k with
  | nil => rfl
  | cons s ss ih => simp only [renumber, List.map_cons, ih]

theorem renumber_map_type (k : Nat) (ss : List Symbol) :
    (renumber k ss).map Symbol.type = ss.map Symbol.type := by
  induction ss generalizing k with
  | nil => rfl
  | cons s ss ih => simp only [renumber, List.map_cons, ih]

theorem renumber_length (k : Nat) (ss : List Symbol) : (renumber k ss).length = ss.length := by
  simpa using congrArg List.length (renumber_map_name k ss)

theorem renumber_map_sequence_number (k : Nat) (ss : List Symbol) :
    (renumber k ss).map Symbol.sequence_number = List.range' k ss.length := by
  induction ss generalizing k with
  | nil => rfl
  | cons s ss ih => simp only [renumber, List.map_cons, ih, List.length_cons, List.range'_succ]

/-- Symbols with pairwise distinct names that the table does not hold yet are
all accepted, in order, and numbered from the size of the table. -/
theorem insert_all_fresh : ∀ (ss : List Symbol) (table : SymbolTable), table.flat →
    (ss.map Symbol.name).Nodup →
    (∀ s ∈ ss, s.name ∉ table.symbols.map Symbol.name) →
    insert_all table ss =
      { symbols := table.symbols ++ renumber table.symbols.length ss,
        hashmap := .root (table.symbols ++ renumber table.symbols.length ss) }
  | [], table, hflat, _, _ => by
    obtain ⟨symbols, hashmap⟩ := table
    simp only [SymbolTable.flat] at hflat
    simp [insert_all, renumber, hflat.1]
  | s :: ss, table, hflat, hnodup, hfresh => by
    rw [List.map_cons, List.nodup_cons] at hnodup
    have hs : s.name ∉ table.hashmap.entries.map Symbol.name := by
      rw [hflat.1]
      exact hfresh s (List.mem_cons_self _ _)
    rw [insert_all_cons, symbol_table_insert_fresh hs]
    have hflat1 : SymbolTable.flat
        { symbols := table.symbols ++ [{ s with sequence_number := table.symbols.length }],
          hashmap := table.hashmap.set_entries
            (table.hashmap.entries ++ [{ s with sequence_number := table.symbols.length }]) } := by
      refine ⟨?_, ?_, ?_⟩
      · simp only [hflat.1, Hashmap.set_entries, Hashmap.entries]
      · simp only [List.map_append, hflat.2.1, List.map_cons, List.map_nil, List.length_append,
          List.length_cons, List.length_nil, List.range_succ]
      · simp only [List.map_append, List.map_cons, List.map_nil]
        rw [List.nodup_append]
        refine ⟨hflat.2.2, List.nodup_singleton _, ?_⟩
        intro a ha hb
        rw [List.mem_singleton] at hb
        subst hb
        exact hfresh s (List.mem_cons_self _ _) ha
    have ih := insert_all_fresh ss _ hflat1 hnodup.2 (by
      intro x hx hmem
      simp only [List.map_append, List.map_cons, List.map_nil, List.mem_append,
        List.mem_singleton] at hmem
      rcases hmem with h | h
      · exact hfresh x (List.mem_cons_of_mem _ hx) h
      · exact hnodup.1 (h ▸ List.mem_map_of_mem _ hx))
    rw [ih]
    simp only [List.length_append, List.length_cons, List.length_nil, renumber,
      List.append_assoc, List.singleton_append, zero_add]

theorem insert_parameters_identifiers (function : Node) (id : TableId) :
    ∀ (names : List String) (table : SymbolTable) (reports : List Report),
      ∃ result, insert_parameters function id table reports (names.map identifier) = .ok result
  | [], table, reports => ⟨(table, reports), rfl⟩
  | n :: names, table, reports => by
    simp only [List.map_cons, insert_parameters, identifier, Node.data_mk, Payload.as_string]
    rcases h : symbol_table_insert table ⟨n, .SYMBOL_PARAMETER, 0, some id⟩ with ⟨t1, r⟩
    cases r
    · exact insert_parameters_identifiers function id names t1 reports
    · exact insert_parameters_identifiers function id names t1 _

theorem insert_globals_identifiers (declaration : Node) (type : SymType) :
    ∀ (names : List String) (table : SymbolTable) (reports : List Report),
      ∃ reports1, insert_globals declaration type table reports (names.map identifier) =
        .ok (insert_all table (names.map (fun n => ⟨n, type, 0, none⟩)), reports1)
  | [], table, reports => ⟨reports, rfl⟩
  | n :: names, table, reports => by
    simp only [List.map_cons, insert_globals, identifier, Node.type_mk, if_true, Node.data_mk,
      Payload.as_string, insert_all_cons]
    rcases h : symbol_table_insert table ⟨n, type, 0, none⟩ with ⟨t1, r⟩
    cases r
    · exact insert_globals_identifiers declaration type names t1 reports
    · exact insert_globals_identifiers declaration type names t1 _

/-- One step of the loop of `find_globals` offers the symbols of the
declaration to the global table. -/
theorem find_globals_child_declaration (i : Nat) (d : Declaration) (tables : Tables) :
    ∃ tables1, find_globals_child i d.node tables = .ok tables1 ∧
      tables1.global_symbols = insert_all tables.global_symbols (d.symbols i) := by
  cases d with
  | function name parameters body =>
    obtain ⟨⟨local_symbols, reports⟩, hp⟩ := insert_parameters_identifiers
      (Declaration.node (.function name parameters body)) (.local_of i) parameters
      { symbols := [], hashmap := .over_global [] } tables.reports
    simp only [Declaration.node, plain, identifier] at hp
    simp only [find_globals_child, Declaration.node, plain, identifier, Node.type_mk, if_true,
      Node.children_mk, Node.data_mk, Payload.as_string, hp, Declaration.symbols, insert_all_cons]
    rcases h : symbol_table_insert tables.global_symbols
      ⟨name, .SYMBOL_FUNCTION, 0, some (.local_of i)⟩ with ⟨t1, r⟩
    cases r
    · exact ⟨_, rfl, rfl⟩
    · exact ⟨_, rfl, rfl⟩
  | plain_variables first more =>
    obtain ⟨reports1, hg⟩ := insert_globals_identifiers
      (Declaration.node (.plain_variables first more)) .SYMBOL_GLOBAL_VAR (first :: more)
      tables.global_symbols tables.reports
    simp only [Declaration.node, plain, identifier, List.map_cons] at hg
    simp only [find_globals_child, Declaration.node, plain, identifier, Node.type_mk,
      reduceCtorEq, if_false, if_true, find_identifiers_parent, find_identifiers_parent_children,
      List.map_cons, Node.children_mk, hg, Declaration.symbols]
    exact ⟨_, rfl, rfl⟩
  | array name size =>
    simp only [find_globals_child, Declaration.node, plain, identifier, Node.type_mk,
      reduceCtorEq, if_false, if_true, find_identifiers_parent, find_identifiers_parent_children,
      Node.children_mk, Declaration.symbols, insert_globals, number_literal, Node.data_mk,
      Payload.as_string, insert_all_cons]
    rcases h : symbol_table_insert tables.global_symbols
      ⟨name, .SYMBOL_GLOBAL_ARRAY, 0, none⟩ with ⟨t1, r⟩
    cases r
    · exact ⟨_, rfl, rfl⟩
    · exact ⟨_, rfl, rfl⟩

theorem find_globals_loop_declarations :
    ∀ (ds : List Declaration) (i : Nat) (tables : Tables),
      ∃ tables1, find_globals_loop i (ds.map Declaration.node) tables = .ok tables1 ∧
        tables1.global_symbols = insert_all tables.global_symbols (symbols_from i ds)
  | [], i, tables => ⟨tables, rfl, rfl⟩
  | d :: ds, i, tables => by
    obtain ⟨t1, h1, g1⟩ := find_globals_child_declaration i d tables
    obtain ⟨t2, h2, g2⟩ := find_globals_loop_declarations ds (i + 1) t1
    refine ⟨t2, ?_, ?_⟩
    · simp only [List.map_cons, find_globals_loop, h1, h2]
    · rw [g2, g1, symbols_from, insert_all_append]

theorem find_globals_program (ds : List Declaration) :
    ∃ tables, find_globals (program ds) = .ok tables ∧
      tables.global_symbols = insert_all symbol_table_init (symbols_from 0 ds) := by
  obtain ⟨t, h, g⟩ := find_globals_loop_declarations ds 0 initial_tables
  exact ⟨t, h, g⟩

theorem symbols_from_map_name : ∀ (ds : List Declaration) (i : Nat),
    (symbols_from i ds).map Symbol.name = ds.flatMap Declaration.names
  | [], _ => rfl
  | d :: ds, i => by
    rw [symbols_from, List.map_append, symbols_from_map_name ds (i + 1), List.flatMap_cons]
    congr 1
    cases d <;> simp [Declaration.symbols, Declaration.names, Function.comp_def]

theorem symbols_from_append : ∀ (ds es : List Declaration) (i : Nat),
    symbols_from i (ds ++ es) = symbols_from i ds ++ symbols_from (i + ds.length) es
  | [], es, i => by simp [symbols_from]
  | d :: ds, es, i => by
    have e : i + 1 + ds.length = i + (ds.length + 1) := by omega
    rw [List.cons_append, symbols_from, symbols_from, symbols_from_append ds es (i + 1),
      List.append_assoc, List.length_cons, e]

theorem symbol_table_init_flat : symbol_table_init.flat :=
  ⟨rfl, rfl, List.nodup_nil⟩

/-- The global table after `find_globals` when the declared names are pairwise
distinct: every offered symbol, numbered by position, in one frame. -/
theorem find_globals_distinct (ds : List Declaration)
    (hnodup : (ds.flatMap Declaration.names).Nodup) :
    ∃ tables, find_globals (program ds) = .ok tables ∧
      tables.global_symbols =
        { symbols := renumber 0 (symbols_from 0 ds),
          hashmap := .root (renumber 0 (symbols_from 0 ds)) } := by
  obtain ⟨tables, h, g⟩ := find_globals_program ds
  refine ⟨tables, h, ?_⟩
  rw [g, insert_all_fresh _ _ symbol_table_init_flat
    (by rw [symbols_from_map_name]; exact hnodup)
    (by intro s _ hm; simp [symbol_table_init] at hm)]
  simp [symbol_table_init]

theorem renumbered_flat (ss : List Symbol) (hnodup : (ss.map Symbol.name).Nodup) :
    SymbolTable.flat { symbols := renumber 0 ss, hashmap := .root (renumber 0 ss) } := by
  refine ⟨rfl, ?_, ?_⟩
  · simp only [renumber_map_sequence_number, renumber_length, List.range_eq_range']
  · simpa only [renumber_map_name] using hnodup

/-- On the programs whose declarations are functions, lists of plain variables
and single arrays (no declaration that mixes plain variables and arrays), with
pairwise distinct names, `find_globals` leaves the global table holding exactly
one symbol per name, in declaration order, with sequence numbers `0, 1, 2, ...`,
and looking up the name of a symbol yields that symbol. A further declaration
that re-uses names of the table is rejected: the global table is the same (same
symbols, same sequence numbers), and looking up a re-used name yields the
symbol inserted first. -/
theorem find_globals_sequence_numbers (ds : List Declaration)
    (hnodup : (ds.flatMap Declaration.names).Nodup) :
    ∃ tables, find_globals (program ds) = .ok tables ∧
      tables.global_symbols.symbols = renumber 0 (symbols_from 0 ds) ∧
      tables.global_symbols.symbols.map Symbol.name = ds.flatMap Declaration.names ∧
      tables.global_symbols.symbols.map Symbol.sequence_number =
        List.range (ds.flatMap Declaration.names).length ∧
      (∀ s ∈ tables.global_symbols.symbols,
        symbol_hashmap_lookup tables.global_symbols.hashmap.entries
          tables.global_symbols.hashmap s.name = some s) ∧
      ∀ d : Declaration, (∀ n ∈ d.names, n ∈ ds.flatMap Declaration.names) →
        ∃ tables1, find_globals (program (ds ++ [d])) = .ok tables1 ∧
          tables1.global_symbols = tables.global_symbols ∧
          ∀ n ∈ d.names, ∃ s ∈ tables.global_symbols.symbols, s.name = n ∧
            symbol_hashmap_lookup tables1.global_symbols.hashmap.entries
              tables1.global_symbols.hashmap n = some s := by
  obtain ⟨tables, h, g⟩ := find_globals_distinct ds hnodup
  have hn : (symbols_from 0 ds).map Symbol.name = ds.flatMap Declaration.names :=
    symbols_from_map_name ds 0
  have hflat : tables.global_symbols.flat := by
    rw [g]
    exact renumbered_flat _ (by rw [hn]; exact hnodup)
  have hnames : tables.global_symbols.symbols.map Symbol.name = ds.flatMap Declaration.names := by
    rw [g]
    simp only [renumber_map_name, hn]
  have hlookup : ∀ s ∈ tables.global_symbols.symbols,
      symbol_hashmap_lookup tables.global_symbols.hashmap.entries
        tables.global_symbols.hashmap s.name = some s := by
    intro s hs
    rw [hflat.1, symbol_hashmap_lookup]
    exact frame_lookup_mem hs hflat.2.2
  refine ⟨tables, h, ?_, hnames, ?_, hlookup, ?_⟩
  · rw [g]
  · rw [hflat.2.1, ← hnames, List.length_map]
  · intro d hd
    obtain ⟨tables1, h1, g1⟩ := find_globals_program (ds ++ [d])
    obtain ⟨tables0, h0, g0⟩ := find_globals_program ds
    rw [h] at h0
    cases h0
    have hsame : tables1.global_symbols = tables.global_symbols := by
      rw [g1, symbols_from_append, insert_all_append, ← g0]
      apply insert_all_present hflat
      intro s hs
      rw [hnames]
      apply hd
      have hm := symbols_from_map_name [d] (0 + ds.length)
      simp only [List.flatMap_cons, List.flatMap_nil, List.append_nil] at hm
      rw [← hm]
      exact List.mem_map_of_mem _ hs
    refine ⟨tables1, h1, hsame, ?_⟩
    intro n hn1
    have hmem := hd n hn1
    rw [← hnames, List.mem_map] at hmem
    obtain ⟨s, hs, hsn⟩ := hmem
    refine ⟨s, hs, hsn, ?_⟩
    rw [hsame, ← hsn]
    exact hlookup s hs

/-- An instance: the function `A`, the variable `B` and the array `C` get the
sequence numbers `0, 1, 2`, and a further variable `A` leaves the table as it
is. -/
theorem find_globals_sequence_numbers_witness :
    ∃ tables,
      find_globals (program
        [.function "A" ["p"] (plain .BLOCK []), .plain_variables "B" [], .array "C" 3]) =
        .ok tables ∧
      tables.global_symbols.symbols.map Symbol.name = ["A", "B", "C"] ∧
      tables.global_symbols.symbols.map Symbol.sequence_number = [0, 1, 2] ∧
      ∃ tables1,
        find_globals (program
          [.function "A" ["p"] (plain .BLOCK []), .plain_variables "B" [], .array "C" 3,
           .plain_variables "A" []]) = .ok tables1 ∧
        tables1.global_symbols = tables.global_symbols := by
  obtain ⟨tables, h, _, hn, hs, _, hd⟩ := find_globals_sequence_numbers
    [.function "A" ["p"] (plain .BLOCK []), .plain_variables "B" [], .array "C" 3] (by decide)
  obtain ⟨tables1, h1, g1, _⟩ := hd (.plain_variables "A" []) (by decide)
  exact ⟨tables, h, hn, hs, tables1, h1, g1⟩

/-- C10, at the failing input: the top-level declarations of
`var A, B[2]  func C() begin return 0 end` introduce the pairwise distinct names
`A`, `B`, `C` in that order. `find_globals` leaves the global table holding two
symbols: `A` with sequence number `0` and `C` with sequence number `1`; the
array `B`, which sits one level below the identifiers' parent, is entered
nowhere, and looking it up in the table finds nothing. -/
theorem find_globals_mixed_sequence_numbers :
    (find_globals (plain .LIST [
        plain .GLOBAL_DECLARATION [plain .LIST
          [identifier "A", plain .ARRAY_INDEXING [identifier "B", number_literal 2]]],
        plain .FUNCTION [identifier "C", plain .LIST [],
          plain .BLOCK [plain .LIST [plain .RETURN_STATEMENT [number_literal 0]]]]])).map
      (fun tables => (tables.global_symbols.symbols,
        symbol_hashmap_lookup tables.global_symbols.hashmap.entries
          tables.global_symbols.hashmap "B")) =
      .ok ([⟨"A", .SYMBOL_GLOBAL_VAR, 0, none⟩, ⟨"C", .SYMBOL_FUNCTION, 1, some (.local_of 1)⟩],
           none) := by
  rfl

/-! ## Claims on the nodes that folding leaves alone -/

/-- C19: `constant_fold_node` returns the node it is given, with kind, payload
and children as they are, when the node is not an `EXPRESSION`, when it is an
`EXPRESSION` whose operator string is not one of `+ - * / << >>`, and when it
is an `EXPRESSION` with a child that is not a `NUMBER_DATA` node. -/
theorem constant_fold_node_unchanged_cases (node : Node)
    (h : node.type ≠ .EXPRESSION ∨
      (∃ operator, node.data = .str operator ∧ is_operator operator = false) ∨
      node.children.any (fun c => decide (c.type ≠ .NUMBER_DATA)) = true) :
    constant_fold_node node = .ok node := by
  unfold constant_fold_node
  by_cases ht : node.type ≠ .EXPRESSION
  · rw [if_pos ht]
  · rw [if_neg ht]
    by_cases hany : node.children.any (fun c => decide (c.type ≠ .NUMBER_DATA)) = true
    · rw [if_pos hany]
    · rw [if_neg hany]
      rcases h with h | ⟨operator, hd, hop⟩ | h
      · exact absurd h ht
      · rw [hd]
        simp only [Payload.as_string, hop, Bool.not_false, if_true]
      · exact absurd h hany

/-- C19, instances: an identifier node, a call-like `EXPRESSION` with an
operator outside the list, and `x + 1` are all returned as they are. -/
theorem constant_fold_node_unchanged_cases_witness :
    constant_fold_node (identifier "x") = .ok (identifier "x") ∧
    constant_fold_node (.mk .EXPRESSION (.str "%") none [number_literal 1, number_literal 2]) =
      .ok (.mk .EXPRESSION (.str "%") none [number_literal 1, number_literal 2]) ∧
    constant_fold_node (.mk .EXPRESSION (.str "+") none [identifier "x", number_literal 1]) =
      .ok (.mk .EXPRESSION (.str "+") none [identifier "x", number_literal 1]) :=
  ⟨constant_fold_node_unchanged_cases _ (Or.inl (by decide)),
   constant_fold_node_unchanged_cases _ (Or.inr (Or.inl ⟨"%", rfl, by decide⟩)),
   constant_fold_node_unchanged_cases _ (Or.inr (Or.inr (by rfl)))⟩

/-! ## Division by a power of two and the shift that replaces it -/

/-- The quotient that truncates toward zero and the quotient that rounds down
agree exactly on the dividends that are non-negative or multiples of the
divisor. -/
theorem tdiv_eq_ediv_iff (a b : Int) (hb : 0 < b) : Int.tdiv a b = a / b ↔ 0 ≤ a ∨ b ∣ a := by
  constructor
  · intro h
    by_contra hc
    push_neg at hc
    obtain ⟨ha, hd⟩ := hc
    have h1 := Int.tdiv_add_tmod a b
    have h2 := Int.ediv_add_emod a b
    have h3 : Int.tmod a b = a % b := by
      rw [h] at h1
      omega
    have h4 : 0 ≤ a % b := Int.emod_nonneg a (by omega)
    have h5 : Int.tmod a b ≤ 0 := by
      have hn := Int.tmod_nonneg b (show 0 ≤ -a by omega)
      have e1 := Int.tdiv_add_tmod (-a) b
      have e2 : (-a).tdiv b = -(a.tdiv b) := Int.neg_tdiv a b
      rw [e2] at e1
      have e3 : b * -(a.tdiv b) = -(b * a.tdiv b) := by ring
      omega
    have h6 : a % b = 0 := by omega
    exact hd (Int.dvd_of_emod_eq_zero h6)
  · rintro (h | h)
    · exact Int.tdiv_eq_ediv h hb.le
    · obtain ⟨c, rfl⟩ := h
      rw [Int.mul_tdiv_cancel_left _ (by omega), Int.mul_ediv_cancel_left _ (by omega)]

/-- Division by `2^k` and the shift by `k` that the peephole step substitutes
for it have the same value exactly on the dividends that are non-negative or
multiples of `2^k`. -/
theorem divide_eq_shift_iff (a : Int) (k : Nat) (hk : k < 64) :
    perform_operation "/" a (2 ^ k) = perform_operation ">>" a k ↔
      0 ≤ a ∨ (2 : Int) ^ k ∣ a := by
  have hpos : (0 : Int) < 2 ^ k := by positivity
  have h1 : perform_operation "/" a (2 ^ k) = .ok (Int.tdiv a (2 ^ k)) := by
    have hne : (2 : Int) ^ k ≠ 0 := by omega
    have hne1 : ¬ (a = INT64_MIN ∧ (2 : Int) ^ k = -1) := by omega
    simp [perform_operation, hne, hne1]
  have h2 : perform_operation ">>" a k = .ok (a / 2 ^ k) := by
    have hr : ((k : Int) % 64).toNat = k := by omega
    simp [perform_operation, hr]
  rw [h1, h2, Except.ok.injEq]
  exact tdiv_eq_ediv_iff a _ hpos

/-- C20, at the failing input: `-1 / 2` is `0`, while `-1 >> 1` is `-1`. -/
theorem divide_ne_shift :
    perform_operation "/" (-1) (2 ^ 1) = .ok 0 ∧ perform_operation ">>" (-1) 1 = .ok (-1) :=
  ⟨by rfl, by rfl⟩

/-! ## Appending to a list node -/

theorem allocation_size_loop_ge (min_allocation_size : Nat) :
    ∀ (fuel size : Nat), 0 < size → min_allocation_size ≤ size * 2 ^ fuel →
      min_allocation_size ≤ allocation_size_loop fuel min_allocation_size size := by
  intro fuel
  induction fuel with
  | zero =>
    intro size _ h
    simpa [allocation_size_loop] using h
  | succ fuel ih =>
    intro size hpos h
    rw [allocation_size_loop]
    split
    · apply ih (size * 2) (by omega)
      rw [pow_succ] at h
      calc min_allocation_size ≤ size * (2 ^ fuel * 2) := h
        _ = size * 2 * 2 ^ fuel := by ring
    · omega

/-- Once the loop has stopped, further iterations change nothing: a larger
bound on the iterations gives the same size. -/
theorem allocation_size_loop_fuel (min_allocation_size : Nat) :
    ∀ (fuel extra size : Nat), 0 < size → min_allocation_size ≤ size * 2 ^ fuel →
      allocation_size_loop (fuel + extra) min_allocation_size size =
        allocation_size_loop fuel min_allocation_size size := by
  intro fuel
  induction fuel with
  | zero =>
    intro extra size _ h
    have hs : ¬ size < min_allocation_size := by simpa using h
    cases extra with
    | zero => rfl
    | succ extra => simp [allocation_size_loop, hs]
  | succ fuel ih =>
    intro extra size hpos h
    have e : fuel + 1 + extra = (fuel + extra) + 1 := by omega
    rw [e, allocation_size_loop, allocation_size_loop]
    split
    · apply ih extra (size * 2) (by omega)
      rw [pow_succ] at h
      calc min_allocation_size ≤ size * (2 ^ fuel * 2) := h
        _ = size * 2 * 2 ^ fuel := by ring
    · rfl

theorem allocation_size_enough (n : Nat) : n + 1 ≤ 1 * 2 ^ (n + 1) := by
  have := Nat.lt_two_pow (n + 1)
  omega

/-- C16: for a node of kind `LIST`, `append_to_list_node` returns the node with
the element appended after the children it had (one child more, the earlier
children, the kind, the payload and the symbol as they were); for a node of any
other kind it fails its assertion. -/
theorem append_to_list_node_spec (list_node element : Node) :
    (list_node.type = .LIST →
      append_to_list_node list_node element =
        .ok (.mk .LIST list_node.data list_node.symbol (list_node.children ++ [element]))) ∧
    (list_node.type ≠ .LIST →
      append_to_list_node list_node element = .error .assertion_failure) := by
  constructor
  · intro h
    have hge := allocation_size_loop_ge (list_node.children.length + 1)
      (list_node.children.length + 1) 1 (by omega) (allocation_size_enough _)
    unfold append_to_list_node
    rw [if_neg (by simpa using h)]
    simp only
    rw [if_pos (by omega), h]
  · intro h
    unfold append_to_list_node
    rw [if_pos h]

/-- C16, instances: appending `c` to the list of `a` and `b` gives the list of
`a`, `b`, `c`; appending to a block fails the assertion. -/
theorem append_to_list_node_spec_witness :
    append_to_list_node (plain .LIST [identifier "a", identifier "b"]) (identifier "c") =
      .ok (plain .LIST [identifier "a", identifier "b", identifier "c"]) ∧
    append_to_list_node (plain .BLOCK []) (identifier "c") = .error .assertion_failure :=
  ⟨(append_to_list_node_spec (plain .LIST [identifier "a", identifier "b"])
      (identifier "c")).1 rfl,
   (append_to_list_node_spec (plain .BLOCK []) (identifier "c")).2 (by decide)⟩

/-! ## Folding through every level -/

/-- Simplifying the syntax tree of a tree of constants with known operators
gives the literal of its recursive evaluation, fault for fault. -/
theorem simplify_subtree_constant_tree : ∀ (t : ConstantTree), t.operators_known →
    simplify_subtree t.node =
      match t.eval with
      | .error e => .error e
      | .ok r => .ok (folded_node r)
  | .number v, _ => rfl
  | .unary operator operand, h => by
    obtain ⟨hop, h1⟩ := h
    have ih := simplify_subtree_constant_tree operand h1
    simp only [ConstantTree.node, ConstantTree.eval, simplify_subtree, simplify_children, ih]
    cases he : operand.eval with
    | error e => rfl
    | ok v =>
      simp only
      have hf := constant_fold_node_unary_eq operator none v hop
      simp only [number_literal] at hf
      simp only [folded_node, hf]
      cases perform_operation operator 0 v with
      | error e => rfl
      | ok r => rfl
  | .binary operator left right, h => by
    obtain ⟨hop, h1, h2⟩ := h
    have ih1 := simplify_subtree_constant_tree left h1
    have ih2 := simplify_subtree_constant_tree right h2
    simp only [ConstantTree.node, ConstantTree.eval, simplify_subtree, simplify_children, ih1, ih2]
    cases he1 : left.eval with
    | error e => rfl
    | ok a =>
      simp only
      cases he2 : right.eval with
      | error e => rfl
      | ok b =>
        simp only
        have hf := constant_fold_node_literals operator hop none a [b]
        simp only [List.map_cons, List.map_nil, number_literal, List.isEmpty_cons,
          Bool.false_eq_true, if_false, fold_values] at hf
        simp only [folded_node, hf]
        cases perform_operation operator a b with
        | error e => rfl
        | ok r => rfl

/-- C18 as stated fails: in `division_overflow_tree` every node is a number
leaf or an operator node with one or two children and a known operator, no
divisor is zero and no shift occurs, yet simplifying its syntax tree divides
`-2^63` by `-1` and returns no literal. -/
theorem simplify_subtree_nested_division_overflow :
    division_overflow_tree.operators_known ∧
      simplify_subtree division_overflow_tree.node = .error .division_overflow :=
  ⟨⟨rfl, ⟨rfl, ⟨rfl, trivial, trivial⟩, trivial⟩, rfl, trivial⟩, rfl⟩

/-- C18, amended: for every tree built from number leaves and operator nodes
with one or two children and an operator among `+ - * / << >>` whose recursive
evaluation with `perform_operation` has the value `r` (no step divides by zero
or divides `-2^63` by `-1`; the shift amounts of the claim are within `0..63`),
`simplify_subtree` returns the childless `NUMBER_DATA` literal holding `r`. -/
theorem simplify_subtree_folds_every_level (t : ConstantTree) (r : Int)
    (hop : t.operators_known) (heval : t.eval = .ok r) :
    simplify_subtree t.node = .ok (.mk .NUMBER_DATA (.num r) none []) := by
  rw [simplify_subtree_constant_tree t hop, heval]
  rfl

/-- C18, instance: `(2 + 3) * -(4)` is simplified to the literal `-20`. -/
theorem simplify_subtree_folds_every_level_witness :
    simplify_subtree
      (.mk .EXPRESSION (.str "*") none
        [.mk .EXPRESSION (.str "+") none [number_literal 2, number_literal 3],
         .mk .EXPRESSION (.str "-") none [number_literal 4]]) =
      .ok (number_literal (-20)) :=
  simplify_subtree_folds_every_level
    (.binary "*" (.binary "+" (.number 2) (.number 3)) (.unary "-" (.number 4))) (-20)
    ⟨rfl, ⟨rfl, trivial, trivial⟩, rfl, trivial⟩ (by rfl)

/-! ## Release of nodes by simplification -/

theorem constant_fold_node_traced_fst (node : Node) :
    (match constant_fold_node_traced node with
      | .error e => .error e
      | .ok (n, _) => .ok n) = constant_fold_node node := by
  obtain ⟨t, d, s, cs⟩ := node
  unfold constant_fold_node_traced constant_fold_node
  simp only [Node.type_mk, Node.children_mk, Node.data_mk]
  by_cases h1 : t ≠ .EXPRESSION
  · simp only [if_pos h1]
  · simp only [if_neg h1]
    by_cases h2 : (cs.any fun c => decide (c.type ≠ .NUMBER_DATA)) = true
    · simp only [if_pos h2]
    · simp only [if_neg h2]
      cases d.as_string with
      | error e => rfl
      | ok operator =>
        simp only
        by_cases h3 : (!is_operator operator) = true
        · simp only [if_pos h3]
        · simp only [if_neg h3]
          cases cs with
          | nil => rfl
          | cons c0 rest =>
            simp only
            cases c0.data.read_int64 with
            | error e => rfl
            | ok v0 =>
              simp only
              cases (if rest.isEmpty = true then perform_operation operator 0 v0
                else Except.ok v0) with
              | error e => rfl
              | ok result =>
                simp only
                cases fold_operands operator result rest with
                | error e => rfl
                | ok r => rfl

theorem peephole_optimize_node_traced_fst (node : Node) :
    (match peephole_optimize_node_traced node with
      | .error e => .error e
      | .ok (n, _) => .ok n) = peephole_optimize_node node := by
  obtain ⟨t, d, s, cs⟩ := node
  unfold peephole_optimize_node_traced peephole_optimize_node
  simp only [Node.type_mk, Node.children_mk, Node.data_mk, Node.symbol_mk]
  by_cases h1 : t ≠ .EXPRESSION
  · simp only [if_pos h1]
  · simp only [if_neg h1]
    cases d.as_string with
    | error e => rfl
    | ok operator =>
      simp only
      by_cases h2 : operator = "*" ∨ operator = "/"
      · simp only [if_pos h2]
        match cs with
        | [] => rfl
        | [_] => rfl
        | c0 :: c1 :: rest =>
          simp only
          cases c1.data.read_int with
          | error e => rfl
          | ok factor =>
            simp only
            by_cases h3 : factor ≠ 1 ∧ factor ≠ 0 ∧ and_pred_is_zero factor = true
            · simp only [if_pos h3]
              cases set_second_payload (c0 :: c1 :: rest) (shift_loop 32 factor 0) with
              | error e => rfl
              | ok cs1 => rfl
            · simp only [if_neg h3]
              by_cases h4 : factor = 1
              · simp only [if_pos h4]
              · simp only [if_neg h4]
      · simp only [if_neg h2]

mutual
/-- The traced simplification returns the same tree as `simplify_subtree`. -/
theorem simplify_subtree_traced_fst : ∀ (node : Node),
    (match simplify_subtree_traced node with
      | .error e => .error e
      | .ok (n, _) => .ok n) = simplify_subtree node
  | .mk t d s cs => by
    have ih := simplify_children_traced_fst cs
    rw [simplify_subtree_traced, simplify_subtree, ← ih]
    cases simplify_children_traced cs with
    | error e => rfl
    | ok p =>
      obtain ⟨cs1, released⟩ := p
      simp only
      rw [← constant_fold_node_traced_fst]
      cases constant_fold_node_traced (.mk t d s cs1) with
      | error e => rfl
      | ok q =>
        obtain ⟨n, released1⟩ := q
        simp only
        rw [← peephole_optimize_node_traced_fst]
        cases peephole_optimize_node_traced n with
        | error e => rfl
        | ok r => rfl
theorem simplify_children_traced_fst : ∀ (cs : List Node),
    (match simplify_children_traced cs with
      | .error e => .error e
      | .ok (cs1, _) => .ok cs1) = simplify_children cs
  | [] => rfl
  | c :: cs => by
    have ih1 := simplify_subtree_traced_fst c
    have ih2 := simplify_children_traced_fst cs
    rw [simplify_children_traced, simplify_children, ← ih1, ← ih2]
    cases simplify_subtree_traced c with
    | error e => rfl
    | ok p =>
      obtain ⟨c1, released⟩ := p
      simp only
      cases simplify_children_traced cs with
      | error e => rfl
      | ok q => rfl
end

/-- C17, at the failing input: simplifying `x / 1` releases the divide node and
returns `x`; destroying the result releases `x`. The literal `1` that was the
right operand is released by neither. -/
theorem simplify_subtree_traced_leak :
    simplify_subtree_traced
        (.mk .EXPRESSION (.str "/") none [identifier "x", number_literal 1]) =
      .ok (identifier "x",
           [.mk .EXPRESSION (.str "/") none [identifier "x", number_literal 1]]) ∧
    destroy_subtree (identifier "x") = [identifier "x"] ∧
    number_literal 1 ∉
      [.mk .EXPRESSION (.str "/") none [identifier "x", number_literal 1], identifier "x"] := by
  refine ⟨rfl, rfl, ?_⟩
  simp [number_literal, identifier]

/-- Folding, by contrast, releases the whole subtree it replaces: simplifying
`2 + 3` releases both literals and then the node. -/
theorem simplify_subtree_traced_fold :
    simplify_subtree_traced
        (.mk .EXPRESSION (.str "+") none [number_literal 2, number_literal 3]) =
      .ok (number_literal 5,
           [number_literal 2, number_literal 3,
            .mk .EXPRESSION (.str "+") none [number_literal 2, number_literal 3]]) := by
  rfl

/-! ## Global declarations that mix plain identifiers and arrays -/

/-- C14, at the failing inputs: for `var a, b[2]` the identifiers' parent is the
list, and only the plain identifier `a` is inserted; for `var b[2], a` it is
the array node, and only `b` is inserted, as an array. -/
theorem find_globals_mixed_declaration :
    (find_globals (plain .LIST [plain .GLOBAL_DECLARATION [plain .LIST
        [identifier "a", plain .ARRAY_INDEXING [identifier "b", number_literal 2]]]])).map
      (fun tables => tables.global_symbols.symbols) =
      .ok [⟨"a", .SYMBOL_GLOBAL_VAR, 0, none⟩] ∧
    (find_globals (plain .LIST [plain .GLOBAL_DECLARATION [plain .LIST
        [plain .ARRAY_INDEXING [identifier "b", number_literal 2], identifier "a"]]])).map
      (fun tables => tables.global_symbols.symbols) =
      .ok [⟨"b", .SYMBOL_GLOBAL_ARRAY, 0, none⟩] :=
  ⟨rfl, rfl⟩

/-! ## The string list -/

/-- Adding a string appends it to the list and returns the former length: the
earlier strings keep their index and content. -/
theorem add_string_spec (state : BindState) (string : Payload) :
    (add_string state string).1.string_list = state.string_list ++ [string] ∧
    (add_string state string).2 = state.string_list.length ∧
    (add_string state string).1.local_symbols = state.local_symbols ∧
    (add_string state string).1.reports = state.reports := by
  simp [add_string]

/-- The store `string_list[string_list_len] = string` stays inside the
allocation: when the length does not exceed the capacity before `add_string`,
it is below the capacity after the resize. -/
theorem add_string_capacity (state : BindState) (string : Payload)
    (h : state.string_list.length ≤ state.string_list_capacity) :
    state.string_list.length < (add_string state string).1.string_list_capacity ∧
    (add_string state string).1.string_list.length ≤
      (add_string state string).1.string_list_capacity := by
  simp only [add_string, List.length_append, List.length_cons, List.length_nil]
  split_ifs <;> omega

mutual
theorem bind_statement_identifier_data_strings (global : List Symbol) :
    ∀ (node : Node) (state state1 : BindState) (node1 : Node),
      bind_statement_identifier_data global state node = .ok (state1, node1) →
      state1.string_list = state.string_list ++ strings_met node ∧
      erase_symbols node1 = erase_symbols (string_references state.string_list.length node)
  | .mk t d s cs, state, state1, node1, h => by
    rw [bind_statement_identifier_data] at h
    rw [strings_met, string_references]
    by_cases h1 : t = .IDENTIFIER_DATA
    · simp only [if_pos h1] at h ⊢
      cases hl : state.local_symbols with
      | none => rw [hl] at h; cases h
      | some table =>
        rw [hl] at h
        cases hd : d.as_string with
        | error e => rw [hd] at h; cases h
        | ok name =>
          rw [hd] at h
          simp only [Except.ok.injEq, Prod.mk.injEq] at h
          obtain ⟨rfl, rfl⟩ := h
          exact ⟨by simp, by simp only [erase_symbols, h1]⟩
    · simp only [if_neg h1] at h ⊢
      by_cases h2 : t = .STRING_DATA
      · simp only [if_pos h2] at h ⊢
        simp only [Except.ok.injEq, Prod.mk.injEq] at h
        obtain ⟨rfl, rfl⟩ := h
        exact ⟨(add_string_spec state d).1, by
          rw [(add_string_spec state d).2.1]⟩
      · simp only [if_neg h2] at h ⊢
        cases hc : bind_statement_identifier_data_children global state cs with
        | error e => rw [hc] at h; cases h
        | ok p =>
          obtain ⟨state2, cs1⟩ := p
          rw [hc] at h
          simp only [Except.ok.injEq, Prod.mk.injEq] at h
          obtain ⟨rfl, rfl⟩ := h
          have ih := bind_statement_identifier_data_children_strings global cs state state2 cs1 hc
          exact ⟨ih.1, by simp only [erase_symbols, ih.2]⟩
theorem bind_statement_identifier_data_children_strings (global : List Symbol) :
    ∀ (cs : List Node) (state state1 : BindState) (cs1 : List Node),
      bind_statement_identifier_data_children global state cs = .ok (state1, cs1) →
      state1.string_list = state.string_list ++ strings_met_children cs ∧
      erase_symbols_children cs1 =
        erase_symbols_children (string_references_children state.string_list.length cs)
  | [], state, state1, cs1, h => by
    rw [bind_statement_identifier_data_children] at h
    simp only [Except.ok.injEq, Prod.mk.injEq] at h
    obtain ⟨rfl, rfl⟩ := h
    exact ⟨by simp [strings_met_children], rfl⟩
  | c :: cs, state, state1, cs1, h => by
    rw [bind_statement_identifier_data_children] at h
    cases hc : bind_statement_identifier_data global state c with
    | error e => rw [hc] at h; cases h
    | ok p =>
      obtain ⟨state2, c1⟩ := p
      rw [hc] at h
      simp only at h
      cases hcs : bind_statement_identifier_data_children global state2 cs with
      | error e => rw [hcs] at h; cases h
      | ok q =>
        obtain ⟨state3, cs2⟩ := q
        rw [hcs] at h
        simp only [Except.ok.injEq, Prod.mk.injEq] at h
        obtain ⟨rfl, rfl⟩ := h
        have ih1 := bind_statement_identifier_data_strings global c state state2 c1 hc
        have ih2 := bind_statement_identifier_data_children_strings global cs state2 state3 cs2 hcs
        refine ⟨?_, ?_⟩
        · rw [ih2.1, ih1.1, strings_met_children, List.append_assoc]
        · rw [string_references_children, erase_symbols_children, erase_symbols_children,
            ih1.2, ih2.2, ih1.1, List.length_append]
end

mutual
theorem bind_names_strings (code : NodeType → Nat) (global : List Symbol) (id : TableId) :
    ∀ (node : Node) (state state1 : BindState) (node1 : Node),
      bind_names code global id state node = .ok (state1, node1) →
      state1.string_list = state.string_list ++ strings_met node ∧
      erase_symbols node1 = erase_symbols (string_references state.string_list.length node)
  | .mk t d s cs, state, state1, node1, h => by
    rw [bind_names] at h
    by_cases h1 : t = .IDENTIFIER_DATA
    · rw [strings_met, string_references]
      simp only [if_pos h1] at h ⊢
      cases hl : state.local_symbols with
      | none => rw [hl] at h; cases h
      | some table =>
        rw [hl] at h
        cases hd : d.as_string with
        | error e => rw [hd] at h; cases h
        | ok name =>
          rw [hd] at h
          simp only at h
          rcases hi : symbol_table_insert table ⟨name, .SYMBOL_LOCAL_VAR, 0, some id⟩
            with ⟨table1, r⟩
          rw [hi] at h
          cases r <;>
          · simp only [Except.ok.injEq, Prod.mk.injEq] at h
            obtain ⟨rfl, rfl⟩ := h
            exact ⟨by simp, rfl⟩
    · simp only [if_neg h1] at h
      by_cases h2 : t = .STRING_DATA
      · rw [strings_met, string_references]
        simp only [if_pos h2, if_neg h1] at h ⊢
        simp only [Except.ok.injEq, Prod.mk.injEq] at h
        obtain ⟨rfl, rfl⟩ := h
        exact ⟨(add_string_spec state d).1, by rw [(add_string_spec state d).2.1]⟩
      · simp only [if_neg h2] at h
        by_cases h3 : 6 ≤ code t ∧ code t ≤ 11
        · simp only [if_pos h3] at h
          exact bind_statement_identifier_data_strings global _ state state1 node1 h
        · simp only [if_neg h3] at h
          rw [strings_met, string_references]
          simp only [if_neg h1, if_neg h2]
          by_cases h4 : t = .BLOCK
          · simp only [if_pos h4] at h
            cases hl : state.local_symbols with
            | none => rw [hl] at h; cases h
            | some table =>
              rw [hl] at h
              simp only at h
              split at h
              · cases h
              · rename_i state2 cs1 hc
                split at h
                · cases h
                · simp only [Except.ok.injEq, Prod.mk.injEq] at h
                  obtain ⟨rfl, rfl⟩ := h
                  have ih := bind_names_children_strings code global id cs _ state2 cs1 hc
                  exact ⟨ih.1, by simp only [erase_symbols, ih.2]⟩
          · simp only [if_neg h4] at h
            cases hc : bind_names_children code global id state cs with
            | error e => rw [hc] at h; cases h
            | ok p =>
              obtain ⟨state2, cs1⟩ := p
              rw [hc] at h
              simp only [Except.ok.injEq, Prod.mk.injEq] at h
              obtain ⟨rfl, rfl⟩ := h
              have ih := bind_names_children_strings code global id cs state state2 cs1 hc
              exact ⟨ih.1, by simp only [erase_symbols, ih.2]⟩
theorem bind_names_children_strings (code : NodeType → Nat) (global : List Symbol)
    (id : TableId) :
    ∀ (cs : List Node) (state state1 : BindState) (cs1 : List Node),
      bind_names_children code global id state cs = .ok (state1, cs1) →
      state1.string_list = state.string_list ++ strings_met_children cs ∧
      erase_symbols_children cs1 =
        erase_symbols_children (string_references_children state.string_list.length cs)
  | [], state, state1, cs1, h => by
    rw [bind_names_children] at h
    simp only [Except.ok.injEq, Prod.mk.injEq] at h
    obtain ⟨rfl, rfl⟩ := h
    exact ⟨by simp [strings_met_children], rfl⟩
  | c :: cs, state, state1, cs1, h => by
    rw [bind_names_children] at h
    cases hc : bind_names code global id state c with
    | error e => rw [hc] at h; cases h
    | ok p =>
      obtain ⟨state2, c1⟩ := p
      rw [hc] at h
      simp only at h
      cases hcs : bind_names_children code global id state2 cs with
      | error e => rw [hcs] at h; cases h
      | ok q =>
        obtain ⟨state3, cs2⟩ := q
        rw [hcs] at h
        simp only [Except.ok.injEq, Prod.mk.injEq] at h
        obtain ⟨rfl, rfl⟩ := h
        have ih1 := bind_names_strings code global id c state state2 c1 hc
        have ih2 := bind_names_children_strings code global id cs state2 state3 cs2 hcs
        refine ⟨?_, ?_⟩
        · rw [ih2.1, ih1.1, strings_met_children, List.append_assoc]
        · rw [string_references_children, erase_symbols_children, erase_symbols_children,
            ih1.2, ih2.2, ih1.1, List.length_append]
end

/-- One step of the loop of `create_tables` appends the strings of the child to
the string list and replaces them by references. -/
theorem create_tables_child_strings (code : NodeType → Nat) (child : Node)
    (tables tables1 : Tables) (child1 : Node)
    (h : create_tables_child code child tables = .ok (tables1, child1)) :
    tables1.string_list = tables.string_list ++ child_strings child ∧
    erase_symbols child1 =
      erase_symbols (child_string_references tables.string_list.length child) := by
  unfold create_tables_child at h
  unfold child_strings child_string_references
  by_cases hf : child.type = .FUNCTION
  · simp only [if_pos hf] at h ⊢
    match child, h with
    | .mk t d s [], h => cases h
    | .mk t d s [_], h => cases h
    | .mk t d s [_, _], h => cases h
    | .mk t d s (c0 :: c1 :: c2 :: rest), h =>
      simp only at h ⊢
      cases hd : c0.data.as_string with
      | error e => rw [hd] at h; cases h
      | ok name =>
        rw [hd] at h
        simp only at h
        cases hl : symbol_hashmap_lookup tables.global_symbols.hashmap.entries
            tables.global_symbols.hashmap name with
        | none => rw [hl] at h; cases h
        | some symbol =>
          rw [hl] at h
          simp only at h
          rcases hft : function_table tables symbol with ⟨id, local_symbols⟩
          rw [hft] at h
          simp only at h
          cases hb : bind_names code tables.global_symbols.hashmap.entries id
              { local_symbols := local_symbols, string_list := tables.string_list,
                string_list_capacity := tables.string_list_capacity,
                reports := tables.reports } c2 with
          | error e => rw [hb] at h; cases h
          | ok p =>
            obtain ⟨state, body⟩ := p
            rw [hb] at h
            simp only [Except.ok.injEq, Prod.mk.injEq] at h
            obtain ⟨rfl, rfl⟩ := h
            have ih := bind_names_strings code _ id c2 _ state body hb
            simp only at ih
            exact ⟨ih.1, by simp only [erase_symbols, erase_symbols_children, ih.2]⟩
  · simp only [if_neg hf] at h ⊢
    simp only [Except.ok.injEq, Prod.mk.injEq] at h
    obtain ⟨rfl, rfl⟩ := h
    exact ⟨by simp, rfl⟩

theorem create_tables_loop_strings (code : NodeType → Nat) :
    ∀ (children : List Node) (tables tables1 : Tables) (children1 : List Node),
      create_tables_loop code children tables = .ok (tables1, children1) →
      tables1.string_list = tables.string_list ++ children.flatMap child_strings ∧
      erase_symbols_children children1 =
        erase_symbols_children (program_string_references tables.string_list.length children)
  | [], tables, tables1, children1, h => by
    rw [create_tables_loop] at h
    simp only [Except.ok.injEq, Prod.mk.injEq] at h
    obtain ⟨rfl, rfl⟩ := h
    exact ⟨by simp, rfl⟩
  | child :: rest, tables, tables1, children1, h => by
    rw [create_tables_loop] at h
    cases hc : create_tables_child code child tables with
    | error e => rw [hc] at h; cases h
    | ok p =>
      obtain ⟨tables2, child1⟩ := p
      rw [hc] at h
      simp only at h
      cases hr : create_tables_loop code rest tables2 with
      | error e => rw [hr] at h; cases h
      | ok q =>
        obtain ⟨tables3, rest1⟩ := q
        rw [hr] at h
        simp only [Except.ok.injEq, Prod.mk.injEq] at h
        obtain ⟨rfl, rfl⟩ := h
        have ih1 := create_tables_child_strings code child tables tables2 child1 hc
        have ih2 := create_tables_loop_strings code rest tables2 tables3 rest1 hr
        refine ⟨?_, ?_⟩
        · rw [ih2.1, ih1.1, List.flatMap_cons, List.append_assoc]
        · rw [program_string_references, erase_symbols_children, erase_symbols_children,
            ih1.2, ih2.2, ih1.1, List.length_append]

theorem find_globals_child_string_list (i : Nat) (child : Node) (tables tables1 : Tables)
    (h : find_globals_child i child tables = .ok tables1) :
    tables1.string_list = tables.string_list := by
  unfold find_globals_child at h
  by_cases hf : child.type = .FUNCTION
  · simp only [if_pos hf] at h
    split at h
    · split at h
      · cases h
      · split at h
        · cases h
        · split at h <;>
          · simp only [Except.ok.injEq] at h
            subst h
            rfl
    · cases h
  · simp only [if_neg hf] at h
    by_cases hg : child.type = .GLOBAL_DECLARATION
    · simp only [if_pos hg] at h
      split at h
      · cases h
      · cases h
      · split at h
        · cases h
        · simp only [Except.ok.injEq] at h
          subst h
          rfl
    · simp only [if_neg hg, Except.ok.injEq] at h
      subst h
      rfl

theorem find_globals_loop_string_list :
    ∀ (children : List Node) (i : Nat) (tables tables1 : Tables),
      find_globals_loop i children tables = .ok tables1 →
      tables1.string_list = tables.string_list
  | [], i, tables, tables1, h => by
    rw [find_globals_loop] at h
    cases h
    rfl
  | child :: rest, i, tables, tables1, h => by
    rw [find_globals_loop] at h
    cases hc : find_globals_child i child tables with
    | error e => rw [hc] at h; cases h
    | ok tables2 =>
      rw [hc] at h
      simp only at h
      rw [find_globals_loop_string_list rest (i + 1) tables2 tables1 h]
      exact find_globals_child_string_list i child tables tables2 hc

/-- C11: starting from the empty string list, when `create_tables` returns, the
string list holds the payloads of the `STRING_DATA` nodes met by binding, in
the order of the traversal across the function bodies in top-level order, and
in the returned tree the node that held the `i`-th of them is a
`STRING_LIST_REFERENCE` with payload `i`, all kinds, payloads and children being
otherwise as before; `add_string` appends, so an earlier string keeps its
index and content. -/
theorem create_tables_string_list (code : NodeType → Nat) (root : Node) (tables : Tables)
    (root1 : Node) (h : create_tables code root = .ok (tables, root1)) :
    tables.string_list = root.children.flatMap child_strings ∧
    erase_symbols root1 =
      erase_symbols (.mk root.type root.data root.symbol
        (program_string_references 0 root.children)) ∧
    ∀ (state : BindState) (string : Payload),
      (add_string state string).1.string_list = state.string_list ++ [string] ∧
      (add_string state string).2 = state.string_list.length := by
  unfold create_tables at h
  cases hg : find_globals root with
  | error e => rw [hg] at h; cases h
  | ok tables0 =>
    rw [hg] at h
    simp only at h
    cases hl : create_tables_loop code root.children tables0 with
    | error e => rw [hl] at h; cases h
    | ok p =>
      obtain ⟨tables1, cs⟩ := p
      rw [hl] at h
      simp only [Except.ok.injEq, Prod.mk.injEq] at h
      obtain ⟨rfl, rfl⟩ := h
      have h0 : tables0.string_list = [] :=
        find_globals_loop_string_list root.children 0 initial_tables tables0 hg
      have ih := create_tables_loop_strings code root.children tables0 tables1 cs hl
      rw [h0] at ih
      refine ⟨by simpa using ih.1, ?_, fun state string =>
        ⟨(add_string_spec state string).1, (add_string_spec state string).2.1⟩⟩
      simp only [erase_symbols]
      rw [ih.2]
      rfl

theorem find_globals_two_strings :
    find_globals two_strings = .ok
      { global_symbols := two_strings_result.1.global_symbols,
        local_tables := two_strings_result.1.local_tables,
        string_list := [], string_list_capacity := 0, reports := [] } := by
  rfl

theorem create_tables_two_strings :
    create_tables node_type_code two_strings = .ok two_strings_result := by
  rw [create_tables, find_globals_two_strings]
  simp only [two_strings, two_strings_result, plain, identifier, Node.children_mk]
  simp only [create_tables_loop, create_tables_child, Node.type_mk, if_true, Node.data_mk,
    Payload.as_string, symbol_hashmap_lookup, frame_lookup, Hashmap.entries, List.find?]
  simp [function_table, lookup_table, bind_names, symbol_hashmap_lookup, frame_lookup,
    bind_names_children, node_type_code,
    bind_statement_identifier_data, bind_statement_identifier_data_children, Hashmap.pop,
    store_table, add_string]

/-- C11, instance: the literals "a" and "b" of two function bodies get the
indices 0 and 1, and the string list holds them in that order. -/
theorem create_tables_string_list_witness :
    create_tables node_type_code two_strings = .ok two_strings_result ∧
    two_strings_result.1.string_list = [.str "a", .str "b"] ∧
    erase_symbols two_strings_result.2 = two_strings_result.2 :=
  ⟨create_tables_two_strings,
   (create_tables_string_list node_type_code two_strings two_strings_result.1
      two_strings_result.2 create_tables_two_strings).1,
   (create_tables_string_list node_type_code two_strings two_strings_result.1
      two_strings_result.2 create_tables_two_strings).2.1⟩

/-! ## Parameters with the same name -/

theorem first_occurrences_length_le : ∀ (ns seen : List String),
    (first_occurrences seen ns).length ≤ ns.length
  | [], _ => Nat.le_refl _
  | n :: ns, seen => by
    rw [first_occurrences]
    split
    · exact Nat.le_succ_of_le (first_occurrences_length_le ns seen)
    · exact Nat.succ_le_succ (first_occurrences_length_le ns _)

theorem mem_first_occurrences : ∀ (ns seen : List String) (x : String),
    x ∈ first_occurrences seen ns ↔ x ∈ ns ∧ x ∉ seen
  | [], _, _ => by simp [first_occurrences]
  | n :: ns, seen, x => by
    rw [first_occurrences]
    split
    · rename_i h
      rw [mem_first_occurrences ns seen x]
      constructor
      · rintro ⟨h1, h2⟩
        exact ⟨List.mem_cons_of_mem _ h1, h2⟩
      · rintro ⟨h1, h2⟩
        rcases List.mem_cons.mp h1 with rfl | h1
        · exact absurd h h2
        · exact ⟨h1, h2⟩
    · rename_i h
      rw [List.mem_cons, mem_first_occurrences ns _ x]
      simp only [List.mem_append, List.mem_singleton, List.mem_cons]
      constructor
      · rintro (rfl | ⟨h1, h2⟩)
        · exact ⟨Or.inl rfl, h⟩
        · exact ⟨Or.inr h1, fun hs => h2 (Or.inl hs)⟩
      · rintro ⟨h1 | h1, h2⟩
        · exact Or.inl h1
        · by_cases hx : x = n
          · exact Or.inl hx
          · exact Or.inr ⟨h1, fun hs => hs.elim h2 (fun h3 => h3.elim hx (fun h4 => by cases h4))⟩

theorem first_occurrences_nodup : ∀ (ns seen : List String),
    (first_occurrences seen ns).Nodup
  | [], _ => by simp [first_occurrences]
  | n :: ns, seen => by
    rw [first_occurrences]
    split
    · exact first_occurrences_nodup ns seen
    · rw [List.nodup_cons]
      refine ⟨?_, first_occurrences_nodup ns _⟩
      rw [mem_first_occurrences]
      simp

/-- What matters of `seen` is which names it holds. -/
theorem first_occurrences_congr : ∀ (ns seen seen1 : List String),
    (∀ x, x ∈ seen ↔ x ∈ seen1) → first_occurrences seen ns = first_occurrences seen1 ns
  | [], _, _, _ => rfl
  | n :: ns, seen, seen1, h => by
    rw [first_occurrences, first_occurrences]
    by_cases hn : n ∈ seen
    · rw [if_pos hn, if_pos ((h n).mp hn)]
      exact first_occurrences_congr ns seen seen1 h
    · rw [if_neg hn, if_neg (fun h1 => hn ((h n).mpr h1))]
      congr 1
      apply first_occurrences_congr
      intro x
      simp only [List.mem_append, List.mem_singleton, h x]

theorem first_occurrences_append : ∀ (a b seen : List String),
    first_occurrences seen (a ++ b) =
      first_occurrences seen a ++ first_occurrences (seen ++ a) b
  | [], b, seen => by simp [first_occurrences]
  | n :: a, b, seen => by
    rw [List.cons_append, first_occurrences, first_occurrences]
    by_cases hn : n ∈ seen
    · rw [if_pos hn, if_pos hn, first_occurrences_append a b seen]
      congr 1
      apply first_occurrences_congr
      intro x
      simp only [List.mem_append, List.mem_cons]
      constructor
      · rintro (h | h)
        · exact Or.inl h
        · exact Or.inr (Or.inr h)
      · rintro (h | rfl | h)
        · exact Or.inl h
        · exact Or.inl hn
        · exact Or.inr h
    · rw [if_neg hn, if_neg hn, first_occurrences_append a b _, List.cons_append]
      congr 2
      apply first_occurrences_congr
      intro x
      simp only [List.mem_append, List.mem_singleton, List.mem_cons, or_assoc,
        List.not_mem_nil, false_or]

/-- A list of pairwise distinct names, none of them seen, is its own list of
first occurrences. -/
theorem first_occurrences_of_nodup : ∀ (ns seen : List String), ns.Nodup →
    (∀ x ∈ ns, x ∉ seen) → first_occurrences seen ns = ns
  | [], _, _, _ => rfl
  | n :: ns, seen, hnodup, hseen => by
    rw [List.nodup_cons] at hnodup
    rw [first_occurrences, if_neg (hseen n (List.mem_cons_self _ _))]
    congr 1
    apply first_occurrences_of_nodup ns _ hnodup.2
    intro x hx
    simp only [List.mem_append, List.mem_singleton, not_or]
    refine ⟨hseen x (List.mem_cons_of_mem _ hx), ?_⟩
    rintro rfl
    exact hnodup.1 hx

/-- A second occurrence of a name adds nothing to the first occurrences. -/
theorem first_occurrences_second (pre mid post : List String) (x : String) :
    first_occurrences [] (pre ++ x :: mid ++ x :: post) =
      first_occurrences [] (pre ++ x :: mid ++ post) := by
  have e1 : pre ++ x :: mid ++ x :: post = (pre ++ x :: mid) ++ ([x] ++ post) := by simp
  rw [e1, first_occurrences_append (pre ++ x :: mid) ([x] ++ post),
    first_occurrences_append (pre ++ x :: mid) post, first_occurrences_append [x] post]
  congr 1
  have hx : x ∈ [] ++ (pre ++ x :: mid) := by simp
  rw [first_occurrences, if_pos hx, first_occurrences, List.nil_append]
  apply first_occurrences_congr
  intro y
  simp only [List.nil_append, List.mem_append, List.mem_cons, List.mem_singleton,
    List.not_mem_nil, or_false]
  constructor
  · rintro (h | rfl)
    · exact h
    · exact Or.inr (Or.inl rfl)
  · exact Or.inl

/-- The loop of `find_globals` over the parameters: the table gains the
parameters at their first occurrences, numbered on from its size, and one
collision is reported for every other occurrence. -/
theorem insert_parameters_first_occurrences (function : Node) (i : Nat) :
    ∀ (parameters : List String) (symbols : List Symbol) (reports : List Report),
      insert_parameters function (.local_of i)
          { symbols := symbols, hashmap := .over_global symbols } reports
          (parameters.map identifier) =
        .ok ({ symbols := symbols ++ renumber symbols.length
                 ((first_occurrences (symbols.map Symbol.name) parameters).map
                   (parameter_symbol i)),
               hashmap := .over_global (symbols ++ renumber symbols.length
                 ((first_occurrences (symbols.map Symbol.name) parameters).map
                   (parameter_symbol i))) },
             reports ++ List.replicate
               (parameters.length -
                 (first_occurrences (symbols.map Symbol.name) parameters).length)
               (.parameter_collision function.data))
  | [], symbols, reports => by
    simp [insert_parameters, first_occurrences, renumber]
  | n :: ns, symbols, reports => by
    rw [List.map_cons, insert_parameters]
    simp only [identifier, Node.data_mk, Payload.as_string]
    by_cases hn : n ∈ symbols.map Symbol.name
    · rw [symbol_table_insert_present (by simpa [Hashmap.entries] using hn)]
      simp only
      have ih := insert_parameters_first_occurrences function i ns symbols
        (reports ++ [.parameter_collision function.data])
      simp only [identifier] at ih
      rw [ih, first_occurrences, if_pos hn]
      have hle := first_occurrences_length_le ns (symbols.map Symbol.name)
      have e : (n :: ns).length - (first_occurrences (symbols.map Symbol.name) ns).length =
          (ns.length - (first_occurrences (symbols.map Symbol.name) ns).length) + 1 := by
        simp only [List.length_cons]
        omega
      rw [e, List.replicate_succ, List.append_assoc, List.singleton_append]
    · rw [symbol_table_insert_fresh (by simpa [Hashmap.entries] using hn)]
      simp only [Hashmap.entries, Hashmap.set_entries]
      have ih := insert_parameters_first_occurrences function i ns
        (symbols ++ [{ name := n, type := .SYMBOL_PARAMETER, sequence_number := symbols.length,
                       function_symtable := some (.local_of i) }]) reports
      simp only [identifier] at ih
      rw [ih, first_occurrences, if_neg hn]
      simp only [List.map_append, List.map_cons, List.map_nil, List.length_append,
        List.length_cons, List.length_nil, renumber, parameter_symbol, List.append_assoc,
        List.singleton_append, Nat.add_sub_add_right, zero_add]

/-- C12: for a function whose parameter list holds the name `x` twice (the
parameters `pre`, `x`, `mid`, `x`, `post`, whatever the lists `pre`, `mid` and
`post` are), the step of `find_globals` for the function succeeds and leaves
the local table that the list without the second `x` gives: the first
occurrences of the names in declaration order, each a `SYMBOL_PARAMETER` of
this table, numbered `0, 1, 2, ...` without a gap, exactly one of them named
`x`, all entered in a frame backed by the global frame; and it prints one
collision report more than that list gives, each with the payload of the
`FUNCTION` node, before the report for the function name, if any. -/
theorem find_globals_duplicate_parameter (i : Nat) (name x : String)
    (pre mid post : List String) (body : Node) (tables : Tables) :
    ∃ tables1 table,
      find_globals_child i
        (Declaration.function name (pre ++ x :: mid ++ x :: post) body).node tables =
        .ok tables1 ∧
      tables1.local_tables = tables.local_tables ++ [(i, table)] ∧
      table.symbols =
        renumber 0 ((first_occurrences [] (pre ++ x :: mid ++ post)).map (parameter_symbol i)) ∧
      table.hashmap = .over_global table.symbols ∧
      table.symbols.map Symbol.name = first_occurrences [] (pre ++ x :: mid ++ post) ∧
      (table.symbols.map Symbol.name).count x = 1 ∧
      table.symbols.map Symbol.sequence_number = List.range table.symbols.length ∧
      tables1.reports =
        tables.reports ++
          List.replicate
            (1 + ((pre ++ x :: mid ++ post).length -
              (first_occurrences [] (pre ++ x :: mid ++ post)).length))
            (.parameter_collision .null) ++
          (match (symbol_table_insert tables.global_symbols
              ⟨name, .SYMBOL_FUNCTION, 0, some (.local_of i)⟩).2 with
            | .INSERT_COLLISION => [.function_collision .null]
            | .INSERT_OK => []) := by
  have hp := insert_parameters_first_occurrences
    (Declaration.function name (pre ++ x :: mid ++ x :: post) body).node i
    (pre ++ x :: mid ++ x :: post) [] tables.reports
  have hle := first_occurrences_length_le (pre ++ x :: mid ++ post) []
  have hk : (pre ++ x :: mid ++ x :: post).length -
      (first_occurrences [] (pre ++ x :: mid ++ post)).length =
      1 + ((pre ++ x :: mid ++ post).length -
        (first_occurrences [] (pre ++ x :: mid ++ post)).length) := by
    simp only [List.length_append, List.length_cons] at hle ⊢
    omega
  simp only [List.map_nil, List.length_nil, List.nil_append, first_occurrences_second, hk,
    Declaration.node, plain, Node.data_mk] at hp
  refine ⟨⟨(symbol_table_insert tables.global_symbols
      ⟨name, .SYMBOL_FUNCTION, 0, some (.local_of i)⟩).1,
    tables.local_tables ++ [(i,
      ⟨renumber 0 ((first_occurrences [] (pre ++ x :: mid ++ post)).map (parameter_symbol i)),
       .over_global (renumber 0
         ((first_occurrences [] (pre ++ x :: mid ++ post)).map (parameter_symbol i)))⟩)],
    tables.string_list, tables.string_list_capacity, _⟩,
    ⟨_, _⟩, ?_, rfl, rfl, rfl, ?_, ?_, ?_, rfl⟩
  · simp only [find_globals_child, Declaration.node, plain, identifier, Node.type_mk, if_true,
      Node.children_mk, Node.data_mk, Payload.as_string]
    simp only [identifier] at hp
    rw [hp]
    rcases symbol_table_insert tables.global_symbols
      ⟨name, .SYMBOL_FUNCTION, 0, some (.local_of i)⟩ with ⟨t1, r⟩
    cases r
    · simp only [List.append_nil]
    · simp only
  · rw [renumber_map_name, List.map_map]
    exact List.map_id _
  · rw [renumber_map_name, List.map_map]
    have hid : (Symbol.name ∘ parameter_symbol i) = id := rfl
    rw [hid, List.map_id]
    apply List.count_eq_one_of_mem (first_occurrences_nodup _ _)
    rw [mem_first_occurrences]
    simp
  · rw [renumber_map_sequence_number, renumber_length, List.range_eq_range']

/-- C12, instance: for `func f(a, b, a, c)` the local table holds `a`, `b`,
`c` with the sequence numbers 0, 1, 2, and one collision is reported. -/
theorem find_globals_duplicate_parameter_witness :
    ∃ tables1,
      find_globals_child 0
        (Declaration.function "f" ["a", "b", "a", "c"] (plain .BLOCK [])).node initial_tables =
        .ok tables1 ∧
      tables1.local_tables =
        [(0, { symbols := [⟨"a", .SYMBOL_PARAMETER, 0, some (.local_of 0)⟩,
                           ⟨"b", .SYMBOL_PARAMETER, 1, some (.local_of 0)⟩,
                           ⟨"c", .SYMBOL_PARAMETER, 2, some (.local_of 0)⟩],
               hashmap := .over_global [⟨"a", .SYMBOL_PARAMETER, 0, some (.local_of 0)⟩,
                                        ⟨"b", .SYMBOL_PARAMETER, 1, some (.local_of 0)⟩,
                                        ⟨"c", .SYMBOL_PARAMETER, 2, some (.local_of 0)⟩] })] ∧
      tables1.reports = [.parameter_collision .null] := by
  obtain ⟨tables1, table, h, hl, hs, hh, _, _, _, hr⟩ :=
    find_globals_duplicate_parameter 0 "f" "a" [] ["b"] ["c"] (plain .BLOCK []) initial_tables
  refine ⟨tables1, h, ?_, ?_⟩
  · obtain ⟨symbols, hashmap⟩ := table
    simp only at hs hh
    rw [hl, hh, hs]
    rfl
  · rw [hr]
    rfl

/-! ## Identifiers that no frame holds -/

theorem frame_lookup_append (a b : List Symbol) (name : String) :
    frame_lookup (a ++ b) name =
      match frame_lookup a name with
      | some s => some s
      | none => frame_lookup b name := by
  simp only [frame_lookup, List.find?_append]
  cases List.find? (fun s => decide (s.name = name)) a <;> rfl

/-- Chained lookup finds the first entry for the name along the chain. -/
theorem symbol_hashmap_lookup_chain (global : List Symbol) (name : String) :
    ∀ (hashmap : Hashmap),
      symbol_hashmap_lookup global hashmap name =
        frame_lookup (hashmap.chain_entries global) name
  | .root es => rfl
  | .over_global es => by
    rw [symbol_hashmap_lookup, Hashmap.chain_entries, frame_lookup_append]
  | .nested es backup => by
    rw [symbol_hashmap_lookup, Hashmap.chain_entries, frame_lookup_append,
      symbol_hashmap_lookup_chain global name backup]

/-- C15: for an `IDENTIFIER_DATA` node in statement context whose name no frame
of the lookup chain holds (the current frame, each backup frame, the global
frame), `bind_statement_identifier_data` returns without fault, leaves every
table, the string list and the reports as they are, and leaves the symbol
reference of the node unset; the loop over the siblings goes on from the same
state, so the nodes after it are bound exactly as they are without it. -/
theorem bind_statement_identifier_data_unresolved (global : List Symbol) (state : BindState)
    (table : SymbolTable) (name : String) (symbol : Option Symbol) (children rest : List Node)
    (htable : state.local_symbols = some table)
    (hfree : name ∉ (table.hashmap.chain_entries global).map Symbol.name) :
    bind_statement_identifier_data global state
        (.mk .IDENTIFIER_DATA (.str name) symbol children) =
      .ok (state, .mk .IDENTIFIER_DATA (.str name) none children) ∧
    bind_statement_identifier_data_children global state
        (.mk .IDENTIFIER_DATA (.str name) symbol children :: rest) =
      match bind_statement_identifier_data_children global state rest with
      | .error e => .error e
      | .ok (state1, rest1) =>
        .ok (state1, .mk .IDENTIFIER_DATA (.str name) none children :: rest1) := by
  have h : bind_statement_identifier_data global state
      (.mk .IDENTIFIER_DATA (.str name) symbol children) =
      .ok (state, .mk .IDENTIFIER_DATA (.str name) none children) := by
    rw [bind_statement_identifier_data, if_pos rfl, htable]
    simp only [Payload.as_string]
    rw [symbol_hashmap_lookup_chain, frame_lookup_eq_none.mpr hfree]
  refine ⟨h, ?_⟩
  rw [bind_statement_identifier_data_children, h]

/-- C15, instance: in `begin y := 1 end` inside a function with the parameter
`x`, where the global table holds `f` only, the identifier `y` stays unbound,
the state is as before, and the literal after it is visited as usual. -/
theorem bind_statement_identifier_data_unresolved_witness :
    bind_statement_identifier_data [⟨"f", .SYMBOL_FUNCTION, 0, some (.local_of 0)⟩]
        { local_symbols :=
            some { symbols := [⟨"x", .SYMBOL_PARAMETER, 0, some (.local_of 0)⟩],
                   hashmap := .nested []
                     (.over_global [⟨"x", .SYMBOL_PARAMETER, 0, some (.local_of 0)⟩]) },
          string_list := [], string_list_capacity := 0, reports := [] }
        (identifier "y") =
      .ok ({ local_symbols :=
               some { symbols := [⟨"x", .SYMBOL_PARAMETER, 0, some (.local_of 0)⟩],
                      hashmap := .nested []
                        (.over_global [⟨"x", .SYMBOL_PARAMETER, 0, some (.local_of 0)⟩]) },
             string_list := [], string_list_capacity := 0, reports := [] },
           identifier "y") :=
  (bind_statement_identifier_data_unresolved [⟨"f", .SYMBOL_FUNCTION, 0, some (.local_of 0)⟩]
    _ _ "y" none [] [] rfl (by decide)).1

/-- The same through `create_tables`: in `func f(x) begin y := x end` the use of
`y` stays unbound, the use of `x` after it is bound to the parameter, and the
tables hold `f` and `x` only. -/
theorem create_tables_unresolved :
    create_tables node_type_code
      (plain .LIST [
        plain .FUNCTION [identifier "f", plain .LIST [identifier "x"],
          plain .BLOCK [plain .LIST [
            plain .ASSIGNMENT_STATEMENT [identifier "y", identifier "x"]]]]]) =
    .ok
      ({ global_symbols :=
           { symbols := [⟨"f", .SYMBOL_FUNCTION, 0, some (.local_of 0)⟩],
             hashmap := .root [⟨"f", .SYMBOL_FUNCTION, 0, some (.local_of 0)⟩] },
         local_tables :=
           [(0, { symbols := [⟨"x", .SYMBOL_PARAMETER, 0, some (.local_of 0)⟩],
                  hashmap := .over_global [⟨"x", .SYMBOL_PARAMETER, 0, some (.local_of 0)⟩] })],
         string_list := [], string_list_capacity := 0, reports := [] },
       plain .LIST [
        plain .FUNCTION [identifier "f", plain .LIST [identifier "x"],
          plain .BLOCK [plain .LIST [
            plain .ASSIGNMENT_STATEMENT [
              identifier "y",
              .mk .IDENTIFIER_DATA (.str "x")
                (some ⟨"x", .SYMBOL_PARAMETER, 0, some (.local_of 0)⟩) []]]]]]) := by
  rfl

/-! ## Uses of a function name in another function -/

/-- One step of the loop of `find_globals` offers the symbols of the
declaration to the global table and, for a function, adds the table of its
parameters to the local tables. -/
theorem find_globals_child_tables (i : Nat) (d : Declaration) (tables : Tables) :
    ∃ tables1, find_globals_child i d.node tables = .ok tables1 ∧
      tables1.global_symbols = insert_all tables.global_symbols (d.symbols i) ∧
      tables1.local_tables = tables.local_tables ++ local_tables_from i [d] := by
  cases d with
  | function name parameters body =>
    have hp := insert_parameters_first_occurrences
      (Declaration.node (.function name parameters body)) i parameters [] tables.reports
    simp only [Declaration.node, plain, identifier, List.map_nil, List.length_nil,
      List.nil_append] at hp
    simp only [find_globals_child, Declaration.node, plain, identifier, Node.type_mk, if_true,
      Node.children_mk, Node.data_mk, Payload.as_string, hp, Declaration.symbols, insert_all_cons,
      local_tables_from, parameter_table]
    rcases h : symbol_table_insert tables.global_symbols
      ⟨name, .SYMBOL_FUNCTION, 0, some (.local_of i)⟩ with ⟨t1, r⟩
    cases r
    · exact ⟨_, rfl, rfl, rfl⟩
    · exact ⟨_, rfl, rfl, rfl⟩
  | plain_variables first more =>
    obtain ⟨reports1, hg⟩ := insert_globals_identifiers
      (Declaration.node (.plain_variables first more)) .SYMBOL_GLOBAL_VAR (first :: more)
      tables.global_symbols tables.reports
    simp only [Declaration.node, plain, identifier, List.map_cons] at hg
    simp only [find_globals_child, Declaration.node, plain, identifier, Node.type_mk,
      reduceCtorEq, if_false, if_true, find_identifiers_parent, find_identifiers_parent_children,
      List.map_cons, Node.children_mk, hg, Declaration.symbols, local_tables_from]
    exact ⟨_, rfl, rfl, (List.append_nil _).symm⟩
  | array name size =>
    simp only [find_globals_child, Declaration.node, plain, identifier, Node.type_mk,
      reduceCtorEq, if_false, if_true, find_identifiers_parent, find_identifiers_parent_children,
      Node.children_mk, Declaration.symbols, insert_globals, number_literal, Node.data_mk,
      Payload.as_string, insert_all_cons, local_tables_from]
    rcases h : symbol_table_insert tables.global_symbols
      ⟨name, .SYMBOL_GLOBAL_ARRAY, 0, none⟩ with ⟨t1, r⟩
    cases r
    · exact ⟨_, rfl, rfl, (List.append_nil _).symm⟩
    · exact ⟨_, rfl, rfl, (List.append_nil _).symm⟩

theorem local_tables_from_cons (i : Nat) (d : Declaration) (ds : List Declaration) :
    local_tables_from i (d :: ds) = local_tables_from i [d] ++ local_tables_from (i + 1) ds := by
  cases d <;> simp [local_tables_from]

theorem find_globals_loop_tables :
    ∀ (ds : List Declaration) (i : Nat) (tables : Tables),
      ∃ tables1, find_globals_loop i (ds.map Declaration.node) tables = .ok tables1 ∧
        tables1.global_symbols = insert_all tables.global_symbols (symbols_from i ds) ∧
        tables1.local_tables = tables.local_tables ++ local_tables_from i ds
  | [], i, tables => ⟨tables, rfl, rfl, by simp [local_tables_from]⟩
  | d :: ds, i, tables => by
    obtain ⟨t1, h1, g1, l1⟩ := find_globals_child_tables i d tables
    obtain ⟨t2, h2, g2, l2⟩ := find_globals_loop_tables ds (i + 1) t1
    refine ⟨t2, ?_, ?_, ?_⟩
    · simp only [List.map_cons, find_globals_loop, h1, h2]
    · rw [g2, g1, symbols_from, insert_all_append]
    · rw [l2, l1, local_tables_from_cons i d ds, List.append_assoc]

/-- The tables after `find_globals` when the declared names are pairwise
distinct. -/
theorem find_globals_tables (ds : List Declaration)
    (hnodup : (ds.flatMap Declaration.names).Nodup) :
    ∃ tables, find_globals (program ds) = .ok tables ∧
      tables.global_symbols =
        { symbols := renumber 0 (symbols_from 0 ds),
          hashmap := .root (renumber 0 (symbols_from 0 ds)) } ∧
      tables.local_tables = local_tables_from 0 ds := by
  obtain ⟨tables, h, g, l⟩ := find_globals_loop_tables ds 0 initial_tables
  refine ⟨tables, h, ?_, by simpa [initial_tables] using l⟩
  rw [g]
  have hi : initial_tables.global_symbols = symbol_table_init := rfl
  rw [hi, insert_all_fresh _ _ symbol_table_init_flat
    (by rw [symbols_from_map_name]; exact hnodup)
    (by intro s _ hm; simp [symbol_table_init] at hm)]
  simp [symbol_table_init]

/-- The local table of the function declared at index `k` of the program. -/
theorem lookup_table_local_tables_from : ∀ (ds : List Declaration) (i k : Nat)
    (name : String) (parameters : List String) (body : Node),
    ds[k]? = some (.function name parameters body) →
    lookup_table (local_tables_from i ds) (i + k) = some (parameter_table (i + k) parameters)
  | [], _, _, _, _, _, h => by simp at h
  | d :: ds, i, 0, name, parameters, body, h => by
    simp only [List.getElem?_cons_zero, Option.some.injEq] at h
    subst h
    simp [local_tables_from, lookup_table]
  | d :: ds, i, k + 1, name, parameters, body, h => by
    simp only [List.getElem?_cons_succ] at h
    have ih := lookup_table_local_tables_from ds (i + 1) k name parameters body h
    have e : i + 1 + k = i + (k + 1) := by omega
    rw [e] at ih
    cases d with
    | function n ps b =>
      simp only [local_tables_from, lookup_table] at ih ⊢
      rw [List.find?_cons_of_neg _ (by simp)]
      exact ih
    | plain_variables first more => simpa [local_tables_from] using ih
    | array n size => simpa [local_tables_from] using ih

theorem lookup_table_store_table (tables : List (Nat × SymbolTable)) (m k : Nat)
    (table : SymbolTable) (h : k ≠ m) :
    lookup_table (store_table tables m table) k = lookup_table tables k := by
  induction tables with
  | nil => rfl
  | cons p ps ih =>
    simp only [store_table, lookup_table, List.map_cons] at ih ⊢
    by_cases hp : p.1 = m
    · rw [if_pos hp, List.find?_cons_of_neg _ (by simpa using fun e => h e.symm),
        List.find?_cons_of_neg _ (by simpa [hp] using fun e => h e.symm)]
      exact ih
    · rw [if_neg hp]
      by_cases hk : p.1 = k
      · rw [List.find?_cons_of_pos _ (by simpa using hk),
          List.find?_cons_of_pos _ (by simpa using hk)]
      · rw [List.find?_cons_of_neg _ (by simpa using hk),
          List.find?_cons_of_neg _ (by simpa using hk)]
        exact ih

theorem mem_renumber : ∀ (ss : List Symbol) (k : Nat) (s : Symbol), s ∈ ss →
    ∃ n, { s with sequence_number := n } ∈ renumber k ss
  | [], _, _, h => by cases h
  | t :: ss, k, s, h => by
    rcases List.mem_cons.mp h with rfl | h
    · exact ⟨k, by simp [renumber]⟩
    · obtain ⟨n, hn⟩ := mem_renumber ss (k + 1) s h
      exact ⟨n, by simp [renumber, hn]⟩

theorem mem_symbols_from : ∀ (ds : List Declaration) (i k : Nat)
    (name : String) (parameters : List String) (body : Node),
    ds[k]? = some (.function name parameters body) →
    ⟨name, .SYMBOL_FUNCTION, 0, some (.local_of (i + k))⟩ ∈ symbols_from i ds
  | [], _, _, _, _, _, h => by simp at h
  | d :: ds, i, 0, name, parameters, body, h => by
    simp only [List.getElem?_cons_zero, Option.some.injEq] at h
    subst h
    simp [symbols_from, Declaration.symbols]
  | d :: ds, i, k + 1, name, parameters, body, h => by
    simp only [List.getElem?_cons_succ] at h
    have ih := mem_symbols_from ds (i + 1) k name parameters body h
    have e : i + 1 + k = i + (k + 1) := by omega
    rw [e] at ih
    rw [symbols_from]
    exact List.mem_append_right _ ih

/-! ## Binding inside a function body -/

/-- A name that the table's own frames do not hold is looked up in the frame of
the global table. -/
theorem symbol_hashmap_lookup_global (global : List Symbol) (name : String) :
    ∀ (hashmap : Hashmap), hashmap.reaches_global = true → name ∉ hashmap.local_names →
      symbol_hashmap_lookup global hashmap name = frame_lookup global name
  | .root es, h, _ => by cases h
  | .over_global es, _, hn => by
    rw [symbol_hashmap_lookup, frame_lookup_eq_none.mpr hn]
  | .nested es backup, h, hn => by
    simp only [Hashmap.local_names, List.mem_append, not_or] at hn
    rw [symbol_hashmap_lookup, frame_lookup_eq_none.mpr hn.1]
    exact symbol_hashmap_lookup_global global name backup h hn.2

theorem Hashmap.reaches_global_set_entries (hashmap : Hashmap) (es : List Symbol) :
    (hashmap.set_entries es).reaches_global = hashmap.reaches_global := by
  cases hashmap <;> rfl

theorem Hashmap.mem_local_names_set_entries (hashmap : Hashmap) (symbol : Symbol)
    (name : String) :
    name ∈ (hashmap.set_entries (hashmap.entries ++ [symbol])).local_names ↔
      name ∈ hashmap.local_names ∨ name = symbol.name := by
  cases hashmap <;>
    simp only [Hashmap.set_entries, Hashmap.entries, Hashmap.local_names, List.map_append,
      List.map_cons, List.map_nil, List.mem_append, List.mem_singleton]
  · tauto

theorem Hashmap.reaches_global_pop (hashmap : Hashmap) (h : hashmap.reaches_global = true) :
    hashmap.pop.reaches_global = true := by
  cases hashmap with
  | root es => exact h
  | over_global es => exact h
  | nested es backup => exact h

theorem Hashmap.not_mem_local_names_pop (hashmap : Hashmap) (name : String)
    (h : name ∉ hashmap.local_names) : name ∉ hashmap.pop.local_names := by
  cases hashmap with
  | root es => exact h
  | over_global es => exact h
  | nested es backup =>
    simp only [Hashmap.local_names, List.mem_append, not_or] at h
    exact h.2

/-- An insertion of a symbol with another name keeps a name out of the table's
own frames. -/
theorem symbol_table_insert_local_names (table : SymbolTable) (symbol : Symbol) (name : String)
    (hr : table.hashmap.reaches_global = true) (hn : name ∉ table.hashmap.local_names)
    (hne : name ≠ symbol.name) :
    (symbol_table_insert table symbol).1.hashmap.reaches_global = true ∧
    name ∉ (symbol_table_insert table symbol).1.hashmap.local_names := by
  unfold symbol_table_insert
  cases frame_lookup table.hashmap.entries symbol.name with
  | some s => exact ⟨hr, hn⟩
  | none =>
    simp only
    rw [Hashmap.reaches_global_set_entries]
    refine ⟨hr, ?_⟩
    have h := Hashmap.mem_local_names_set_entries table.hashmap
      { symbol with sequence_number := table.symbols.length } name
    rw [h]
    simp only [not_or]
    exact ⟨hn, hne⟩

mutual
theorem bind_statement_identifier_data_uses (global : List Symbol) (name : String) :
    ∀ (node : Node) (state state1 : BindState) (node1 : Node) (table : SymbolTable),
      bind_statement_identifier_data global state node = .ok (state1, node1) →
      state.local_symbols = some table →
      table.hashmap.reaches_global = true → name ∉ table.hashmap.local_names →
      state1.local_symbols = state.local_symbols ∧
      ∀ s ∈ statement_uses name node1, s = frame_lookup global name
  | .mk t d s cs, state, state1, node1, table, h, ht, hr, hn => by
    rw [bind_statement_identifier_data] at h
    by_cases h1 : t = .IDENTIFIER_DATA
    · simp only [if_pos h1, ht] at h
      cases hd : d.as_string with
      | error e => rw [hd] at h; cases h
      | ok n =>
        rw [hd] at h
        simp only [Except.ok.injEq, Prod.mk.injEq] at h
        obtain ⟨rfl, rfl⟩ := h
        refine ⟨rfl, ?_⟩
        intro s1 hs1
        rw [statement_uses, if_pos h1] at hs1
        by_cases hdn : d = .str name
        · rw [if_pos hdn, List.mem_singleton] at hs1
          rw [hdn] at hd
          simp only [Payload.as_string, Except.ok.injEq] at hd
          rw [hs1, ← hd]
          exact symbol_hashmap_lookup_global global name table.hashmap hr hn
        · rw [if_neg hdn] at hs1
          cases hs1
    · simp only [if_neg h1] at h
      by_cases h2 : t = .STRING_DATA
      · simp only [if_pos h2, Except.ok.injEq, Prod.mk.injEq] at h
        obtain ⟨rfl, rfl⟩ := h
        refine ⟨(add_string_spec state d).2.2.1, ?_⟩
        intro s1 hs1
        simp [statement_uses] at hs1
      · simp only [if_neg h2] at h
        cases hc : bind_statement_identifier_data_children global state cs with
        | error e => rw [hc] at h; cases h
        | ok p =>
          obtain ⟨state2, cs1⟩ := p
          rw [hc] at h
          simp only [Except.ok.injEq, Prod.mk.injEq] at h
          obtain ⟨rfl, rfl⟩ := h
          have ih := bind_statement_identifier_data_children_uses global name cs state state2
            cs1 table hc ht hr hn
          refine ⟨ih.1, ?_⟩
          intro s1 hs1
          rw [statement_uses, if_neg h1] at hs1
          split_ifs at hs1
          · cases hs1
          · exact ih.2 s1 hs1
theorem bind_statement_identifier_data_children_uses (global : List Symbol) (name : String) :
    ∀ (cs : List Node) (state state1 : BindState) (cs1 : List Node) (table : SymbolTable),
      bind_statement_identifier_data_children global state cs = .ok (state1, cs1) →
      state.local_symbols = some table →
      table.hashmap.reaches_global = true → name ∉ table.hashmap.local_names →
      state1.local_symbols = state.local_symbols ∧
      ∀ s ∈ statement_uses_children name cs1, s = frame_lookup global name
  | [], state, state1, cs1, table, h, _, _, _ => by
    rw [bind_statement_identifier_data_children] at h
    simp only [Except.ok.injEq, Prod.mk.injEq] at h
    obtain ⟨rfl, rfl⟩ := h
    exact ⟨rfl, by simp [statement_uses_children]⟩
  | c :: cs, state, state1, cs1, table, h, ht, hr, hn => by
    rw [bind_statement_identifier_data_children] at h
    cases hc : bind_statement_identifier_data global state c with
    | error e => rw [hc] at h; cases h
    | ok p =>
      obtain ⟨state2, c1⟩ := p
      rw [hc] at h
      simp only at h
      cases hcs : bind_statement_identifier_data_children global state2 cs with
      | error e => rw [hcs] at h; cases h
      | ok q =>
        obtain ⟨state3, cs2⟩ := q
        rw [hcs] at h
        simp only [Except.ok.injEq, Prod.mk.injEq] at h
        obtain ⟨rfl, rfl⟩ := h
        have ih1 := bind_statement_identifier_data_uses global name c state state2 c1 table
          hc ht hr hn
        have ih2 := bind_statement_identifier_data_children_uses global name cs state2 state3
          cs2 table hcs (ih1.1.trans ht) hr hn
        refine ⟨ih2.1.trans ih1.1, ?_⟩
        intro s1 hs1
        rw [statement_uses_children, List.mem_append] at hs1
        rcases hs1 with hs1 | hs1
        · exact ih1.2 s1 hs1
        · exact ih2.2 s1 hs1
end

mutual
theorem bind_names_uses (code : NodeType → Nat) (global : List Symbol) (id : TableId)
    (name : String) :
    ∀ (node : Node) (state state1 : BindState) (node1 : Node) (table : SymbolTable),
      bind_names code global id state node = .ok (state1, node1) →
      state.local_symbols = some table →
      table.hashmap.reaches_global = true → name ∉ table.hashmap.local_names →
      name ∉ declared_names code node →
      (∃ table1, state1.local_symbols = some table1 ∧
        table1.hashmap.reaches_global = true ∧ name ∉ table1.hashmap.local_names) ∧
      ∀ s ∈ uses code name node1, s = frame_lookup global name
  | .mk t d s cs, state, state1, node1, table, h, ht, hr, hn, hd => by
    rw [bind_names] at h
    rw [declared_names] at hd
    by_cases h1 : t = .IDENTIFIER_DATA
    · simp only [if_pos h1, ht] at h hd
      cases hds : d.as_string with
      | error e => rw [hds] at h; cases h
      | ok n =>
        rw [hds] at h
        simp only at h
        have hdn : d = .str n := by
          cases d <;> simp only [Payload.as_string, Except.ok.injEq, reduceCtorEq] at hds
          rw [hds]
        rw [hdn] at hd
        simp only [Payload.strings, List.mem_singleton] at hd
        have hi := symbol_table_insert_local_names table
          ⟨n, .SYMBOL_LOCAL_VAR, 0, some id⟩ name hr hn hd
        rcases hins : symbol_table_insert table ⟨n, .SYMBOL_LOCAL_VAR, 0, some id⟩
          with ⟨table1, r⟩
        rw [hins] at h hi
        cases r <;>
        · simp only [Except.ok.injEq, Prod.mk.injEq] at h
          obtain ⟨rfl, rfl⟩ := h
          refine ⟨⟨table1, rfl, hi.1, hi.2⟩, ?_⟩
          intro s1 hs1
          simp [uses, h1] at hs1
    · simp only [if_neg h1] at h hd
      by_cases h2 : t = .STRING_DATA
      · simp only [if_pos h2, Except.ok.injEq, Prod.mk.injEq] at h
        obtain ⟨rfl, rfl⟩ := h
        refine ⟨⟨table, ((add_string_spec state d).2.2.1).trans ht, hr, hn⟩, ?_⟩
        intro s1 hs1
        simp [uses] at hs1
      · simp only [if_neg h2] at h hd
        by_cases h3 : 6 ≤ code t ∧ code t ≤ 11
        · simp only [if_pos h3] at h
          rw [bind_statement_identifier_data, if_neg h1, if_neg h2] at h
          cases hc : bind_statement_identifier_data_children global state cs with
          | error e => rw [hc] at h; cases h
          | ok p =>
            obtain ⟨state2, cs1⟩ := p
            rw [hc] at h
            simp only [Except.ok.injEq, Prod.mk.injEq] at h
            obtain ⟨rfl, rfl⟩ := h
            have ih := bind_statement_identifier_data_children_uses global name cs state state2
              cs1 table hc ht hr hn
            refine ⟨⟨table, ih.1.trans ht, hr, hn⟩, ?_⟩
            intro s1 hs1
            rw [uses, if_neg h1] at hs1
            split_ifs at hs1 with h4
            · cases hs1
            · rw [statement_uses, if_neg h1, if_neg h4] at hs1
              exact ih.2 s1 hs1
        · simp only [if_neg h3] at h hd
          by_cases h4 : t = .BLOCK
          · simp only [if_pos h4, ht] at h
            split at h
            · cases h
            · rename_i state2 cs1 hc
              split at h
              · cases h
              · rename_i table2 ht2
                simp only [Except.ok.injEq, Prod.mk.injEq] at h
                obtain ⟨rfl, rfl⟩ := h
                have ih := bind_names_children_uses code global id name cs _ state2 cs1
                  { table with hashmap := .nested [] table.hashmap } hc rfl hr
                  (by simpa [Hashmap.local_names] using hn) hd
                obtain ⟨⟨table3, ht3, hr3, hn3⟩, hu⟩ := ih
                rw [ht2, Option.some.injEq] at ht3
                subst ht3
                refine ⟨⟨_, rfl, Hashmap.reaches_global_pop _ hr3,
                  Hashmap.not_mem_local_names_pop _ _ hn3⟩, ?_⟩
                intro s1 hs1
                rw [uses, if_neg h1, if_neg h3] at hs1
                split_ifs at hs1
                · cases hs1
                · exact hu s1 hs1
          · simp only [if_neg h4] at h
            cases hc : bind_names_children code global id state cs with
            | error e => rw [hc] at h; cases h
            | ok p =>
              obtain ⟨state2, cs1⟩ := p
              rw [hc] at h
              simp only [Except.ok.injEq, Prod.mk.injEq] at h
              obtain ⟨rfl, rfl⟩ := h
              have ih := bind_names_children_uses code global id name cs state state2 cs1
                table hc ht hr hn hd
              refine ⟨ih.1, ?_⟩
              intro s1 hs1
              rw [uses, if_neg h1, if_neg h3] at hs1
              split_ifs at hs1
              · cases hs1
              · exact ih.2 s1 hs1
theorem bind_names_children_uses (code : NodeType → Nat) (global : List Symbol) (id : TableId)
    (name : String) :
    ∀ (cs : List Node) (state state1 : BindState) (cs1 : List Node) (table : SymbolTable),
      bind_names_children code global id state cs = .ok (state1, cs1) →
      state.local_symbols = some table →
      table.hashmap.reaches_global = true → name ∉ table.hashmap.local_names →
      name ∉ declared_names_children code cs →
      (∃ table1, state1.local_symbols = some table1 ∧
        table1.hashmap.reaches_global = true ∧ name ∉ table1.hashmap.local_names) ∧
      ∀ s ∈ uses_children code name cs1, s = frame_lookup global name
  | [], state, state1, cs1, table, h, ht, hr, hn, _ => by
    rw [bind_names_children] at h
    simp only [Except.ok.injEq, Prod.mk.injEq] at h
    obtain ⟨rfl, rfl⟩ := h
    exact ⟨⟨table, ht, hr, hn⟩, by simp [uses_children]⟩
  | c :: cs, state, state1, cs1, table, h, ht, hr, hn, hd => by
    rw [bind_names_children] at h
    rw [declared_names_children, List.mem_append, not_or] at hd
    cases hc : bind_names code global id state c with
    | error e => rw [hc] at h; cases h
    | ok p =>
      obtain ⟨state2, c1⟩ := p
      rw [hc] at h
      simp only at h
      cases hcs : bind_names_children code global id state2 cs with
      | error e => rw [hcs] at h; cases h
      | ok q =>
        obtain ⟨state3, cs2⟩ := q
        rw [hcs] at h
        simp only [Except.ok.injEq, Prod.mk.injEq] at h
        obtain ⟨rfl, rfl⟩ := h
        obtain ⟨⟨table2, ht2, hr2, hn2⟩, hu1⟩ := bind_names_uses code global id name c state
          state2 c1 table hc ht hr hn hd.1
        obtain ⟨hi2, hu2⟩ := bind_names_children_uses code global id name cs state2 state3
          cs2 table2 hcs ht2 hr2 hn2 hd.2
        refine ⟨hi2, ?_⟩
        intro s1 hs1
        rw [uses_children, List.mem_append] at hs1
        rcases hs1 with hs1 | hs1
        · exact hu1 s1 hs1
        · exact hu2 s1 hs1
end

/-! ## Binding returns -/

theorem Payload.as_string_of_strings (d : Payload) (h : (!d.strings.isEmpty) = true) :
    ∃ name, d = .str name := by
  cases d with
  | str s => exact ⟨s, rfl⟩
  | null => simp [Payload.strings] at h
  | num v => simp [Payload.strings] at h
  | pos n => simp [Payload.strings] at h

mutual
theorem bind_statement_identifier_data_returns (global : List Symbol) :
    ∀ (node : Node) (state : BindState) (table : SymbolTable),
      names_present node = true → state.local_symbols = some table →
      ∃ state1 node1, bind_statement_identifier_data global state node = .ok (state1, node1) ∧
        state1.local_symbols = some table
  | .mk t d s cs, state, table, hp, ht => by
    rw [names_present] at hp
    rw [bind_statement_identifier_data]
    by_cases h1 : t = .IDENTIFIER_DATA
    · rw [if_pos h1] at hp
      obtain ⟨name, rfl⟩ := Payload.as_string_of_strings d hp
      simp only [if_pos h1, ht, Payload.as_string]
      exact ⟨_, _, rfl, ht⟩
    · rw [if_neg h1] at hp
      simp only [if_neg h1]
      by_cases h2 : t = .STRING_DATA
      · simp only [if_pos h2]
        exact ⟨_, _, rfl, ((add_string_spec state d).2.2.1).trans ht⟩
      · rw [if_neg h2] at hp
        simp only [if_neg h2]
        obtain ⟨state1, cs1, hc, ht1⟩ :=
          bind_statement_identifier_data_children_returns global cs state table hp ht
        rw [hc]
        exact ⟨_, _, rfl, ht1⟩
theorem bind_statement_identifier_data_children_returns (global : List Symbol) :
    ∀ (cs : List Node) (state : BindState) (table : SymbolTable),
      names_present_children cs = true → state.local_symbols = some table →
      ∃ state1 cs1,
        bind_statement_identifier_data_children global state cs = .ok (state1, cs1) ∧
        state1.local_symbols = some table
  | [], state, table, _, ht => ⟨state, [], rfl, ht⟩
  | c :: cs, state, table, hp, ht => by
    rw [names_present_children, Bool.and_eq_true] at hp
    obtain ⟨state1, c1, hc, ht1⟩ :=
      bind_statement_identifier_data_returns global c state table hp.1 ht
    obtain ⟨state2, cs1, hcs, ht2⟩ :=
      bind_statement_identifier_data_children_returns global cs state1 table hp.2 ht1
    rw [bind_statement_identifier_data_children, hc]
    simp only
    rw [hcs]
    exact ⟨_, _, rfl, ht2⟩
end

mutual
theorem bind_names_returns (code : NodeType → Nat) (global : List Symbol) (id : TableId) :
    ∀ (node : Node) (state : BindState) (table : SymbolTable),
      names_present node = true → state.local_symbols = some table →
      ∃ state1 node1 table1, bind_names code global id state node = .ok (state1, node1) ∧
        state1.local_symbols = some table1
  | .mk t d s cs, state, table, hp, ht => by
    have hp0 := hp
    rw [names_present] at hp
    rw [bind_names]
    by_cases h1 : t = .IDENTIFIER_DATA
    · rw [if_pos h1] at hp
      obtain ⟨name, rfl⟩ := Payload.as_string_of_strings d hp
      simp only [if_pos h1, ht, Payload.as_string]
      rcases symbol_table_insert table ⟨name, .SYMBOL_LOCAL_VAR, 0, some id⟩ with ⟨table1, r⟩
      cases r
      · exact ⟨_, _, table1, rfl, rfl⟩
      · exact ⟨_, _, table1, rfl, rfl⟩
    · rw [if_neg h1] at hp
      simp only [if_neg h1]
      by_cases h2 : t = .STRING_DATA
      · simp only [if_pos h2]
        exact ⟨_, _, table, rfl, ((add_string_spec state d).2.2.1).trans ht⟩
      · rw [if_neg h2] at hp
        simp only [if_neg h2]
        by_cases h3 : 6 ≤ code t ∧ code t ≤ 11
        · simp only [if_pos h3]
          obtain ⟨state1, node1, hc, ht1⟩ :=
            bind_statement_identifier_data_returns global (.mk t d s cs) state table hp0 ht
          exact ⟨state1, node1, table, hc, ht1⟩
        · simp only [if_neg h3]
          by_cases h4 : t = .BLOCK
          · simp only [if_pos h4, ht]
            obtain ⟨state1, cs1, table1, hc, ht1⟩ :=
              bind_names_children_returns code global id cs
                { state with
                  local_symbols := some { table with hashmap := .nested [] table.hashmap } }
                { table with hashmap := .nested [] table.hashmap } hp rfl
            rw [hc]
            simp only [ht1]
            exact ⟨_, _, _, rfl, rfl⟩
          · simp only [if_neg h4]
            obtain ⟨state1, cs1, table1, hc, ht1⟩ :=
              bind_names_children_returns code global id cs state table hp ht
            rw [hc]
            exact ⟨_, _, table1, rfl, ht1⟩
theorem bind_names_children_returns (code : NodeType → Nat) (global : List Symbol)
    (id : TableId) :
    ∀ (cs : List Node) (state : BindState) (table : SymbolTable),
      names_present_children cs = true → state.local_symbols = some table →
      ∃ state1 cs1 table1, bind_names_children code global id state cs = .ok (state1, cs1) ∧
        state1.local_symbols = some table1
  | [], state, table, _, ht => ⟨state, [], table, rfl, ht⟩
  | c :: cs, state, table, hp, ht => by
    rw [names_present_children, Bool.and_eq_true] at hp
    obtain ⟨state1, c1, table1, hc, ht1⟩ :=
      bind_names_returns code global id c state table hp.1 ht
    obtain ⟨state2, cs1, table2, hcs, ht2⟩ :=
      bind_names_children_returns code global id cs state1 table1 hp.2 ht1
    rw [bind_names_children, hc]
    simp only
    rw [hcs]
    exact ⟨_, _, table2, rfl, ht2⟩
end

/-! ## The loop of `create_tables` over a program with distinct names -/

theorem parameter_table_local_names (i : Nat) (parameters : List String) (name : String)
    (h : name ∉ parameters) : name ∉ (parameter_table i parameters).hashmap.local_names := by
  simp only [parameter_table, Hashmap.local_names, renumber_map_name, List.map_map]
  have hid : (Symbol.name ∘ parameter_symbol i) = id := rfl
  rw [hid, List.map_id, mem_first_occurrences]
  exact fun hm => h hm.1

/-- The symbol of the global table for the function declared at index `m`. -/
theorem frame_lookup_function (ds : List Declaration)
    (hnodup : (ds.flatMap Declaration.names).Nodup) (m : Nat) (name : String)
    (parameters : List String) (body : Node)
    (hd : ds[m]? = some (.function name parameters body)) :
    ∃ n, frame_lookup (renumber 0 (symbols_from 0 ds)) name =
      some ⟨name, .SYMBOL_FUNCTION, n, some (.local_of m)⟩ := by
  have hm := mem_symbols_from ds 0 m name parameters body hd
  rw [Nat.zero_add] at hm
  obtain ⟨n, hn⟩ := mem_renumber _ 0 _ hm
  refine ⟨n, ?_⟩
  have hl := frame_lookup_mem hn
    (by rw [renumber_map_name, symbols_from_map_name]; exact hnodup)
  exact hl

/-- One step of the loop of `create_tables` on the declaration at index `m` of a
program with pairwise distinct top-level names: it returns, leaves the global
table and the local tables of the later functions as they are, and binds every
use of a name that the function neither takes as a parameter nor declares to
the entry of the global table for that name. -/
theorem create_tables_child_declaration (code : NodeType → Nat) (ds : List Declaration)
    (hnodup : (ds.flatMap Declaration.names).Nodup) (m : Nat) (d : Declaration)
    (hd : ds[m]? = some d) (hwf : d.names_present = true) (tables : Tables)
    (hg : tables.global_symbols =
      { symbols := renumber 0 (symbols_from 0 ds),
        hashmap := .root (renumber 0 (symbols_from 0 ds)) })
    (hl : ∀ k, m ≤ k →
      lookup_table tables.local_tables k = lookup_table (local_tables_from 0 ds) k) :
    ∃ tables1 c1, create_tables_child code d.node tables = .ok (tables1, c1) ∧
      tables1.global_symbols = tables.global_symbols ∧
      (∀ k, m + 1 ≤ k →
        lookup_table tables1.local_tables k = lookup_table (local_tables_from 0 ds) k) ∧
      ∀ name parameters body, d = .function name parameters body →
        ∃ body1, c1 = plain .FUNCTION
            [identifier name, plain .LIST (parameters.map identifier), body1] ∧
          ∀ g, g ∉ parameters → g ∉ declared_names code body →
            ∀ s ∈ uses code g body1, s = frame_lookup (renumber 0 (symbols_from 0 ds)) g := by
  cases d with
  | function name parameters body =>
    obtain ⟨n, hn⟩ := frame_lookup_function ds hnodup m name parameters body hd
    have ht := lookup_table_local_tables_from ds 0 m name parameters body hd
    rw [Nat.zero_add] at ht
    rw [← hl m (Nat.le_refl m)] at ht
    obtain ⟨state1, body1, table1, hb, ht1⟩ := bind_names_returns code
      (renumber 0 (symbols_from 0 ds)) (.local_of m) body
      { local_symbols := some (parameter_table m parameters),
        string_list := tables.string_list,
        string_list_capacity := tables.string_list_capacity, reports := tables.reports }
      (parameter_table m parameters) hwf rfl
    refine ⟨{ tables with
              local_tables := store_table tables.local_tables m table1
              string_list := state1.string_list
              string_list_capacity := state1.string_list_capacity
              reports := state1.reports },
      plain .FUNCTION [identifier name, plain .LIST (parameters.map identifier), body1],
      ?_, rfl, ?_, ?_⟩
    · simp only [create_tables_child, Declaration.node, plain, identifier, Node.type_mk, if_true,
        Node.data_mk, Payload.as_string, hg, Hashmap.entries, symbol_hashmap_lookup, hn,
        function_table, ht, hb, ht1]
    · intro k hk
      simp only
      rw [lookup_table_store_table _ _ _ _ (by omega)]
      exact hl k (by omega)
    · intro name1 parameters1 body0 he
      simp only [Declaration.function.injEq] at he
      obtain ⟨rfl, rfl, rfl⟩ := he
      refine ⟨body1, rfl, ?_⟩
      intro g hgp hgd
      exact (bind_names_uses code _ (.local_of m) g body _ state1 body1
        (parameter_table m parameters) hb rfl rfl
        (parameter_table_local_names m parameters g hgp) hgd).2
  | plain_variables first more =>
    refine ⟨tables, _, rfl, rfl, fun k hk => hl k (by omega), ?_⟩
    intro name parameters body he
    cases he
  | array name size =>
    refine ⟨tables, _, rfl, rfl, fun k hk => hl k (by omega), ?_⟩
    intro name parameters body he
    cases he

theorem create_tables_loop_declarations (code : NodeType → Nat) (ds : List Declaration)
    (hnodup : (ds.flatMap Declaration.names).Nodup)
    (hwf : ∀ d ∈ ds, d.names_present = true) :
    ∀ (rest : List Declaration) (m : Nat) (tables : Tables), ds.drop m = rest →
      tables.global_symbols =
        { symbols := renumber 0 (symbols_from 0 ds),
          hashmap := .root (renumber 0 (symbols_from 0 ds)) } →
      (∀ k, m ≤ k →
        lookup_table tables.local_tables k = lookup_table (local_tables_from 0 ds) k) →
      ∃ tables1 cs1,
        create_tables_loop code (rest.map Declaration.node) tables = .ok (tables1, cs1) ∧
        tables1.global_symbols = tables.global_symbols ∧
        ∀ (k : Nat) (name : String) (parameters : List String) (body : Node),
          rest[k]? = some (.function name parameters body) →
          ∃ body1 n,
            cs1[k]? = some (plain .FUNCTION
              [identifier name, plain .LIST (parameters.map identifier), body1]) ∧
            erase_symbols body1 = erase_symbols (string_references n body) ∧
            ∀ g, g ∉ parameters → g ∉ declared_names code body →
              ∀ s ∈ uses code g body1,
                s = frame_lookup (renumber 0 (symbols_from 0 ds)) g
  | [], m, tables, _, _, _ => by
    refine ⟨tables, [], rfl, rfl, ?_⟩
    intro k name parameters body h
    simp at h
  | d :: rest, m, tables, hdrop, hg, hl => by
    have hd : ds[m]? = some d := by
      have h0 : (ds.drop m)[0]? = some d := by rw [hdrop]; simp
      simpa using h0
    have hrest : ds.drop (m + 1) = rest := by
      have h1 : (ds.drop m).drop 1 = rest := by rw [hdrop]; rfl
      rw [List.drop_drop 1 m ds] at h1
      exact h1
    obtain ⟨tables1, c1, hc, hg1, hl1, hu1⟩ := create_tables_child_declaration code ds hnodup m d
      hd (hwf d (List.getElem?_mem hd)) tables hg hl
    obtain ⟨tables2, cs1, hcs, hg2, hu2⟩ := create_tables_loop_declarations code ds hnodup hwf
      rest (m + 1) tables1 hrest (hg1.trans hg) hl1
    refine ⟨tables2, c1 :: cs1, ?_, hg2.trans hg1, ?_⟩
    · simp only [List.map_cons, create_tables_loop, hc, hcs]
    · intro k name parameters body hk
      cases k with
      | zero =>
        simp only [List.getElem?_cons_zero, Option.some.injEq] at hk
        obtain ⟨body1, hb1, hub1⟩ := hu1 name parameters body hk
        have hs := (create_tables_child_strings code d.node tables tables1 c1 hc).2
        rw [hb1, hk] at hs
        refine ⟨body1, tables.string_list.length, by rw [hb1]; simp, ?_, hub1⟩
        simp only [Declaration.node, plain, child_string_references, Node.type_mk, if_true,
          erase_symbols, erase_symbols_children, Node.mk.injEq, true_and, List.cons.injEq,
          and_true] at hs
        exact hs
      | succ k =>
        simp only [List.getElem?_cons_succ] at hk ⊢
        exact hu2 k name parameters body hk

/-- On a program of functions, lists of plain variables and single arrays whose
names are pairwise distinct and whose identifiers carry names, `create_tables`
returns. Let `f` be the function declared at index `i` and `g` the function
declared at index `j`, in either order, where `g` is not a parameter of `f` and
no declaration in the body of `f` declares `g`: the body of `f` comes back as
it was (strings replaced by references, symbols set), the global table holds a
`SYMBOL_FUNCTION` symbol named `g` that points to the local table of `g`, and
every identifier named `g` in a statement of the body of `f` is bound to that
symbol. -/
theorem declarations_bind_function_name (code : NodeType → Nat) (ds : List Declaration)
    (hnodup : (ds.flatMap Declaration.names).Nodup)
    (hwf : ∀ d ∈ ds, d.names_present = true)
    (i j : Nat) (f g : String) (f_parameters g_parameters : List String)
    (f_body g_body : Node)
    (hf : ds[i]? = some (.function f f_parameters f_body))
    (hg : ds[j]? = some (.function g g_parameters g_body))
    (hparameter : g ∉ f_parameters) (hlocal : g ∉ declared_names code f_body) :
    ∃ tables root1 body1 symbol n,
      create_tables code (program ds) = .ok (tables, root1) ∧
      root1.children[i]? = some (plain .FUNCTION
        [identifier f, plain .LIST (f_parameters.map identifier), body1]) ∧
      erase_symbols body1 = erase_symbols (string_references n f_body) ∧
      symbol ∈ tables.global_symbols.symbols ∧
      symbol.name = g ∧ symbol.type = .SYMBOL_FUNCTION ∧
      symbol.function_symtable = some (.local_of j) ∧
      ∀ s ∈ uses code g body1, s = some symbol := by
  obtain ⟨tables0, h0, hg0, hl0⟩ := find_globals_tables ds hnodup
  obtain ⟨tables1, cs1, hloop, hg1, hu⟩ := create_tables_loop_declarations code ds hnodup hwf
    ds 0 tables0 rfl hg0 (fun k _ => by rw [hl0])
  obtain ⟨body1, n, hb1, he1, hu1⟩ := hu i f f_parameters f_body hf
  obtain ⟨seq, hseq⟩ := frame_lookup_function ds hnodup j g g_parameters g_body hg
  refine ⟨tables1, .mk (program ds).type (program ds).data (program ds).symbol cs1, body1,
    ⟨g, .SYMBOL_FUNCTION, seq, some (.local_of j)⟩, n, ?_, hb1, he1, ?_, rfl, rfl, rfl, ?_⟩
  · have hp : (program ds).children = ds.map Declaration.node := rfl
    rw [create_tables, h0]
    simp only [hp, hloop]
  · rw [hg1, hg0]
    exact List.mem_of_find?_eq_some hseq
  · intro s hs
    rw [hu1 g hparameter hlocal s hs, hseq]

/-- An instance: in `func f() begin return g() end  func g() return 1` the
function `f` is declared before the function `g` it calls. -/
theorem declarations_bind_function_name_instance :
    ∃ tables root1 body1 symbol n,
      create_tables node_type_code (program forward_reference) = .ok (tables, root1) ∧
      root1.children[0]? = some (plain .FUNCTION
        [identifier "f", plain .LIST (([] : List String).map identifier), body1]) ∧
      erase_symbols body1 = erase_symbols (string_references n
        (plain .BLOCK [plain .LIST [
          plain .RETURN_STATEMENT [plain .FUNCTION_CALL [identifier "g", plain .LIST []]]]])) ∧
      symbol ∈ tables.global_symbols.symbols ∧
      symbol.name = "g" ∧ symbol.type = .SYMBOL_FUNCTION ∧
      symbol.function_symtable = some (.local_of 1) ∧
      ∀ s ∈ uses node_type_code "g" body1, s = some symbol :=
  declarations_bind_function_name node_type_code forward_reference (by decide) (by decide)
    0 1 "f" "g" [] [] _ (plain .RETURN_STATEMENT [number_literal 1]) rfl rfl (by decide)
    (by decide)

theorem find_globals_forward_reference :
    find_globals (program forward_reference) = .ok
      { global_symbols := forward_reference_result.1.global_symbols,
        local_tables := forward_reference_result.1.local_tables,
        string_list := [], string_list_capacity := 0, reports := [] } := by
  rfl

/-- The tables and the bound tree of the instance: the `g` called in `f` is
bound to the function symbol of `g`, entered with sequence number 1. -/
theorem create_tables_forward_reference :
    create_tables node_type_code (program forward_reference) = .ok forward_reference_result := by
  rw [create_tables, find_globals_forward_reference]
  simp only [forward_reference, forward_reference_result, program, Declaration.node, List.map,
    plain, identifier, Node.children_mk, number_literal]
  simp only [create_tables_loop, create_tables_child, Node.type_mk, if_true, Node.data_mk,
    Payload.as_string, symbol_hashmap_lookup, frame_lookup, Hashmap.entries, List.find?]
  simp [function_table, lookup_table, bind_names, symbol_hashmap_lookup, frame_lookup,
    bind_names_children, node_type_code,
    bind_statement_identifier_data, bind_statement_identifier_data_children, Hashmap.pop,
    store_table, add_string, Payload.as_string]

/-! ## Stack discipline of the scope frames -/

theorem Hashmap.set_entries_entries (hashmap : Hashmap) :
    hashmap.set_entries hashmap.entries = hashmap := by
  cases hashmap <;> rfl

theorem Hashmap.set_entries_set_entries (hashmap : Hashmap) (a b : List Symbol) :
    (hashmap.set_entries a).set_entries b = hashmap.set_entries b := by
  cases hashmap <;> rfl

theorem Hashmap.entries_set_entries (hashmap : Hashmap) (a : List Symbol) :
    (hashmap.set_entries a).entries = a := by
  cases hashmap <;> rfl

theorem SymbolTable.grown_refl (table : SymbolTable) : table.grown table [] [] :=
  ⟨by simp [Hashmap.set_entries_entries], by simp, rfl, List.Sublist.refl _⟩

theorem SymbolTable.grown_trans {a b c : SymbolTable} {e1 i1 e2 i2 : List Symbol}
    (h1 : a.grown b e1 i1) (h2 : b.grown c e2 i2) : a.grown c (e1 ++ e2) (i1 ++ i2) := by
  obtain ⟨hh1, hs1, hn1, hsub1⟩ := h1
  obtain ⟨hh2, hs2, hn2, hsub2⟩ := h2
  refine ⟨?_, ?_, ?_, List.Sublist.append hsub1 hsub2⟩
  · rw [hh2, hh1, Hashmap.set_entries_set_entries, Hashmap.entries_set_entries,
      List.append_assoc]
  · rw [hs2, hs1, List.append_assoc]
  · rw [List.map_append, hn1, hn2, hs1, List.length_append, List.length_append,
      List.range'_append_1, Nat.add_comm i2.length]

/-- An insertion keeps the stack discipline. -/
theorem symbol_table_insert_grown (table : SymbolTable) (symbol : Symbol) :
    ∃ entered inserted, table.grown (symbol_table_insert table symbol).1 entered inserted := by
  unfold symbol_table_insert
  cases frame_lookup table.hashmap.entries symbol.name with
  | some s => exact ⟨[], [], SymbolTable.grown_refl table⟩
  | none =>
    exact ⟨[{ symbol with sequence_number := table.symbols.length }],
      [{ symbol with sequence_number := table.symbols.length }], rfl, rfl, rfl,
      List.Sublist.refl _⟩

mutual
theorem bind_statement_identifier_data_local_symbols (global : List Symbol) :
    ∀ (node : Node) (state state1 : BindState) (node1 : Node),
      bind_statement_identifier_data global state node = .ok (state1, node1) →
      state1.local_symbols = state.local_symbols
  | .mk t d s cs, state, state1, node1, h => by
    rw [bind_statement_identifier_data] at h
    by_cases h1 : t = .IDENTIFIER_DATA
    · simp only [if_pos h1] at h
      split at h
      · cases h
      · split at h
        · cases h
        · simp only [Except.ok.injEq, Prod.mk.injEq] at h
          rw [← h.1]
    · simp only [if_neg h1] at h
      by_cases h2 : t = .STRING_DATA
      · simp only [if_pos h2, Except.ok.injEq, Prod.mk.injEq] at h
        rw [← h.1]
        exact (add_string_spec state d).2.2.1
      · simp only [if_neg h2] at h
        split at h
        · cases h
        · rename_i state2 cs1 hc
          simp only [Except.ok.injEq, Prod.mk.injEq] at h
          rw [← h.1]
          exact bind_statement_identifier_data_children_local_symbols global cs state state2
            cs1 hc
theorem bind_statement_identifier_data_children_local_symbols (global : List Symbol) :
    ∀ (cs : List Node) (state state1 : BindState) (cs1 : List Node),
      bind_statement_identifier_data_children global state cs = .ok (state1, cs1) →
      state1.local_symbols = state.local_symbols
  | [], state, state1, cs1, h => by
    rw [bind_statement_identifier_data_children] at h
    simp only [Except.ok.injEq, Prod.mk.injEq] at h
    rw [← h.1]
  | c :: cs, state, state1, cs1, h => by
    rw [bind_statement_identifier_data_children] at h
    split at h
    · cases h
    · rename_i state2 c1 hc
      split at h
      · cases h
      · rename_i state3 cs2 hcs
        simp only [Except.ok.injEq, Prod.mk.injEq] at h
        rw [← h.1]
        exact (bind_statement_identifier_data_children_local_symbols global cs state2 state3
          cs2 hcs).trans
          (bind_statement_identifier_data_local_symbols global c state state2 c1 hc)
end

mutual
theorem bind_names_grown (code : NodeType → Nat) (global : List Symbol) (id : TableId) :
    ∀ (node : Node) (state state1 : BindState) (node1 : Node) (table : SymbolTable),
      bind_names code global id state node = .ok (state1, node1) →
      state.local_symbols = some table →
      ∃ table1 entered inserted,
        state1.local_symbols = some table1 ∧ table.grown table1 entered inserted
  | .mk t d s cs, state, state1, node1, table, h, ht => by
    rw [bind_names] at h
    by_cases h1 : t = .IDENTIFIER_DATA
    · simp only [if_pos h1, ht] at h
      split at h
      · cases h
      · rename_i name hd
        obtain ⟨entered, inserted, hg⟩ := symbol_table_insert_grown table
          ⟨name, .SYMBOL_LOCAL_VAR, 0, some id⟩
        rcases hins : symbol_table_insert table ⟨name, .SYMBOL_LOCAL_VAR, 0, some id⟩
          with ⟨table1, r⟩
        rw [hins] at h hg
        cases r <;>
        · simp only [Except.ok.injEq, Prod.mk.injEq] at h
          rw [← h.1]
          exact ⟨table1, entered, inserted, rfl, hg⟩
    · simp only [if_neg h1] at h
      by_cases h2 : t = .STRING_DATA
      · simp only [if_pos h2, Except.ok.injEq, Prod.mk.injEq] at h
        rw [← h.1]
        exact ⟨table, [], [], ((add_string_spec state d).2.2.1).trans ht,
          SymbolTable.grown_refl table⟩
      · simp only [if_neg h2] at h
        by_cases h3 : 6 ≤ code t ∧ code t ≤ 11
        · simp only [if_pos h3] at h
          have hl := bind_statement_identifier_data_local_symbols global _ state state1 node1 h
          exact ⟨table, [], [], hl.trans ht, SymbolTable.grown_refl table⟩
        · simp only [if_neg h3] at h
          by_cases h4 : t = .BLOCK
          · simp only [if_pos h4, ht] at h
            split at h
            · cases h
            · rename_i state2 cs1 hc
              split at h
              · cases h
              · rename_i table2 ht2
                simp only [Except.ok.injEq, Prod.mk.injEq] at h
                rw [← h.1]
                obtain ⟨table3, entered, inserted, ht3, hh, hs, hn, _⟩ :=
                  bind_names_children_grown code global id cs _ state2 cs1
                    { table with hashmap := .nested [] table.hashmap } hc rfl
                rw [ht2, Option.some.injEq] at ht3
                subst ht3
                refine ⟨_, [], inserted, rfl, ?_, hs, hn, List.nil_sublist _⟩
                rw [List.append_nil, Hashmap.set_entries_entries]
                simp only [hh, Hashmap.set_entries, Hashmap.pop]
          · simp only [if_neg h4] at h
            split at h
            · cases h
            · rename_i state2 cs1 hc
              simp only [Except.ok.injEq, Prod.mk.injEq] at h
              rw [← h.1]
              exact bind_names_children_grown code global id cs state state2 cs1 table hc ht
theorem bind_names_children_grown (code : NodeType → Nat) (global : List Symbol)
    (id : TableId) :
    ∀ (cs : List Node) (state state1 : BindState) (cs1 : List Node) (table : SymbolTable),
      bind_names_children code global id state cs = .ok (state1, cs1) →
      state.local_symbols = some table →
      ∃ table1 entered inserted,
        state1.local_symbols = some table1 ∧ table.grown table1 entered inserted
  | [], state, state1, cs1, table, h, ht => by
    rw [bind_names_children] at h
    simp only [Except.ok.injEq, Prod.mk.injEq] at h
    rw [← h.1]
    exact ⟨table, [], [], ht, SymbolTable.grown_refl table⟩
  | c :: cs, state, state1, cs1, table, h, ht => by
    rw [bind_names_children] at h
    split at h
    · cases h
    · rename_i state2 c1 hc
      split at h
      · cases h
      · rename_i state3 cs2 hcs
        simp only [Except.ok.injEq, Prod.mk.injEq] at h
        rw [← h.1]
        obtain ⟨table2, e1, i1, ht2, hg1⟩ :=
          bind_names_grown code global id c state state2 c1 table hc ht
        obtain ⟨table3, e2, i2, ht3, hg2⟩ :=
          bind_names_children_grown code global id cs state2 state3 cs2 table2 hcs ht2
        exact ⟨table3, e1 ++ e2, i1 ++ i2, ht3, SymbolTable.grown_trans hg1 hg2⟩
end

theorem bind_names_nested_blocks :
    bind_names node_type_code [] (.local_of 0) nested_blocks_state nested_blocks =
      .ok nested_blocks_bound := by
  simp only [nested_blocks, nested_blocks_state, nested_blocks_bound, plain, identifier]
  simp [bind_names, bind_names_children, node_type_code, parameter_table, first_occurrences,
    parameter_symbol, renumber, symbol_table_insert, frame_lookup, Hashmap.entries,
    Hashmap.set_entries, Hashmap.pop, Payload.as_string, symbol_hashmap_lookup,
    bind_statement_identifier_data, bind_statement_identifier_data_children]

/-! ## The transition table -/

theorem foldl_table_set_row (i value : Nat) (i1 j1 : Nat) :
    ∀ (n : Nat) (table : Nat → Nat → Nat),
      ((List.range n).foldl (fun t j => table_set t i j value) table) i1 j1 =
        if i1 = i ∧ j1 < n then value else table i1 j1 := by
  intro n
  induction n with
  | zero => intro table; simp
  | succ n ih =>
    intro table
    rw [List.range_succ, List.foldl_append, List.foldl_cons, List.foldl_nil, table_set, ih]
    by_cases h1 : i1 = i
    · by_cases h2 : j1 = n
      · simp [h1, h2]
      · by_cases h3 : j1 < n
        · simp [h1, h2, h3, Nat.lt_succ_of_lt h3]
        · have h4 : ¬ j1 < n + 1 := by omega
          simp [h1, h2, h3, h4]
    · simp [h1]

theorem fill_row_apply (table : Nat → Nat → Nat) (i i1 j1 : Nat) :
    fill_row table i i1 j1 = if i1 = i ∧ j1 < 256 then ERROR else table i1 j1 :=
  foldl_table_set_row i ERROR i1 j1 256 table

theorem foldl_fill_row (i1 j1 : Nat) :
    ∀ (n : Nat) (table : Nat → Nat → Nat),
      ((List.range n).foldl fill_row table) i1 j1 =
        if i1 < n ∧ j1 < 256 then ERROR else table i1 j1 := by
  intro n
  induction n with
  | zero => intro table; simp
  | succ n ih =>
    intro table
    rw [List.range_succ, List.foldl_append, List.foldl_cons, List.foldl_nil, fill_row_apply, ih]
    by_cases h1 : i1 = n
    · by_cases h2 : j1 < 256
      · simp [h1, h2]
      · simp [h1, h2]
    · by_cases h3 : i1 < n
      · simp [h1, h3, Nat.lt_succ_of_lt h3]
      · have h4 : ¬ i1 < n + 1 := by omega
        simp [h1, h3, h4]

theorem fill_error_apply (table : Nat → Nat → Nat) (i1 j1 : Nat) :
    fill_error table i1 j1 = if i1 < N_STATES ∧ j1 < 256 then ERROR else table i1 j1 :=
  foldl_fill_row i1 j1 N_STATES table

theorem set_digits_apply (table : Nat → Nat → Nat) (state value i1 j1 : Nat) :
    set_digits table state value i1 j1 =
      if i1 = state ∧ DIGITS_BEGINNING ≤ j1 ∧ j1 ≤ DIGITS_END then value else table i1 j1 := by
  have hr : List.range' DIGITS_BEGINNING (DIGITS_END + 1 - DIGITS_BEGINNING) =
      [48, 49, 50, 51, 52, 53, 54, 55, 56, 57] := by decide
  rw [set_digits, hr]
  simp only [List.foldl_cons, List.foldl_nil, table_set, DIGITS_BEGINNING, DIGITS_END]
  by_cases h1 : i1 = state
  · by_cases h2 : 48 ≤ j1 ∧ j1 ≤ 57
    · have h3 : j1 = 48 ∨ j1 = 49 ∨ j1 = 50 ∨ j1 = 51 ∨ j1 = 52 ∨ j1 = 53 ∨ j1 = 54 ∨
          j1 = 55 ∨ j1 = 56 ∨ j1 = 57 := by omega
      rcases h3 with h | h | h | h | h | h | h | h | h | h <;> simp [h1, h]
    · have h48 : j1 ≠ 48 := by omega
      have h49 : j1 ≠ 49 := by omega
      have h50 : j1 ≠ 50 := by omega
      have h51 : j1 ≠ 51 := by omega
      have h52 : j1 ≠ 52 := by omega
      have h53 : j1 ≠ 53 := by omega
      have h54 : j1 ≠ 54 := by omega
      have h55 : j1 ≠ 55 := by omega
      have h56 : j1 ≠ 56 := by omega
      have h57 : j1 ≠ 57 := by omega
      simp only [h2, h48, h49, h50, h51, h52, h53, h54, h55, h56, h57, and_false, if_false]
  · simp [h1]

/-- The table after initialisation, entry by entry, the last assignment first:
every entry of the array not named here is `ERROR`. -/
theorem transition_table_apply (state read : Nat) :
    transition_table state read =
      if state = 10 ∧ read = 10 then 8
      else if state = 9 ∧ read = 111 then 10
      else if state = 7 ∧ read = 10 then 8
      else if state = 7 ∧ 48 ≤ read ∧ read ≤ 57 then 7
      else if state = 6 ∧ 48 ≤ read ∧ read ≤ 57 then 7
      else if state = 5 ∧ 48 ≤ read ∧ read ≤ 57 then 5
      else if state = 5 ∧ read = 46 then 6
      else if state = 4 ∧ read = 46 then 6
      else if state = 4 ∧ 48 ≤ read ∧ read ≤ 57 then 5
      else if state = 4 ∧ read = 45 then 5
      else if state = 3 ∧ read = 61 then 4
      else if state = 2 ∧ read = 61 then 4
      else if state = 1 ∧ read = 121 then 3
      else if state = 1 ∧ read = 120 then 2
      else if state = 0 ∧ read = 103 then 9
      else if state = 0 ∧ read = 100 then 1
      else if state < 12 ∧ read < 256 then 11 else 0 := by
  unfold transition_table initialize_transition_table
  simp only [table_set, set_digits_apply, fill_error_apply]
  simp only [Char.reduceToNat]
  rfl

theorem ite_lt_of {c : Prop} [Decidable c] {a b n : Nat} (ha : a < n) (hb : b < n) :
    (if c then a else b) < n := by
  split <;> assumption

/-- Every entry of the table is a state. -/
theorem transition_table_lt (state read : Nat) : transition_table state read < N_STATES := by
  rw [transition_table_apply, N_STATES]
  iterate 17 (refine ite_lt_of (by omega) ?_)
  omega

theorem run_cons (state read : Nat) (rest : List Nat) (hs : state < N_STATES)
    (hr : read < 256) :
    run state (read :: rest) = run (transition_table state read) rest := by
  rw [run, transition, if_pos ⟨hs, hr⟩]

theorem run_cons_out_of_range (state read : Nat) (rest : List Nat) (hr : ¬ read < 256) :
    run state (read :: rest) = .error .index_out_of_bounds := by
  rw [run, transition, if_neg (fun h => hr h.2)]

/-- The state `ERROR` is never left. -/
theorem run_error : ∀ (bytes : List Nat),
    run ERROR bytes = .ok ERROR ∨ run ERROR bytes = .error .index_out_of_bounds
  | [] => Or.inl rfl
  | b :: rest => by
    by_cases hr : b < 256
    · rw [run_cons ERROR b rest (by decide) hr]
      have h : transition_table ERROR b = ERROR := by
        rw [transition_table_apply, ERROR]
        simp [hr]
      rw [h]
      exact run_error rest
    · exact Or.inr (run_cons_out_of_range ERROR b rest hr)

theorem run_error_ne_accept (bytes : List Nat) : run ERROR bytes ≠ .ok ACCEPT := by
  rcases run_error bytes with h | h <;> rw [h] <;> simp [ACCEPT, ERROR]

/-- From `ACCEPT` every byte leads to `ERROR`. -/
theorem run_accept (bytes : List Nat) : run ACCEPT bytes = .ok ACCEPT ↔ bytes = [] := by
  cases bytes with
  | nil => simp [run]
  | cons b rest =>
    simp only [reduceCtorEq, iff_false]
    by_cases hr : b < 256
    · rw [run_cons ACCEPT b rest (by decide) hr]
      have h : transition_table ACCEPT b = ERROR := by
        rw [transition_table_apply, ACCEPT, ERROR]
        simp [hr]
      rw [h]
      exact run_error_ne_accept rest
    · rw [run_cons_out_of_range ACCEPT b rest hr]
      simp

/-- One step towards `ACCEPT`: the byte is in range and the rest of the bytes
leads from the next state to `ACCEPT`. -/
theorem run_cons_accept (state read : Nat) (rest : List Nat) (hs : state < N_STATES) :
    run state (read :: rest) = .ok ACCEPT ↔
      read < 256 ∧ run (transition_table state read) rest = .ok ACCEPT := by
  by_cases hr : read < 256
  · rw [run_cons state read rest hs hr]
    simp [hr]
  · rw [run_cons_out_of_range state read rest hr]
    simp [hr]

theorem run_10 (bytes : List Nat) : run 10 bytes = .ok ACCEPT ↔ bytes = [10] := by
  cases bytes with
  | nil => simp [run, ACCEPT]
  | cons b rest =>
    rw [run_cons_accept 10 b rest (by decide), transition_table_apply]
    by_cases hb : b = 10
    · subst hb
      simp only [and_self, if_true, Nat.reduceLT, true_and]
      rw [← ACCEPT, run_accept]
      simp
    · simp only [hb, and_false, if_false, Nat.reduceEqDiff, false_and, List.cons.injEq,
        false_and, iff_false, not_and]
      intro hr
      simp only [hr, Nat.reduceLT, and_self, if_true]
      exact run_error_ne_accept rest

theorem transition_table_0 (b : Nat) (hb : b < 256) :
    transition_table 0 b = if b = 103 then 9 else if b = 100 then 1 else 11 := by
  rw [transition_table_apply]
  simp [hb]

theorem transition_table_1 (b : Nat) (hb : b < 256) :
    transition_table 1 b = if b = 121 then 3 else if b = 120 then 2 else 11 := by
  rw [transition_table_apply]
  simp [hb]

theorem transition_table_2 (b : Nat) (hb : b < 256) :
    transition_table 2 b = if b = 61 then 4 else 11 := by
  rw [transition_table_apply]
  simp [hb]

theorem transition_table_3 (b : Nat) (hb : b < 256) :
    transition_table 3 b = if b = 61 then 4 else 11 := by
  rw [transition_table_apply]
  simp [hb]

theorem transition_table_4 (b : Nat) (hb : b < 256) :
    transition_table 4 b =
      if b = 46 then 6 else if 48 ≤ b ∧ b ≤ 57 then 5 else if b = 45 then 5 else 11 := by
  rw [transition_table_apply]
  simp [hb]

theorem transition_table_5 (b : Nat) (hb : b < 256) :
    transition_table 5 b = if 48 ≤ b ∧ b ≤ 57 then 5 else if b = 46 then 6 else 11 := by
  rw [transition_table_apply]
  simp [hb]

theorem transition_table_6 (b : Nat) (hb : b < 256) :
    transition_table 6 b = if 48 ≤ b ∧ b ≤ 57 then 7 else 11 := by
  rw [transition_table_apply]
  simp [hb]

theorem transition_table_7 (b : Nat) (hb : b < 256) :
    transition_table 7 b = if b = 10 then 8 else if 48 ≤ b ∧ b ≤ 57 then 7 else 11 := by
  rw [transition_table_apply]
  simp [hb]

theorem transition_table_9 (b : Nat) (hb : b < 256) :
    transition_table 9 b = if b = 111 then 10 else 11 := by
  rw [transition_table_apply]
  simp [hb]

theorem is_digit_iff (b : Nat) : is_digit b ↔ 48 ≤ b ∧ b ≤ 57 := Iff.rfl

theorem run_7_cons (b : Nat) (rest : List Nat) :
    run 7 (b :: rest) = .ok ACCEPT ↔
      (b = 10 ∧ rest = []) ∨ (is_digit b ∧ run 7 rest = .ok ACCEPT) := by
  rw [run_cons_accept 7 b rest (by decide), is_digit_iff]
  constructor
  · rintro ⟨hb, h⟩
    rw [transition_table_7 b hb] at h
    by_cases h1 : b = 10
    · rw [if_pos h1, ← ACCEPT, run_accept] at h
      exact Or.inl ⟨h1, h⟩
    · rw [if_neg h1] at h
      by_cases h2 : 48 ≤ b ∧ b ≤ 57
      · rw [if_pos h2] at h
        exact Or.inr ⟨h2, h⟩
      · rw [if_neg h2] at h
        exact absurd h (run_error_ne_accept rest)
  · rintro (⟨rfl, rfl⟩ | ⟨hd, h⟩)
    · exact ⟨by omega, rfl⟩
    · have hb : b < 256 := by omega
      refine ⟨hb, ?_⟩
      rw [transition_table_7 b hb, if_neg (by omega), if_pos hd]
      exact h

theorem run_7 : ∀ (bytes : List Nat),
    run 7 bytes = .ok ACCEPT ↔
      ∃ digits, (∀ b ∈ digits, is_digit b) ∧ bytes = digits ++ [10]
  | [] => by simp [run, ACCEPT]
  | b :: rest => by
    rw [run_7_cons, run_7 rest]
    constructor
    · rintro (⟨rfl, rfl⟩ | ⟨hd, digits, hds, rfl⟩)
      · exact ⟨[], by simp, rfl⟩
      · refine ⟨b :: digits, ?_, rfl⟩
        intro x hx
        rcases List.mem_cons.mp hx with rfl | hx
        · exact hd
        · exact hds x hx
    · rintro ⟨digits, hds, h⟩
      cases digits with
      | nil =>
        simp only [List.nil_append, List.cons.injEq] at h
        exact Or.inl h
      | cons d ds =>
        simp only [List.cons_append, List.cons.injEq] at h
        obtain ⟨rfl, rfl⟩ := h
        exact Or.inr ⟨hds b (List.mem_cons_self _ _), ds,
          fun x hx => hds x (List.mem_cons_of_mem _ hx), rfl⟩

theorem run_6 (bytes : List Nat) :
    run 6 bytes = .ok ACCEPT ↔
      ∃ fraction, fraction ≠ [] ∧ (∀ b ∈ fraction, is_digit b) ∧ bytes = fraction ++ [10] := by
  cases bytes with
  | nil =>
    simp only [run, ACCEPT, Except.ok.injEq, Nat.reduceEqDiff, false_iff, not_exists, not_and]
    intro fraction _ _ h
    cases fraction <;> simp at h
  | cons b rest =>
    rw [run_cons_accept 6 b rest (by decide)]
    constructor
    · rintro ⟨hb, h⟩
      rw [transition_table_6 b hb] at h
      by_cases h2 : 48 ≤ b ∧ b ≤ 57
      · rw [if_pos h2, run_7] at h
        obtain ⟨digits, hds, rfl⟩ := h
        refine ⟨b :: digits, by simp, ?_, rfl⟩
        intro x hx
        rcases List.mem_cons.mp hx with rfl | hx
        · exact h2
        · exact hds x hx
      · rw [if_neg h2] at h
        exact absurd h (run_error_ne_accept rest)
    · rintro ⟨fraction, hne, hfs, h⟩
      cases fraction with
      | nil => exact absurd rfl hne
      | cons d ds =>
        simp only [List.cons_append, List.cons.injEq] at h
        obtain ⟨rfl, rfl⟩ := h
        have hd : 48 ≤ b ∧ b ≤ 57 := hfs b (List.mem_cons_self _ _)
        have hb : b < 256 := by omega
        refine ⟨hb, ?_⟩
        rw [transition_table_6 b hb, if_pos hd, run_7]
        exact ⟨ds, fun x hx => hfs x (List.mem_cons_of_mem _ hx), rfl⟩

theorem run_5 : ∀ (bytes : List Nat),
    run 5 bytes = .ok ACCEPT ↔
      ∃ digits fraction, (∀ b ∈ digits, is_digit b) ∧ fraction ≠ [] ∧
        (∀ b ∈ fraction, is_digit b) ∧ bytes = digits ++ [46] ++ fraction ++ [10]
  | [] => by
    simp only [run, ACCEPT, Except.ok.injEq, Nat.reduceEqDiff, false_iff, not_exists, not_and]
    intro digits fraction _ _ _ h
    cases digits <;> simp at h
  | b :: rest => by
    rw [run_cons_accept 5 b rest (by decide)]
    constructor
    · rintro ⟨hb, h⟩
      rw [transition_table_5 b hb] at h
      by_cases h2 : 48 ≤ b ∧ b ≤ 57
      · rw [if_pos h2, run_5 rest] at h
        obtain ⟨digits, fraction, hds, hne, hfs, rfl⟩ := h
        refine ⟨b :: digits, fraction, ?_, hne, hfs, by simp⟩
        intro x hx
        rcases List.mem_cons.mp hx with rfl | hx
        · exact h2
        · exact hds x hx
      · rw [if_neg h2] at h
        by_cases h3 : b = 46
        · rw [if_pos h3, run_6] at h
          obtain ⟨fraction, hne, hfs, rfl⟩ := h
          exact ⟨[], fraction, by simp, hne, hfs, by simp [h3]⟩
        · rw [if_neg h3] at h
          exact absurd h (run_error_ne_accept rest)
    · rintro ⟨digits, fraction, hds, hne, hfs, h⟩
      cases digits with
      | nil =>
        simp only [List.nil_append, List.cons_append, List.cons.injEq] at h
        obtain ⟨rfl, rfl⟩ := h
        refine ⟨by omega, ?_⟩
        rw [transition_table_5 46 (by omega), if_neg (by omega), if_pos rfl, run_6]
        exact ⟨fraction, hne, hfs, rfl⟩
      | cons d ds =>
        simp only [List.cons_append, List.cons.injEq] at h
        obtain ⟨rfl, rfl⟩ := h
        have hd : 48 ≤ b ∧ b ≤ 57 := hds b (List.mem_cons_self _ _)
        have hb : b < 256 := by omega
        refine ⟨hb, ?_⟩
        rw [transition_table_5 b hb, if_pos hd, run_5]
        exact ⟨ds, fraction, fun x hx => hds x (List.mem_cons_of_mem _ hx), hne, hfs, by simp⟩

theorem run_4 (bytes : List Nat) :
    run 4 bytes = .ok ACCEPT ↔
      ∃ sign digits fraction, (sign = [] ∨ sign = [45]) ∧ (∀ b ∈ digits, is_digit b) ∧
        fraction ≠ [] ∧ (∀ b ∈ fraction, is_digit b) ∧
        bytes = sign ++ digits ++ [46] ++ fraction ++ [10] := by
  cases bytes with
  | nil =>
    simp only [run, ACCEPT, Except.ok.injEq, Nat.reduceEqDiff, false_iff, not_exists, not_and]
    intro sign digits fraction hs _ _ _ h
    rcases hs with rfl | rfl <;> cases digits <;> simp at h
  | cons b rest =>
    rw [run_cons_accept 4 b rest (by decide)]
    constructor
    · rintro ⟨hb, h⟩
      rw [transition_table_4 b hb] at h
      by_cases h1 : b = 46
      · rw [if_pos h1, run_6] at h
        obtain ⟨fraction, hne, hfs, rfl⟩ := h
        exact ⟨[], [], fraction, Or.inl rfl, by simp, hne, hfs, by simp [h1]⟩
      · rw [if_neg h1] at h
        by_cases h2 : 48 ≤ b ∧ b ≤ 57
        · rw [if_pos h2, run_5] at h
          obtain ⟨digits, fraction, hds, hne, hfs, rfl⟩ := h
          refine ⟨[], b :: digits, fraction, Or.inl rfl, ?_, hne, hfs, by simp⟩
          intro x hx
          rcases List.mem_cons.mp hx with rfl | hx
          · exact h2
          · exact hds x hx
        · rw [if_neg h2] at h
          by_cases h3 : b = 45
          · rw [if_pos h3, run_5] at h
            obtain ⟨digits, fraction, hds, hne, hfs, rfl⟩ := h
            exact ⟨[45], digits, fraction, Or.inr rfl, hds, hne, hfs, by simp [h3]⟩
          · rw [if_neg h3] at h
            exact absurd h (run_error_ne_accept rest)
    · rintro ⟨sign, digits, fraction, hs, hds, hne, hfs, h⟩
      rcases hs with rfl | rfl
      · cases digits with
        | nil =>
          simp only [List.nil_append, List.cons_append, List.cons.injEq] at h
          obtain ⟨rfl, rfl⟩ := h
          refine ⟨by omega, ?_⟩
          rw [transition_table_4 46 (by omega), if_pos rfl, run_6]
          exact ⟨fraction, hne, hfs, rfl⟩
        | cons d ds =>
          simp only [List.nil_append, List.cons_append, List.cons.injEq] at h
          obtain ⟨rfl, rfl⟩ := h
          have hd : 48 ≤ b ∧ b ≤ 57 := hds b (List.mem_cons_self _ _)
          have hb : b < 256 := by omega
          refine ⟨hb, ?_⟩
          rw [transition_table_4 b hb, if_neg (by omega), if_pos hd, run_5]
          exact ⟨ds, fraction, fun x hx => hds x (List.mem_cons_of_mem _ hx), hne, hfs,
            by simp⟩
      · simp only [List.cons_append, List.nil_append, List.cons.injEq] at h
        obtain ⟨rfl, rfl⟩ := h
        refine ⟨by omega, ?_⟩
        rw [transition_table_4 45 (by omega), if_neg (by omega), if_neg (by omega), if_pos rfl,
          run_5]
        exact ⟨digits, fraction, hds, hne, hfs, by simp⟩

theorem run_2 (bytes : List Nat) :
    run 2 bytes = .ok ACCEPT ↔ ∃ rest, bytes = 61 :: rest ∧ run 4 rest = .ok ACCEPT := by
  cases bytes with
  | nil => simp [run, ACCEPT]
  | cons b rest =>
    rw [run_cons_accept 2 b rest (by decide)]
    constructor
    · rintro ⟨hb, h⟩
      rw [transition_table_2 b hb] at h
      by_cases h1 : b = 61
      · rw [if_pos h1] at h
        exact ⟨rest, by rw [h1], h⟩
      · rw [if_neg h1] at h
        exact absurd h (run_error_ne_accept rest)
    · rintro ⟨rest1, h, hr⟩
      simp only [List.cons.injEq] at h
      obtain ⟨rfl, rfl⟩ := h
      refine ⟨by omega, ?_⟩
      rw [transition_table_2 61 (by omega), if_pos rfl]
      exact hr

theorem run_3 (bytes : List Nat) :
    run 3 bytes = .ok ACCEPT ↔ ∃ rest, bytes = 61 :: rest ∧ run 4 rest = .ok ACCEPT := by
  cases bytes with
  | nil => simp [run, ACCEPT]
  | cons b rest =>
    rw [run_cons_accept 3 b rest (by decide)]
    constructor
    · rintro ⟨hb, h⟩
      rw [transition_table_3 b hb] at h
      by_cases h1 : b = 61
      · rw [if_pos h1] at h
        exact ⟨rest, by rw [h1], h⟩
      · rw [if_neg h1] at h
        exact absurd h (run_error_ne_accept rest)
    · rintro ⟨rest1, h, hr⟩
      simp only [List.cons.injEq] at h
      obtain ⟨rfl, rfl⟩ := h
      refine ⟨by omega, ?_⟩
      rw [transition_table_3 61 (by omega), if_pos rfl]
      exact hr

theorem run_1 (bytes : List Nat) :
    run 1 bytes = .ok ACCEPT ↔
      ∃ axis rest, (axis = 120 ∨ axis = 121) ∧ bytes = axis :: 61 :: rest ∧
        run 4 rest = .ok ACCEPT := by
  cases bytes with
  | nil => simp [run, ACCEPT]
  | cons b rest =>
    rw [run_cons_accept 1 b rest (by decide)]
    constructor
    · rintro ⟨hb, h⟩
      rw [transition_table_1 b hb] at h
      by_cases h1 : b = 121
      · rw [if_pos h1, run_3] at h
        obtain ⟨rest1, rfl, hr⟩ := h
        exact ⟨b, rest1, Or.inr h1, rfl, hr⟩
      · rw [if_neg h1] at h
        by_cases h2 : b = 120
        · rw [if_pos h2, run_2] at h
          obtain ⟨rest1, rfl, hr⟩ := h
          exact ⟨b, rest1, Or.inl h2, rfl, hr⟩
        · rw [if_neg h2] at h
          exact absurd h (run_error_ne_accept rest)
    · rintro ⟨axis, rest1, ha, h, hr⟩
      simp only [List.cons.injEq] at h
      obtain ⟨rfl, rfl⟩ := h
      rcases ha with rfl | rfl
      · refine ⟨by omega, ?_⟩
        rw [transition_table_1 120 (by omega), if_neg (by omega), if_pos rfl, run_2]
        exact ⟨rest1, rfl, hr⟩
      · refine ⟨by omega, ?_⟩
        rw [transition_table_1 121 (by omega), if_pos rfl, run_3]
        exact ⟨rest1, rfl, hr⟩

theorem run_9 (bytes : List Nat) : run 9 bytes = .ok ACCEPT ↔ bytes = [111, 10] := by
  cases bytes with
  | nil => simp [run, ACCEPT]
  | cons b rest =>
    rw [run_cons_accept 9 b rest (by decide)]
    constructor
    · rintro ⟨hb, h⟩
      rw [transition_table_9 b hb] at h
      by_cases h1 : b = 111
      · rw [if_pos h1, run_10] at h
        rw [h1, h]
      · rw [if_neg h1] at h
        exact absurd h (run_error_ne_accept rest)
    · intro h
      simp only [List.cons.injEq] at h
      obtain ⟨rfl, rfl⟩ := h
      refine ⟨by omega, ?_⟩
      rw [transition_table_9 111 (by omega), if_pos rfl, run_10]

theorem run_0 (bytes : List Nat) :
    run 0 bytes = .ok ACCEPT ↔
      bytes = [103, 111, 10] ∨
      ∃ axis rest, (axis = 120 ∨ axis = 121) ∧ bytes = 100 :: axis :: 61 :: rest ∧
        run 4 rest = .ok ACCEPT := by
  cases bytes with
  | nil => simp [run, ACCEPT]
  | cons b rest =>
    rw [run_cons_accept 0 b rest (by decide)]
    constructor
    · rintro ⟨hb, h⟩
      rw [transition_table_0 b hb] at h
      by_cases h1 : b = 103
      · rw [if_pos h1, run_9] at h
        exact Or.inl (by rw [h1, h])
      · rw [if_neg h1] at h
        by_cases h2 : b = 100
        · rw [if_pos h2, run_1] at h
          obtain ⟨axis, rest1, ha, rfl, hr⟩ := h
          exact Or.inr ⟨axis, rest1, ha, by rw [h2], hr⟩
        · rw [if_neg h2] at h
          exact absurd h (run_error_ne_accept rest)
    · rintro (h | ⟨axis, rest1, ha, h, hr⟩)
      · simp only [List.cons.injEq] at h
        obtain ⟨rfl, rfl⟩ := h
        refine ⟨by omega, ?_⟩
        rw [transition_table_0 103 (by omega), if_pos rfl, run_9]
      · simp only [List.cons.injEq] at h
        obtain ⟨rfl, rfl⟩ := h
        refine ⟨by omega, ?_⟩
        rw [transition_table_0 100 (by omega), if_neg (by omega), if_pos rfl, run_1]
        exact ⟨axis, rest1, ha, rfl, hr⟩

/-- The automaton reaches `ACCEPT` from the start state exactly on the
statements of the language. -/
theorem run_accept_iff (bytes : List Nat) :
    run START_STATE bytes = .ok ACCEPT ↔ statement_language bytes := by
  have hgo : literal_bytes "go\n" = [103, 111, 10] := by decide
  rw [START_STATE, run_0, statement_language, hgo]
  simp only [Char.reduceToNat]
  constructor
  · rintro (h | ⟨axis, rest, ha, rfl, hr⟩)
    · exact Or.inl h
    · rw [run_4] at hr
      obtain ⟨sign, digits, fraction, hs, hds, hne, hfs, rfl⟩ := hr
      exact Or.inr ⟨axis, sign, digits, fraction, ha, hs, hds, hne, hfs, by simp⟩
  · rintro (h | ⟨axis, sign, digits, fraction, ha, hs, hds, hne, hfs, rfl⟩)
    · exact Or.inl h
    · refine Or.inr ⟨axis, sign ++ digits ++ [46] ++ fraction ++ [10], ha, by simp, ?_⟩
      rw [run_4]
      exact ⟨sign, digits, fraction, hs, hds, hne, hfs, rfl⟩

/-! ## The statement buffer and `handle_statement` -/

theorem run_append : ∀ (a b : List Nat) (state : Nat),
    run state (a ++ b) =
      match run state a with
      | .error e => .error e
      | .ok next => run next b
  | [], b, state => rfl
  | x :: a, b, state => by
    rw [List.cons_append, run, run]
    cases transition state x with
    | error e => rfl
    | ok next => exact run_append a b next

/-- A run from a state of the table on bytes in range ends in a state of the
table. -/
theorem run_total : ∀ (bytes : List Nat) (state : Nat), state < N_STATES →
    (∀ b ∈ bytes, b < 256) → ∃ last, run state bytes = .ok last ∧ last < N_STATES
  | [], state, hs, _ => ⟨state, rfl, hs⟩
  | b :: rest, state, hs, hb => by
    rw [run_cons state b rest hs (hb b (List.mem_cons_self _ _))]
    exact run_total rest _ (transition_table_lt state b)
      (fun x hx => hb x (List.mem_cons_of_mem _ hx))

/-- A string that reaches `ACCEPT` on its last byte has not been in `ACCEPT` or
`ERROR` before. -/
theorem run_accept_prefix (bytes p : List Nat) (h : run START_STATE bytes = .ok ACCEPT)
    (hp : p <+: bytes) (hne : p ≠ bytes) :
    run START_STATE p ≠ .ok ACCEPT ∧ run START_STATE p ≠ .ok ERROR := by
  obtain ⟨q, rfl⟩ := hp
  have hq : q ≠ [] := by
    rintro rfl
    exact hne (List.append_nil p).symm
  rw [run_append] at h
  constructor
  · intro h1
    rw [h1] at h
    exact hq ((run_accept q).mp h)
  · intro h1
    rw [h1] at h
    exact run_error_ne_accept q h

/-- C23: the automaton of `initialize_transition_table` recognises exactly the
statement language. A byte string leads from `START_STATE` to `ACCEPT` on its
last byte, without a visit to `ACCEPT` or `ERROR` before, if and only if it is
`go` and a newline, or `d`, `x` or `y`, `=`, an optional `-`, zero or more
digits, `.`, one or more digits and a newline; every other string of bytes
ends in a state that is not `ACCEPT`. -/
theorem transition_table_language (bytes : List Nat) :
    ((run START_STATE bytes = .ok ACCEPT ∧
      ∀ p, p <+: bytes → p ≠ bytes →
        run START_STATE p ≠ .ok ACCEPT ∧ run START_STATE p ≠ .ok ERROR) ↔
      statement_language bytes) ∧
    ((∀ b ∈ bytes, b < 256) → ¬ statement_language bytes →
      ∃ last, run START_STATE bytes = .ok last ∧ last < N_STATES ∧ last ≠ ACCEPT) := by
  refine ⟨⟨fun h => (run_accept_iff bytes).mp h.1, fun h => ?_⟩, ?_⟩
  · have hr := (run_accept_iff bytes).mpr h
    exact ⟨hr, fun p hp hne => run_accept_prefix bytes p hr hp hne⟩
  · intro hb hn
    obtain ⟨last, hl, hlt⟩ := run_total bytes START_STATE (by decide) hb
    refine ⟨last, hl, hlt, ?_⟩
    rintro rfl
    exact hn ((run_accept_iff bytes).mp hl)

/-- C23, instances: `dx=-1.5` and a newline is a statement and is accepted on
its last byte; `go` without the newline is none, and the automaton stops in a
state that is not `ACCEPT`. -/
theorem transition_table_language_witness :
    (run START_STATE (literal_bytes "dx=-1.5\n") = .ok ACCEPT ∧
      ∀ p, p <+: literal_bytes "dx=-1.5\n" → p ≠ literal_bytes "dx=-1.5\n" →
        run START_STATE p ≠ .ok ACCEPT ∧ run START_STATE p ≠ .ok ERROR) ∧
    ∃ last, run START_STATE (literal_bytes "go") = .ok last ∧ last < N_STATES ∧
      last ≠ ACCEPT :=
  ⟨(transition_table_language (literal_bytes "dx=-1.5\n")).1.mpr
     (Or.inr ⟨120, [45], [49], [53], Or.inl rfl, Or.inr rfl, by decide, by decide, by decide,
       by decide⟩),
   (transition_table_language (literal_bytes "go")).2 (by decide)
     (by simp [statement_language, literal_bytes])⟩

/-! ## The driver loop -/

theorem symbol_table_insert_accepted (table : SymbolTable) (name : String) (id : TableId) :
    (symbol_table_insert table ⟨name, .SYMBOL_LOCAL_VAR, 0, some id⟩).1 =
      if name ∈ table.hashmap.entries.map Symbol.name then table
      else
        { symbols := table.symbols ++ [⟨name, .SYMBOL_LOCAL_VAR, table.symbols.length, some id⟩],
          hashmap := table.hashmap.set_entries (table.hashmap.entries ++
            [⟨name, .SYMBOL_LOCAL_VAR, table.symbols.length, some id⟩]) } := by
  by_cases h : name ∈ table.hashmap.entries.map Symbol.name
  · rw [if_pos h, symbol_table_insert_present h]
  · rw [if_neg h, symbol_table_insert_fresh h]

mutual
theorem bind_names_accepted (code : NodeType → Nat) (global : List Symbol) (id : TableId) :
    ∀ (node : Node) (state state1 : BindState) (node1 : Node) (table : SymbolTable),
      bind_names code global id state node = .ok (state1, node1) →
      state.local_symbols = some table →
      state1.local_symbols = some
        { symbols := table.symbols ++
            (accepted_declarations code id table.hashmap.entries table.symbols.length node).1,
          hashmap := table.hashmap.set_entries
            (accepted_declarations code id table.hashmap.entries table.symbols.length node).2 }
  | .mk t d s cs, state, state1, node1, table, h, ht => by
    rw [bind_names] at h
    rw [accepted_declarations]
    by_cases h1 : t = .IDENTIFIER_DATA
    · simp only [if_pos h1, ht] at h ⊢
      split at h
      · cases h
      · rename_i name hd
        have hins := symbol_table_insert_accepted table name id
        rcases hi : symbol_table_insert table ⟨name, .SYMBOL_LOCAL_VAR, 0, some id⟩
          with ⟨table1, r⟩
        rw [hi] at h hins
        simp only at hins
        have hs : state1.local_symbols = some table1 := by
          cases r <;>
          · simp only [Except.ok.injEq, Prod.mk.injEq] at h
            rw [← h.1]
        rw [hs, hins]
        by_cases hm : name ∈ table.hashmap.entries.map Symbol.name
        · simp only [if_pos hm, List.append_nil, Hashmap.set_entries_entries]
        · simp only [if_neg hm]
    · simp only [if_neg h1] at h ⊢
      by_cases h2 : t = .STRING_DATA
      · simp only [if_pos h2, Except.ok.injEq, Prod.mk.injEq] at h ⊢
        rw [← h.1, (add_string_spec state d).2.2.1, ht]
        simp only [List.append_nil, Hashmap.set_entries_entries]
      · simp only [if_neg h2] at h ⊢
        by_cases h3 : 6 ≤ code t ∧ code t ≤ 11
        · simp only [if_pos h3] at h ⊢
          have hl := bind_statement_identifier_data_local_symbols global _ state state1 node1 h
          rw [hl, ht]
          simp only [List.append_nil, Hashmap.set_entries_entries]
        · simp only [if_neg h3] at h ⊢
          by_cases h4 : t = .BLOCK
          · simp only [if_pos h4, ht] at h ⊢
            split at h
            · cases h
            · rename_i state2 cs1 hc
              split at h
              · cases h
              · rename_i table2 ht2
                simp only [Except.ok.injEq, Prod.mk.injEq] at h
                rw [← h.1]
                have hch := bind_names_children_accepted code global id cs _ state2 cs1
                  { table with hashmap := .nested [] table.hashmap } hc rfl
                rw [ht2, Option.some.injEq] at hch
                subst hch
                simp only [Hashmap.set_entries_entries]
                simp only [Hashmap.set_entries, Hashmap.pop, Hashmap.entries]
          · simp only [if_neg h4] at h ⊢
            split at h
            · cases h
            · rename_i state2 cs1 hc
              simp only [Except.ok.injEq, Prod.mk.injEq] at h
              rw [← h.1]
              exact bind_names_children_accepted code global id cs state state2 cs1 table hc ht
theorem bind_names_children_accepted (code : NodeType → Nat) (global : List Symbol)
    (id : TableId) :
    ∀ (cs : List Node) (state state1 : BindState) (cs1 : List Node) (table : SymbolTable),
      bind_names_children code global id state cs = .ok (state1, cs1) →
      state.local_symbols = some table →
      state1.local_symbols = some
        { symbols := table.symbols ++
            (accepted_declarations_children code id table.hashmap.entries table.symbols.length
              cs).1,
          hashmap := table.hashmap.set_entries
            (accepted_declarations_children code id table.hashmap.entries table.symbols.length
              cs).2 }
  | [], state, state1, cs1, table, h, ht => by
    rw [bind_names_children] at h
    simp only [Except.ok.injEq, Prod.mk.injEq] at h
    rw [← h.1, ht, accepted_declarations_children]
    simp only [List.append_nil, Hashmap.set_entries_entries]
  | c :: cs, state, state1, cs1, table, h, ht => by
    rw [bind_names_children] at h
    split at h
    · cases h
    · rename_i state2 c1 hc
      split at h
      · cases h
      · rename_i state3 cs2 hcs
        simp only [Except.ok.injEq, Prod.mk.injEq] at h
        rw [← h.1]
        have h1 := bind_names_accepted code global id c state state2 c1 table hc ht
        have h2 := bind_names_children_accepted code global id cs state2 state3 cs2 _ hcs h1
        rw [h2, accepted_declarations_children]
        simp only [Hashmap.entries_set_entries, Hashmap.set_entries_set_entries,
          List.length_append, List.append_assoc]
end

/-- C21: when `bind_names` returns, the table it worked on has the current
frame it had before the call, with the same chain of backup frames; the frame
holds the entries it had, followed by those the call entered in it (none when
the node is a `BLOCK`: what a block declares goes to the frame pushed for it,
which is popped before the call returns). The symbol sequence is the former
one followed by the symbols inserted during the call, each with the sequence
number of its position; the symbols entered in the current frame are among
them. The inserted symbols are exactly the declarations that the tree makes
the call accept (`accepted_declarations`), those accepted while a frame pushed
for a block was current included: the pop of a frame takes no symbol out of
the sequence. -/
theorem bind_names_stack_discipline (code : NodeType → Nat) (global : List Symbol)
    (id : TableId) (node : Node) (state state1 : BindState) (node1 : Node) (table : SymbolTable)
    (h : bind_names code global id state node = .ok (state1, node1))
    (ht : state.local_symbols = some table) :
    ∃ table1 entered inserted,
      state1.local_symbols = some table1 ∧
      table1.hashmap = table.hashmap.set_entries (table.hashmap.entries ++ entered) ∧
      table1.symbols = table.symbols ++ inserted ∧
      inserted.map Symbol.sequence_number = List.range' table.symbols.length inserted.length ∧
      entered.Sublist inserted ∧
      (node.type = .BLOCK → table1.hashmap = table.hashmap) ∧
      inserted =
        (accepted_declarations code id table.hashmap.entries table.symbols.length node).1 ∧
      table.hashmap.entries ++ entered =
        (accepted_declarations code id table.hashmap.entries table.symbols.length node).2 := by
  obtain ⟨table1, entered, inserted, ht1, hh, hs, hn, hsub⟩ :=
    bind_names_grown code global id node state state1 node1 table h ht
  have hacc := bind_names_accepted code global id node state state1 node1 table h ht
  rw [ht1, Option.some.injEq] at hacc
  have hins : inserted =
      (accepted_declarations code id table.hashmap.entries table.symbols.length node).1 := by
    have := congrArg SymbolTable.symbols hacc
    rw [hs] at this
    exact List.append_cancel_left this
  have hent : table.hashmap.entries ++ entered =
      (accepted_declarations code id table.hashmap.entries table.symbols.length node).2 := by
    have := congrArg (fun t => t.hashmap.entries) hacc
    simp only [hh, Hashmap.entries_set_entries] at this
    exact this
  refine ⟨table1, entered, inserted, ht1, hh, hs, hn, hsub, ?_, hins, hent⟩
  intro hb
  obtain ⟨t, d, s, cs⟩ := node
  simp only [Node.type_mk] at hb
  subst hb
  rw [hh, hent, accepted_declarations, if_neg (by decide), if_neg (by decide)]
  by_cases h3 : 6 ≤ code .BLOCK ∧ code .BLOCK ≤ 11
  · simp only [if_pos h3, Hashmap.set_entries_entries]
  · simp only [if_neg h3, if_true, Hashmap.set_entries_entries]

/-- C21, instance: binding `begin var y  begin var z  z := y end  y := x end`
in the table of a function with the parameter `x` leaves the frame of the
parameters current, with `x` as its only entry, and the symbols `x`, `y`, `z`
numbered 0, 1, 2: `z`, inserted while the frame of the inner block was
current, and `y`, inserted in the frame of the outer block, are still held
after both frames are popped. -/
theorem bind_names_stack_discipline_witness :
    bind_names node_type_code [] (.local_of 0) nested_blocks_state nested_blocks =
      .ok nested_blocks_bound ∧
    ∃ table1 entered inserted,
      nested_blocks_bound.1.local_symbols = some table1 ∧
      table1.hashmap = (parameter_table 0 ["x"]).hashmap.set_entries
        ((parameter_table 0 ["x"]).hashmap.entries ++ entered) ∧
      table1.symbols = (parameter_table 0 ["x"]).symbols ++ inserted ∧
      inserted.map Symbol.sequence_number =
        List.range' (parameter_table 0 ["x"]).symbols.length inserted.length ∧
      entered.Sublist inserted ∧
      (nested_blocks.type = .BLOCK → table1.hashmap = (parameter_table 0 ["x"]).hashmap) ∧
      inserted =
        (accepted_declarations node_type_code (.local_of 0)
          (parameter_table 0 ["x"]).hashmap.entries (parameter_table 0 ["x"]).symbols.length
          nested_blocks).1 ∧
      (parameter_table 0 ["x"]).hashmap.entries ++ entered =
        (accepted_declarations node_type_code (.local_of 0)
          (parameter_table 0 ["x"]).hashmap.entries (parameter_table 0 ["x"]).symbols.length
          nested_blocks).2 :=
  ⟨bind_names_nested_blocks,
   bind_names_stack_discipline node_type_code [] (.local_of 0) nested_blocks nested_blocks_state
     nested_blocks_bound.1 nested_blocks_bound.2 (parameter_table 0 ["x"])
     bind_names_nested_blocks rfl⟩

/-- The declarations accepted in `begin var y  begin var z  z := y end  y := x end`
under the parameter `x`: `y` and `z`, numbered 1 and 2, and the frame of the
parameters as it was. -/
theorem accepted_declarations_nested_blocks :
    accepted_declarations node_type_code (.local_of 0)
      (parameter_table 0 ["x"]).hashmap.entries (parameter_table 0 ["x"]).symbols.length
      nested_blocks =
      ([⟨"y", .SYMBOL_LOCAL_VAR, 1, some (.local_of 0)⟩,
        ⟨"z", .SYMBOL_LOCAL_VAR, 2, some (.local_of 0)⟩],
       [⟨"x", .SYMBOL_PARAMETER, 0, some (.local_of 0)⟩]) := by
  rfl

/-! ## Uses that are not shadowed -/

mutual
/-- Under a declaration that is in scope no use is read. -/
theorem unshadowed_uses_shadowed (code : NodeType → Nat) (name : String) :
    ∀ (node : Node) (in_statement : Bool),
      unshadowed_uses code name in_statement true node = ([], true)
  | .mk t d s cs, in_statement => by
    rw [unshadowed_uses]
    simp only [unshadowed_uses_children_shadowed code name cs, if_true]
    split_ifs <;> rfl
theorem unshadowed_uses_children_shadowed (code : NodeType → Nat) (name : String) :
    ∀ (cs : List Node) (in_statement : Bool),
      unshadowed_uses_children code name in_statement true cs = ([], true)
  | [], _ => rfl
  | c :: cs, in_statement => by
    rw [unshadowed_uses_children, unshadowed_uses_shadowed code name c,
      unshadowed_uses_children_shadowed code name cs]
    rfl
end

mutual
theorem bind_statement_identifier_data_unshadowed (code : NodeType → Nat)
    (global : List Symbol) (name : String) :
    ∀ (node : Node) (state state1 : BindState) (node1 : Node) (table : SymbolTable),
      bind_statement_identifier_data global state node = .ok (state1, node1) →
      state.local_symbols = some table →
      table.hashmap.reaches_global = true → name ∉ table.hashmap.local_names →
      ∀ (in_statement shadowed : Bool),
        ∀ s ∈ (unshadowed_uses code name in_statement shadowed node1).1,
          s = frame_lookup global name
  | .mk t d s cs, state, state1, node1, table, h, ht, hr, hn => by
    rw [bind_statement_identifier_data] at h
    by_cases h1 : t = .IDENTIFIER_DATA
    · simp only [if_pos h1, ht] at h
      cases hd : d.as_string with
      | error e => rw [hd] at h; cases h
      | ok n =>
        rw [hd] at h
        simp only [Except.ok.injEq, Prod.mk.injEq] at h
        obtain ⟨rfl, rfl⟩ := h
        intro st sh s1 hs1
        rw [unshadowed_uses, if_pos h1] at hs1
        by_cases hdn : d = .str name
        · rw [if_pos hdn] at hs1
          rw [hdn] at hd
          simp only [Payload.as_string, Except.ok.injEq] at hd
          cases st
          · simp at hs1
          · cases sh
            · simp only [if_true, Bool.false_eq_true, if_false, List.mem_singleton] at hs1
              rw [hs1, ← hd]
              exact symbol_hashmap_lookup_global global name table.hashmap hr hn
            · simp at hs1
        · rw [if_neg hdn] at hs1
          cases hs1
    · simp only [if_neg h1] at h
      by_cases h2 : t = .STRING_DATA
      · simp only [if_pos h2, Except.ok.injEq, Prod.mk.injEq] at h
        obtain ⟨rfl, rfl⟩ := h
        intro st sh s1 hs1
        simp [unshadowed_uses] at hs1
      · simp only [if_neg h2] at h
        cases hc : bind_statement_identifier_data_children global state cs with
        | error e => rw [hc] at h; cases h
        | ok p =>
          obtain ⟨state2, cs1⟩ := p
          rw [hc] at h
          simp only [Except.ok.injEq, Prod.mk.injEq] at h
          obtain ⟨rfl, rfl⟩ := h
          have ih := bind_statement_identifier_data_children_unshadowed code global name cs state
            state2 cs1 table hc ht hr hn
          intro st sh s1 hs1
          rw [unshadowed_uses, if_neg h1] at hs1
          split_ifs at hs1
          · cases hs1
          · exact ih _ _ s1 hs1
          · exact ih _ _ s1 hs1
theorem bind_statement_identifier_data_children_unshadowed (code : NodeType → Nat)
    (global : List Symbol) (name : String) :
    ∀ (cs : List Node) (state state1 : BindState) (cs1 : List Node) (table : SymbolTable),
      bind_statement_identifier_data_children global state cs = .ok (state1, cs1) →
      state.local_symbols = some table →
      table.hashmap.reaches_global = true → name ∉ table.hashmap.local_names →
      ∀ (in_statement shadowed : Bool),
        ∀ s ∈ (unshadowed_uses_children code name in_statement shadowed cs1).1,
          s = frame_lookup global name
  | [], state, state1, cs1, table, h, _, _, _ => by
    rw [bind_statement_identifier_data_children] at h
    simp only [Except.ok.injEq, Prod.mk.injEq] at h
    obtain ⟨rfl, rfl⟩ := h
    intro st sh s1 hs1
    simp [unshadowed_uses_children] at hs1
  | c :: cs, state, state1, cs1, table, h, ht, hr, hn => by
    rw [bind_statement_identifier_data_children] at h
    cases hc : bind_statement_identifier_data global state c with
    | error e => rw [hc] at h; cases h
    | ok p =>
      obtain ⟨state2, c1⟩ := p
      rw [hc] at h
      simp only at h
      cases hcs : bind_statement_identifier_data_children global state2 cs with
      | error e => rw [hcs] at h; cases h
      | ok q =>
        obtain ⟨state3, cs2⟩ := q
        rw [hcs] at h
        simp only [Except.ok.injEq, Prod.mk.injEq] at h
        obtain ⟨rfl, rfl⟩ := h
        have hl := bind_statement_identifier_data_local_symbols global c state state2 c1 hc
        have ih1 := bind_statement_identifier_data_unshadowed code global name c state state2 c1
          table hc ht hr hn
        have ih2 := bind_statement_identifier_data_children_unshadowed code global name cs state2
          state3 cs2 table hcs (hl.trans ht) hr hn
        intro st sh s1 hs1
        rw [unshadowed_uses_children, List.mem_append] at hs1
        rcases hs1 with hs1 | hs1
        · exact ih1 _ _ s1 hs1
        · exact ih2 _ _ s1 hs1
end

/-- An insertion under another name leaves a name where it was in the table's
own frames. -/
theorem symbol_table_insert_mem_local_names (table : SymbolTable) (symbol : Symbol)
    (name : String) (hne : name ≠ symbol.name)
    (h : name ∈ (symbol_table_insert table symbol).1.hashmap.local_names) :
    name ∈ table.hashmap.local_names := by
  unfold symbol_table_insert at h
  cases hl : frame_lookup table.hashmap.entries symbol.name with
  | some s => rw [hl] at h; exact h
  | none =>
    rw [hl] at h
    simp only at h
    rw [Hashmap.mem_local_names_set_entries] at h
    rcases h with h | h
    · exact h
    · exact absurd h hne

theorem symbol_table_insert_reaches_global (table : SymbolTable) (symbol : Symbol) :
    (symbol_table_insert table symbol).1.hashmap.reaches_global =
      table.hashmap.reaches_global := by
  unfold symbol_table_insert
  cases frame_lookup table.hashmap.entries symbol.name with
  | some s => rfl
  | none => exact Hashmap.reaches_global_set_entries _ _

mutual
/-- Binding a node of a function body: as long as every frame that holds `name`
is known to the flag `shadowed`, the same is true afterwards, and the uses of
`name` that are not shadowed are bound to the entry of the global table. -/
theorem bind_names_unshadowed (code : NodeType → Nat) (global : List Symbol) (id : TableId)
    (name : String) :
    ∀ (node : Node) (state state1 : BindState) (node1 : Node) (table : SymbolTable)
      (shadowed : Bool),
      bind_names code global id state node = .ok (state1, node1) →
      state.local_symbols = some table →
      table.hashmap.reaches_global = true →
      (name ∈ table.hashmap.local_names → shadowed = true) →
      (∃ table1, state1.local_symbols = some table1 ∧
        table1.hashmap.reaches_global = true ∧
        (name ∈ table1.hashmap.local_names →
          (unshadowed_uses code name false shadowed node1).2 = true)) ∧
      ∀ s ∈ (unshadowed_uses code name false shadowed node1).1, s = frame_lookup global name
  | .mk t d s cs, state, state1, node1, table, sh, h, ht, hr, hn => by
    have h0 := h
    rw [bind_names] at h
    by_cases h1 : t = .IDENTIFIER_DATA
    · simp only [if_pos h1, ht] at h
      cases hds : d.as_string with
      | error e => rw [hds] at h; cases h
      | ok n =>
        rw [hds] at h
        simp only at h
        have hdn : d = .str n := by
          cases d <;> simp only [Payload.as_string, Except.ok.injEq, reduceCtorEq] at hds
          rw [hds]
        have hrg := symbol_table_insert_reaches_global table ⟨n, .SYMBOL_LOCAL_VAR, 0, some id⟩
        have hmem := symbol_table_insert_mem_local_names table
          ⟨n, .SYMBOL_LOCAL_VAR, 0, some id⟩ name
        rcases hins : symbol_table_insert table ⟨n, .SYMBOL_LOCAL_VAR, 0, some id⟩
          with ⟨table1, r⟩
        rw [hins] at h hrg hmem
        have hs1 : state1.local_symbols = some table1 ∧ node1 = .mk t d s cs := by
          cases r <;>
          · simp only [Except.ok.injEq, Prod.mk.injEq] at h
            obtain ⟨rfl, rfl⟩ := h
            exact ⟨rfl, rfl⟩
        obtain ⟨hs1, rfl⟩ := hs1
        rw [unshadowed_uses, if_pos h1]
        by_cases hname : d = .str name
        · rw [if_pos hname]
          exact ⟨⟨table1, hs1, hrg.trans hr, fun _ => rfl⟩, fun s1 hs1 => by cases hs1⟩
        · rw [if_neg hname]
          refine ⟨⟨table1, hs1, hrg.trans hr, fun hm => hn (hmem ?_ hm)⟩,
            fun s1 hs1 => by cases hs1⟩
          intro he
          apply hname
          rw [hdn, he]
    · simp only [if_neg h1] at h
      by_cases h2 : t = .STRING_DATA
      · simp only [if_pos h2, Except.ok.injEq, Prod.mk.injEq] at h
        obtain ⟨rfl, rfl⟩ := h
        rw [unshadowed_uses]
        simp only [reduceCtorEq, if_false, or_true, if_true, List.not_mem_nil, false_imp_iff,
          implies_true, and_true]
        refine ⟨table, ((add_string_spec state d).2.2.1).trans ht, hr, fun hm => ?_⟩
        rw [hn hm, unshadowed_uses_children_shadowed]
      · simp only [if_neg h2] at h
        by_cases h3 : 6 ≤ code t ∧ code t ≤ 11
        · simp only [if_pos h3] at h
          have hl := bind_statement_identifier_data_local_symbols global _ state state1 node1 h
          refine ⟨⟨table, hl.trans ht, hr, fun hm => ?_⟩, ?_⟩
          · rw [hn hm, unshadowed_uses_shadowed]
          · cases sh
            · have hnot : name ∉ table.hashmap.local_names := fun hm => by
                have := hn hm
                cases this
              exact bind_statement_identifier_data_unshadowed code global name _ state state1
                node1 table h ht hr hnot false false
            · rw [unshadowed_uses_shadowed]
              intro s1 hs1
              cases hs1
        · simp only [if_neg h3] at h
          by_cases h4 : t = .BLOCK
          · simp only [if_pos h4, ht] at h
            split at h
            · cases h
            · rename_i state2 cs1 hc
              split at h
              · cases h
              · rename_i table2 ht2
                simp only [Except.ok.injEq, Prod.mk.injEq] at h
                obtain ⟨rfl, rfl⟩ := h
                have ih := bind_names_children_unshadowed code global id name cs _ state2 cs1
                  { table with hashmap := .nested [] table.hashmap } sh hc rfl hr
                  (by simpa [Hashmap.local_names] using hn)
                obtain ⟨table3, e3, i3, ht3, hh3, _⟩ :=
                  bind_names_children_grown code global id cs _ state2 cs1
                    { table with hashmap := .nested [] table.hashmap } hc rfl
                rw [ht2, Option.some.injEq] at ht3
                subst ht3
                have hpop : table2.hashmap.pop = table.hashmap := by
                  simp only [hh3, Hashmap.set_entries, Hashmap.pop]
                rw [unshadowed_uses, if_neg h1]
                simp only [h4, reduceCtorEq, or_self, if_false, if_true]
                refine ⟨⟨_, rfl, ?_, ?_⟩, ih.2⟩
                · simp only [hpop]
                  exact hr
                · simp only [hpop]
                  exact hn
          · simp only [if_neg h4] at h
            cases hc : bind_names_children code global id state cs with
            | error e => rw [hc] at h; cases h
            | ok p =>
              obtain ⟨state2, cs1⟩ := p
              rw [hc] at h
              simp only [Except.ok.injEq, Prod.mk.injEq] at h
              obtain ⟨rfl, rfl⟩ := h
              have ih := bind_names_children_unshadowed code global id name cs state state2 cs1
                table sh hc ht hr hn
              rw [unshadowed_uses, if_neg h1]
              by_cases h5 : t = .STRING_DATA ∨ t = .STRING_LIST_REFERENCE
              · rw [if_pos h5]
                simp only [List.not_mem_nil, false_imp_iff, implies_true, and_true]
                exact ih.1
              · rw [if_neg h5, if_neg h4]
                simp only [Bool.false_or, h3, decide_False]
                exact ih
theorem bind_names_children_unshadowed (code : NodeType → Nat) (global : List Symbol)
    (id : TableId) (name : String) :
    ∀ (cs : List Node) (state state1 : BindState) (cs1 : List Node) (table : SymbolTable)
      (shadowed : Bool),
      bind_names_children code global id state cs = .ok (state1, cs1) →
      state.local_symbols = some table →
      table.hashmap.reaches_global = true →
      (name ∈ table.hashmap.local_names → shadowed = true) →
      (∃ table1, state1.local_symbols = some table1 ∧
        table1.hashmap.reaches_global = true ∧
        (name ∈ table1.hashmap.local_names →
          (unshadowed_uses_children code name false shadowed cs1).2 = true)) ∧
      ∀ s ∈ (unshadowed_uses_children code name false shadowed cs1).1,
        s = frame_lookup global name
  | [], state, state1, cs1, table, sh, h, ht, hr, hn => by
    rw [bind_names_children] at h
    simp only [Except.ok.injEq, Prod.mk.injEq] at h
    obtain ⟨rfl, rfl⟩ := h
    exact ⟨⟨table, ht, hr, hn⟩, by simp [unshadowed_uses_children]⟩
  | c :: cs, state, state1, cs1, table, sh, h, ht, hr, hn => by
    rw [bind_names_children] at h
    cases hc : bind_names code global id state c with
    | error e => rw [hc] at h; cases h
    | ok p =>
      obtain ⟨state2, c1⟩ := p
      rw [hc] at h
      simp only at h
      cases hcs : bind_names_children code global id state2 cs with
      | error e => rw [hcs] at h; cases h
      | ok q =>
        obtain ⟨state3, cs2⟩ := q
        rw [hcs] at h
        simp only [Except.ok.injEq, Prod.mk.injEq] at h
        obtain ⟨rfl, rfl⟩ := h
        obtain ⟨⟨table2, ht2, hr2, hn2⟩, hu1⟩ := bind_names_unshadowed code global id name c
          state state2 c1 table sh hc ht hr hn
        obtain ⟨hi2, hu2⟩ := bind_names_children_unshadowed code global id name cs state2 state3
          cs2 table2 _ hcs ht2 hr2 hn2
        rw [unshadowed_uses_children]
        refine ⟨hi2, ?_⟩
        intro s1 hs1
        rw [List.mem_append] at hs1
        rcases hs1 with hs1 | hs1
        · exact hu1 s1 hs1
        · exact hu2 s1 hs1
end


/-! ## The global table on an arbitrary tree -/

theorem mem_identifier_names_children : ∀ (cs : List Node) (c : Node) (x : String),
    c ∈ cs → c.type = .IDENTIFIER_DATA → x ∈ c.data.strings → x ∈ identifier_names_children cs
  | [], _, _, h, _, _ => by cases h
  | c0 :: cs, c, x, h, ht, hx => by
    rw [identifier_names_children, List.mem_append]
    rcases List.mem_cons.mp h with rfl | h
    · left
      obtain ⟨t, d, s, k⟩ := c
      simp only [Node.type_mk] at ht
      simp only [Node.data_mk] at hx
      rw [identifier_names, if_pos ht, List.mem_append]
      exact Or.inl hx
    · right
      exact mem_identifier_names_children cs c x h ht hx

mutual
/-- The identifiers that `find_globals` takes from a declaration are among the
identifiers of the declaration. -/
theorem find_identifiers_parent_names : ∀ (node : Node) (p : Node),
    find_identifiers_parent node = .ok (some p) →
    ∀ c ∈ p.children, c.type = .IDENTIFIER_DATA → ∀ x ∈ c.data.strings,
      x ∈ identifier_names node
  | .mk t d s [], p, h => by
    simp only [find_identifiers_parent] at h
    cases h
  | .mk t d s (c0 :: rest), p, h => by
    simp only [find_identifiers_parent] at h
    intro c hc ht x hx
    rw [identifier_names, List.mem_append]
    right
    by_cases h0 : c0.type = .IDENTIFIER_DATA
    · rw [if_pos h0] at h
      simp only [Except.ok.injEq, Option.some.injEq] at h
      subst h
      exact mem_identifier_names_children _ c x hc ht hx
    · rw [if_neg h0] at h
      exact find_identifiers_parent_children_names (c0 :: rest) p h c hc ht x hx
theorem find_identifiers_parent_children_names : ∀ (cs : List Node) (p : Node),
    find_identifiers_parent_children cs = .ok (some p) →
    ∀ c ∈ p.children, c.type = .IDENTIFIER_DATA → ∀ x ∈ c.data.strings,
      x ∈ identifier_names_children cs
  | [], p, h => by
    rw [find_identifiers_parent_children] at h
    cases h
  | c0 :: cs, p, h => by
    rw [find_identifiers_parent_children] at h
    intro c hc ht x hx
    rw [identifier_names_children, List.mem_append]
    cases h0 : find_identifiers_parent c0 with
    | error e => rw [h0] at h; cases h
    | ok r =>
      rw [h0] at h
      cases r with
      | some q =>
        simp only [Except.ok.injEq, Option.some.injEq] at h
        subst h
        exact Or.inl (find_identifiers_parent_names c0 q h0 c hc ht x hx)
      | none =>
        simp only at h
        exact Or.inr (find_identifiers_parent_children_names cs p h c hc ht x hx)
end

/-- The uses of `g` that are not shadowed in the bound body of `f` of the
instance: the call after the nested block, and not the assignment inside it. -/
theorem unshadowed_uses_local_in_nested_block :
    local_in_nested_block_result.2.children.map (fun child =>
      (child.children.drop 2).map (fun body =>
        (unshadowed_uses node_type_code "g" false false body).1)) =
      [[[some ⟨"g", .SYMBOL_FUNCTION, 1, some (.local_of 1)⟩]], [[]]] := by
  rfl

/-! ## `create_tables` returns -/

end Vslc
